import Mathlib

/-! # Cronz: percent-encoding, IP literals and URLs

A shallow embedding of the Cronz C++ library (`include/cronz`) and the
properties of its specification, proved or refuted on that embedding.

Conventions of the embedding.

* A C++ `char` / `std::uint8_t` is a `Byte` (`Fin 256`); arithmetic that C++
  performs in a wider type and then truncates is written on `Nat` with an
  explicit `% 256`.
* A `std::string`, and a `const char *` together with its length, is a `Str`
  (`List Byte`).  A pointer that walks through a string is the suffix that is
  still in front of it.
* A member function that mutates its object takes the object and returns the
  new object; an out-parameter becomes a component of the result.
* Allocation never fails, so the `catch (...)` branches are not modelled.
* A write through `operator[]` or `memcpy` that lies inside the buffer replaces
  the byte; one that lies outside it (undefined behaviour in C++) is dropped, and
  a read outside the buffer yields the NUL byte.
* A loop that walks through its input by a varying amount carries a fuel
  argument, so that every definition is structurally recursive and evaluates;
  the section "The fuel of the loops is never used up" shows that the result
  does not depend on the fuel once it exceeds the length of the remaining input.

The definitions come first, in the order of the source files; the notions of
the specification that the properties are stated with follow; the properties
are last.
-/

namespace Cronz

/-! ## Bytes, strings and buffers -/

/-- One C++ `char` (or `std::uint8_t`). -/
abbrev Byte := Fin 256

/-- The contents of a `std::string` or of a `(const char *, length)` pair. -/
abbrev Str := List Byte

/-- Truncation of an integer to `std::uint8_t`. -/
def toByte (n : Nat) : Byte := ⟨n % 256, Nat.mod_lt n (by decide)⟩

/-- The byte of an ASCII character literal. -/
def ch (c : Char) : Byte := toByte c.toNat

/-- The bytes of an ASCII string literal. -/
def str (s : String) : Str := s.data.map ch

/-- The call `std::string::resize(n)`: truncate, or pad with NUL bytes. -/
def resize (s : Str) (n : Nat) : Str := s.take n ++ List.replicate (n - s.length) 0

/-- The call `memcpy(&dst[o], src, |src|)`. -/
def writeAt : Str → Nat → Str → Str
  | dst, _, [] => dst
  | dst, o, b :: bs => writeAt (dst.set o b) (o + 1) bs

/-- The call `std::ranges::find(p, end, c) - p`: the offset of the first `c`, or the
length of the range when there is none. -/
def findChar (c : Byte) : Str → Nat
  | [] => 0
  | b :: bs => if b = c then 0 else findChar c bs + 1

/-! ## Hex digits (`crypto/impl/hex.ipp`) -/

namespace Crypto

/-- The table `HexDigitsLowercase`. -/
def HexDigitsLowercase : List Byte := str "0123456789abcdef"

/-- The table `HexDigitsUppercase`. -/
def HexDigitsUppercase : List Byte := str "0123456789ABCDEF"

/-- The function `Crypto::IsHexDigit(nibble)`.  The comparisons are those of `char`; the
three ranges lie below 128, so the signedness of `char` does not matter. -/
def IsHexDigit (nibble : Byte) : Bool :=
  (ch '0' ≤ nibble && nibble ≤ ch '9') || (ch 'a' ≤ nibble && nibble ≤ ch 'f') ||
    (ch 'A' ≤ nibble && nibble ≤ ch 'F')

/-- The function `Crypto::GetHexDigitValue(nibble)`. -/
def GetHexDigitValue (nibble : Byte) : Byte :=
  if ch '0' ≤ nibble && nibble ≤ ch '9' then toByte (nibble.val - (ch '0').val)
  else if ch 'a' ≤ nibble && nibble ≤ ch 'f' then toByte (nibble.val - (ch 'a').val + 10)
  else if ch 'A' ≤ nibble && nibble ≤ ch 'F' then toByte (nibble.val - (ch 'A').val + 10)
  else 0

/-- The function `Crypto::ByteToHex<Lowercase>(byte, n1, n2)`, returning `(n1, n2)`. -/
def ByteToHex (lowercase : Bool) (byte : Byte) : Byte × Byte :=
  let digits := if lowercase then HexDigitsLowercase else HexDigitsUppercase
  (digits.getD ((byte.val >>> 4) &&& 0x0F) 0, digits.getD (byte.val &&& 0x0F) 0)

/-- The function `Crypto::HexToByte(n1, n2, byte)`: `none` when it returns `false` (and
leaves `byte` alone), `some byte` when it returns `true`. -/
def HexToByte (n1 n2 : Byte) : Option Byte :=
  if !IsHexDigit n1 || !IsHexDigit n2 then none
  else some (toByte (((GetHexDigitValue n1).val <<< 4) ||| (GetHexDigitValue n2).val))

end Crypto

/-! ## Hex digits of the URL module (`url/hex.hpp`) -/

/-- Modelled from the spec: the implementation file `url/impl/hex.ipp` of `URL::ByteToHex`
is not among the sources; only its declaration in `url/hex.hpp` is.  The declaration
documents the contract of `Crypto::ByteToHex` word for word, and the specification has
`Encode` write an unsafe byte as `%` and two uppercase hex nibbles, so the function is
taken to be `Crypto::ByteToHex`. -/
def ByteToHex (lowercase : Bool) (byte : Byte) : Byte × Byte := Crypto.ByteToHex lowercase byte

/-- Modelled from the spec: the implementation file `url/impl/hex.ipp` of `URL::HexToByte`
is not among the sources; only its declaration in `url/hex.hpp` is.  The declaration
documents the contract of `Crypto::HexToByte` word for word (`true` exactly when both
nibbles are hex digits), so the function is taken to be `Crypto::HexToByte`. -/
def HexToByte (n1 n2 : Byte) : Option Byte := Crypto.HexToByte n1 n2

/-! ## Percent-encoding (`url/impl/encode.ipp`, `url/impl/decode.ipp`) -/

/-- The function `ShouldEncodeCharacter(character)`.  Every byte that the comparisons
accept lies below 128, so the signedness of `char` does not matter. -/
def ShouldEncodeCharacter (c : Byte) : Bool :=
  !((ch 'a' ≤ c && c ≤ ch 'z') || (ch 'A' ≤ c && c ≤ ch 'Z') || (ch '0' ≤ c && c ≤ ch '9') ||
    ch '-' = c || ch '_' = c || ch '.' = c || ch '!' = c || ch '~' = c || ch '*' = c ||
    ch '\'' = c || ch '(' = c || ch ')' = c)

/-- The function `CalculateEncodedLength(decoded, length)`. -/
def CalculateEncodedLength (decoded : Str) : Nat :=
  decoded.foldl (fun l c => l + (if ShouldEncodeCharacter c then 3 else 1)) 0

/-- The function `Encode(decoded, length, char *encoded)` with `encoded = &buf[o]`: the
buffer after the writes and the returned count `j`.  The first argument is the part of
`decoded` from index `i` on. -/
def EncodeAt.loop : Str → Str → Nat → Nat → Str × Nat
  | [], buf, _, j => (buf, j)
  | c :: rest, buf, o, j =>
    if ShouldEncodeCharacter c then
      let buf1 := buf.set (o + j) (ch '%')
      let n := ByteToHex false c
      let buf2 := (buf1.set (o + (j + 1)) n.1).set (o + (j + 1 + 1)) n.2
      EncodeAt.loop rest buf2 o (j + 1 + 2)
    else
      EncodeAt.loop rest (buf.set (o + j) c) o (j + 1)

/-- The function `Encode(decoded, length, char *encoded)` with `encoded = &buf[o]`. -/
def EncodeAt (decoded : Str) (buf : Str) (o : Nat) : Str × Nat :=
  EncodeAt.loop decoded buf o 0

/-- The function `Encode(decoded, length, std::string &encoded)`: the returned flag and
the new contents of `encoded`. -/
def EncodeTo (decoded : Str) (encoded : Str) : Bool × Str :=
  let encodedLength := CalculateEncodedLength decoded
  (true, (EncodeAt decoded (resize encoded encodedLength) 0).1)

/-- The function `Encode(decoded)` returning a string. -/
def Encode (decoded : Str) : Str := (EncodeTo decoded []).2

/-- The loop of `EncodeInPlace`; the last argument is `decodedLength - dIndex + 1`, the
number of source bytes not yet moved.  `c` is a reference into the buffer, so the byte
handed to `ByteToHex` is read after `str[eIndex] = '%'` has been executed. -/
def EncodeInPlace.loop : Str → Nat → Nat → Str
  | buf, _, 0 => buf
  | buf, eIndex, p + 1 =>
    if ShouldEncodeCharacter (buf.getD p 0) then
      let eIndex1 := eIndex - 3
      let buf1 := buf.set eIndex1 (ch '%')
      let n := ByteToHex false (buf1.getD p 0)
      let buf2 := (buf1.set (eIndex1 + 1) n.1).set (eIndex1 + 2) n.2
      EncodeInPlace.loop buf2 eIndex1 p
    else
      EncodeInPlace.loop (buf.set (eIndex - 1) (buf.getD p 0)) (eIndex - 1) p

/-- The function `EncodeInPlace(str)`: the returned flag and the new contents of `str`. -/
def EncodeInPlace (s : Str) : Bool × Str :=
  let decodedLength := s.length
  let encodedLength := CalculateEncodedLength s
  if encodedLength = decodedLength then (true, s)
  else (true, EncodeInPlace.loop (resize s encodedLength) encodedLength decodedLength)

/-- The loop of `CalculateDecodedLength`, on the part of `encoded` from index `i` on;
`none` stands for leaving the loop with `i > length`. -/
def CalculateDecodedLength.loop : Str → Nat → Option Nat
  | [], l => some l
  | c :: rest, l =>
    if ch '%' = c then
      match rest with
      | _ :: _ :: rest2 => CalculateDecodedLength.loop rest2 (l + 1)
      | _ => none
    else CalculateDecodedLength.loop rest (l + 1)

/-- The function `CalculateDecodedLength(encoded, length)`; `none` is the sentinel
`std::numeric_limits<std::size_t>::max()`. -/
def CalculateDecodedLength (encoded : Str) : Option Nat :=
  CalculateDecodedLength.loop encoded 0

/-- The loop of `Decode`, on the part of `encoded` from index `i` on.  The case of a
`'%'` with fewer than two bytes behind it cannot be reached after the length pass. -/
def Decode.loop : Str → Str → Nat → Bool × Str
  | [], decoded, _ => (true, decoded)
  | c :: rest, decoded, j =>
    if ch '%' = c then
      match rest with
      | n1 :: n2 :: rest2 =>
        match Crypto.HexToByte n1 n2 with
        | some b => Decode.loop rest2 (decoded.set j b) (j + 1)
        | none => (false, decoded)
      | _ => (false, decoded)
    else Decode.loop rest (decoded.set j c) (j + 1)

/-- The function `Decode(encoded, length, std::string &decoded)`: the returned flag and
the new contents of `decoded`. -/
def Decode (encoded : Str) (decoded : Str) : Bool × Str :=
  match CalculateDecodedLength encoded with
  | none => (false, decoded)
  | some decodedLength => Decode.loop encoded (resize decoded decodedLength) 0

/-- The function `Decode(encoded)` returning a string, which ignores the flag. -/
def DecodeValue (encoded : Str) : Str := (Decode encoded []).2

/-! ## Base64 (`crypto/base64.hpp`, `crypto/impl/base64.ipp`) -/

namespace Crypto

/-- The constant `Base64Alphabet`. -/
def Base64Alphabet : Str :=
  str "ABCDEFGHIJKLMNOPQRSTUVWXYZabcdefghijklmnopqrstuvwxyz0123456789+/"

/-- The constant `Base64PaddingCharacter`. -/
def Base64PaddingCharacter : Byte := ch '='

/-- The loop `for (const char &character : alphabet) b64map[character] = index++`. -/
def GenerateBase64IndicesMap.loop : Str → Nat → Str → Str
  | [], _, b64map => b64map
  | character :: rest, index, b64map =>
    GenerateBase64IndicesMap.loop rest (index + 1) (b64map.set character.val (toByte index))

/-- The function `GenerateBase64IndicesMap(alphabet)`: 256 entries, filled with `'\0'` and
then set to the position of each character of the alphabet. -/
def GenerateBase64IndicesMap (alphabet : Str) : Str :=
  GenerateBase64IndicesMap.loop alphabet 0 (List.replicate 256 0)

/-- The constant `Base64AlphabetIndicesMap`. -/
def Base64AlphabetIndicesMap : Str := GenerateBase64IndicesMap Base64Alphabet

/-- The function `IsInBase64AlphabetIndicesMap(character, alphabet)`.  The encoded texts
looked at here are ASCII, so the index `character` is not negative. -/
def IsInBase64AlphabetIndicesMap (character : Byte) (alphabet : Str) : Bool :=
  0 != alphabet.getD character.val 0

/-- The floor of the binary logarithm of `n` (0 for `n < 2`); the fuel bounds the number
of halvings. -/
def binaryExponent : Nat → Nat → Nat
  | 0, _ => 0
  | fuel + 1, n => if 2 ≤ n then binaryExponent fuel (n / 2) + 1 else 0

/-- The integer nearest to `num / den`, the even one of the two when it lies half-way. -/
def roundHalfEven (num den : Nat) : Nat :=
  let q := num / den
  let r := num % den
  if 2 * r < den then q
  else if den < 2 * r then q + 1
  else if q % 2 = 0 then q else q + 1

/-- The `float` (IEEE single precision: a significand of 24 bits, rounding to nearest, ties
to even) nearest to the rational `num / den`, for `1 ≤ num / den < 2 ^ 128`, as a fraction
`(numerator, denominator)` whose denominator is a power of two. -/
def roundToFloat (num den : Nat) : Nat × Nat :=
  let e := binaryExponent 128 (num / den)
  if 23 ≤ e then (roundHalfEven num (den * 2 ^ (e - 23)) * 2 ^ (e - 23), 1)
  else (roundHalfEven (num * 2 ^ (23 - e)) den, 2 ^ (23 - e))

/-- The expression `static_cast<std::size_t>(std::ceil(static_cast<float>(4.0) *
static_cast<float>(length) / static_cast<float>(3.0)))` for `1 ≤ length`: the conversion
of `length` rounds to a `float`, the product with 4 is exact, the quotient by 3 rounds to
a `float`, and `ceil` and the conversion back are exact. -/
def CalculateBase64EncodedLength.ceilFloat (length : Nat) : Nat :=
  let f1 := roundToFloat length 1
  let f2 := (4 * f1.1, f1.2)
  let f3 := roundToFloat f2.1 (3 * f2.2)
  (f3.1 + f3.2 - 1) / f3.2

/-- The function `CalculateBase64EncodedLength<Padded>(length)`.  The unpadded length of a
length that is no multiple of 3 is computed in `float`; from the length 6291457 on that is
not always the integer ceiling of `4 * length / 3`. -/
def CalculateBase64EncodedLength (padded : Bool) (length : Nat) : Nat :=
  if 0 = length then 0
  else
    let len :=
      if 0 = length % 3 then 4 * (length / 3) else CalculateBase64EncodedLength.ceilFloat length
    if padded then (if 0 = len % 4 then len else len + (4 - len % 4)) else len

/-- The loop `while (end != pos)` of `Base64Encode<Padded>`, on the input from `pos` on.
The operands of `+` that read and assign `c` are taken left to right, as the expected
texts of the test require.  A write past the buffer is dropped. -/
def Base64Encode.loop (padded : Bool) (alphabet : Str) : Str → Str → Nat → Str
  | [], encoded, _ => encoded
  | [c], encoded, offset =>
    let e1 := encoded.set offset (alphabet.getD ((c.val >>> 2) &&& 0x3F) 0)
    let e2 := e1.set (offset + 1) (alphabet.getD ((c.val <<< 4) &&& 0x3F) 0)
    if padded then
      (e2.set (offset + 2) Base64PaddingCharacter).set (offset + 3) Base64PaddingCharacter
    else e2
  | [c, c1], encoded, offset =>
    let e1 := encoded.set offset (alphabet.getD ((c.val >>> 2) &&& 0x3F) 0)
    let e2 := e1.set (offset + 1) (alphabet.getD (((c.val <<< 4) + (c1.val >>> 4)) &&& 0x3F) 0)
    let e3 := e2.set (offset + 2) (alphabet.getD ((c1.val <<< 2) &&& 0x3F) 0)
    if padded then e3.set (offset + 3) Base64PaddingCharacter
    else e3.set (offset + 3) (alphabet.getD (c1.val &&& 0x3F) 0)
  | c :: c1 :: c2 :: rest, encoded, offset =>
    let e1 := encoded.set offset (alphabet.getD ((c.val >>> 2) &&& 0x3F) 0)
    let e2 := e1.set (offset + 1) (alphabet.getD (((c.val <<< 4) + (c1.val >>> 4)) &&& 0x3F) 0)
    let e3 := e2.set (offset + 2) (alphabet.getD (((c1.val <<< 2) + (c2.val >>> 6)) &&& 0x3F) 0)
    let e4 := e3.set (offset + 3) (alphabet.getD (c2.val &&& 0x3F) 0)
    Base64Encode.loop padded alphabet rest e4 (offset + 4)

/-- The function `Base64Encode<Padded>(data, length, encoded, alphabet)`: the returned
flag and the new contents of `encoded`. -/
def Base64EncodeTo (padded : Bool) (data : Str) (encoded : Str) (alphabet : Str) : Bool × Str :=
  let len := CalculateBase64EncodedLength padded data.length
  (true, Base64Encode.loop padded alphabet data (resize encoded len) 0)

/-- The function `Base64Encode<Padded>(str, alphabet)` returning a string. -/
def Base64Encode (padded : Bool) (data : Str) (alphabet : Str) : Str :=
  let r := Base64EncodeTo padded data [] alphabet
  if !r.1 then [] else r.2

/-- The loop `while (end != pos)` of `Base64Decode`, on the input from `pos` on: the flag
is `false` when the function executes `return false` inside the loop; then come the
buffer, the offset and the input left at that moment (at `after_loop` when the flag is
`true`). -/
def Base64Decode.loop (alphabet : Str) : Str → Str → Nat → Bool × Str × Nat × Str
  | [], decoded, offset => (true, decoded, offset, [])
  | [c0], decoded, offset => (false, decoded, offset, [c0])
  | [c0, c1], decoded, offset =>
    if !IsInBase64AlphabetIndicesMap c0 alphabet || !IsInBase64AlphabetIndicesMap c1 alphabet then
      (false, decoded, offset, [c1])
    else
      (true, decoded.set offset (toByte (((alphabet.getD c0.val 0).val <<< 2) |||
        ((alphabet.getD c1.val 0).val >>> 4))), offset + 1, [])
  | [c0, c1, c2], decoded, offset =>
    if !IsInBase64AlphabetIndicesMap c0 alphabet || !IsInBase64AlphabetIndicesMap c1 alphabet then
      (false, decoded, offset, [c1, c2])
    else
      let d1 := decoded.set offset (toByte (((alphabet.getD c0.val 0).val <<< 2) |||
        ((alphabet.getD c1.val 0).val >>> 4)))
      if ch '=' = c2 then (false, d1, offset + 1, [])
      else if !IsInBase64AlphabetIndicesMap c2 alphabet then (false, d1, offset + 1, [c2])
      else
        (true, d1.set (offset + 1) (toByte ((((alphabet.getD c1.val 0).val <<< 4) &&& 0xF0) |||
          ((alphabet.getD c2.val 0).val >>> 2))), offset + 2, [])
  | c0 :: c1 :: c2 :: c3 :: rest, decoded, offset =>
    if !IsInBase64AlphabetIndicesMap c0 alphabet || !IsInBase64AlphabetIndicesMap c1 alphabet then
      (false, decoded, offset, c1 :: c2 :: c3 :: rest)
    else
      let d1 := decoded.set offset (toByte (((alphabet.getD c0.val 0).val <<< 2) |||
        ((alphabet.getD c1.val 0).val >>> 4)))
      if ch '=' = c2 then
        (if ch '=' ≠ c3 then (false, d1, offset + 1, c3 :: rest) else (true, d1, offset + 1, rest))
      else if !IsInBase64AlphabetIndicesMap c2 alphabet then (false, d1, offset + 1, c2 :: c3 :: rest)
      else
        let d2 := d1.set (offset + 1) (toByte ((((alphabet.getD c1.val 0).val <<< 4) &&& 0xF0) |||
          ((alphabet.getD c2.val 0).val >>> 2)))
        if ch '=' = c3 then (true, d2, offset + 2, rest)
        else
          Base64Decode.loop alphabet rest
            (d2.set (offset + 2) (toByte ((((alphabet.getD c2.val 0).val <<< 6) &&& 0xC0) |||
              (alphabet.getD c3.val 0).val)))
            (offset + 3)

/-- The function `Base64Decode(encoded, length, decoded, alphabet)`: the returned flag
and the new contents of `decoded`, which is resized to the offset only at `after_loop`. -/
def Base64DecodeTo (encoded : Str) (decoded : Str) (alphabet : Str) : Bool × Str :=
  let r := Base64Decode.loop alphabet encoded (resize decoded encoded.length) 0
  if !r.1 then (false, r.2.1)
  else (decide (r.2.2.2 = []), resize r.2.1 r.2.2.1)

/-- The function `Base64Decode(encoded, alphabet)` returning a string. -/
def Base64Decode (encoded : Str) (alphabet : Str) : Str :=
  let r := Base64DecodeTo encoded [] alphabet
  if !r.1 then [] else r.2

end Crypto

/-! ## IPv4 addresses (`ip/address/impl/v4.ipp`) -/

/-- The class `IPv4Address`: the four bytes of the union (`bytes[0]` … `bytes[3]`). -/
structure IPv4Address where
  b0 : Byte
  b1 : Byte
  b2 : Byte
  b3 : Byte
  deriving DecidableEq, Repr

namespace IPv4Address

/-- The address after `uint32 = 0`, which is also the default-constructed address. -/
def zero : IPv4Address := ⟨0, 0, 0, 0⟩

/-- The array `bytes`. -/
def bytes (a : IPv4Address) : List Byte := [a.b0, a.b1, a.b2, a.b3]

/-- The read `bytes[i]` (for `i ≤ 3`). -/
def get (a : IPv4Address) (i : Nat) : Byte :=
  match i with
  | 0 => a.b0
  | 1 => a.b1
  | 2 => a.b2
  | _ => a.b3

/-- The write `bytes[i] = v` (for `i ≤ 3`). -/
def set (a : IPv4Address) (i : Nat) (v : Byte) : IPv4Address :=
  match i with
  | 0 => { a with b0 := v }
  | 1 => { a with b1 := v }
  | 2 => { a with b2 := v }
  | _ => { a with b3 := v }

/-- The inner loop `while (previous < current)` of `parse` over one group: the flag is
`false` when the loop executes `return false`, and the byte is the value of the reference
`byte` when the loop is left. -/
def parse.group : Str → Byte → Bool × Byte
  | [], byte => (true, byte)
  | c :: rest, byte =>
    if ch '0' ≤ c && c ≤ ch '9' then
      let digit := toByte (c.val - (ch '0').val)
      if 25 < byte || (25 == byte && 5 < digit) then (false, byte)
      else parse.group rest (toByte (byte.val * 10 + digit.val))
    else (false, byte)

/-- The outer loop `while (previous < end)` of `parse`; `previous` is the text from the
pointer `previous` to `end`.  Every iteration consumes at least one character, so the
fuel `length + 1` handed over by `parse` is never used up. -/
def parse.loop : Nat → Str → Nat → IPv4Address → Bool × IPv4Address
  | 0, _, _, a => (false, a)
  | fuel + 1, previous, byteIndex, a =>
    if previous.length = 0 then (4 == byteIndex, a)
    else if 3 < byteIndex then (false, a)
    else
      let byteLength := findChar (ch '.') previous
      if 0 == byteLength || byteLength > 3 then (false, a)
      else
        let r := parse.group (previous.take byteLength) (a.get byteIndex)
        if r.1 then parse.loop fuel (previous.drop (byteLength + 1)) (byteIndex + 1) (a.set byteIndex r.2)
        else (false, a.set byteIndex r.2)

/-- The member function `IPv4Address::parse(str, length)`: the returned flag and the
address afterwards. -/
def parse (a : IPv4Address) (s : Str) : Bool × IPv4Address :=
  if 7 > s.length || s.length > 15 then (false, a)
  else parse.loop (s.length + 1) s 0 zero

/-- The loop `while (9 < byte)` of `length` for one byte; a byte is below 256, so the body
runs at most twice. -/
def length.digits : Nat → Byte → Nat → Nat
  | 0, _, len => len
  | fuel + 1, byte, len =>
    if 9 < byte then length.digits fuel (toByte (byte.val / 10)) (len + 1) else len

/-- The member function `IPv4Address::length()`. -/
def length (a : IPv4Address) : Nat :=
  a.bytes.foldl (fun len byte => length.digits 2 byte len) 7

/-- The call `std::swap(str[i], str[j])`. -/
def swapAt (buf : Str) (i j : Nat) : Str :=
  (buf.set i (buf.getD j 0)).set j (buf.getD i 0)

/-- The `do … while (0 != byte)` loop of `stringify` for one byte: buffer, offset and
digit count afterwards.  A byte is below 256, so the body runs at most three times. -/
def stringify.digits : Nat → Str → Nat → Byte → Nat → Str × Nat × Nat
  | 0, buf, offset, _, len => (buf, offset, len)
  | fuel + 1, buf, offset, byte, len =>
    let buf1 := buf.set offset (toByte ((ch '0').val + byte.val % 10))
    let byte1 := toByte (byte.val / 10)
    if 0 ≠ byte1 then stringify.digits fuel buf1 (offset + 1) byte1 (len + 1)
    else (buf1, offset + 1, len + 1)

/-- The body of the loop `for (std::uint8_t byte : bytes)` of `stringify`. -/
def stringify.step (st : Str × Nat) (byte : Byte) : Str × Nat :=
  let buf0 := if 0 ≠ st.2 then st.1.set st.2 (ch '.') else st.1
  let offset0 := if 0 ≠ st.2 then st.2 + 1 else st.2
  let r := stringify.digits 3 buf0 offset0 byte 0
  let offset := r.2.1
  let buf :=
    if 2 == r.2.2 then swapAt r.1 (offset - 1) (offset - 2)
    else if 3 == r.2.2 then swapAt r.1 (offset - 1) (offset - 3)
    else r.1
  (buf, offset)

/-- The member function `IPv4Address::stringify(std::string &str)`: the returned flag and
the new contents of `str`. -/
def stringifyTo (a : IPv4Address) (s : Str) : Bool × Str :=
  (true, (a.bytes.foldl stringify.step (resize s a.length, 0)).1)

/-- The member function `IPv4Address::stringify()` returning a string. -/
def stringify (a : IPv4Address) : Str :=
  let r := a.stringifyTo []
  if !r.1 then [] else r.2

end IPv4Address

/-! ## IPv6 addresses (`ip/address/impl/v6.ipp`) -/

/-- The constant `std::numeric_limits<std::size_t>::max()` of a 64-bit target. -/
def SIZE_MAX : Nat := 2 ^ 64 - 1

/-- Subtraction of two `std::size_t` values, which wraps around. -/
def subSize (a b : Nat) : Nat := (a + 2 ^ 64 - b % 2 ^ 64) % 2 ^ 64

/-- The struct `IPv6Address`: the sixteen bytes of the union, `bytes[0]` … `bytes[15]`.
The 16-bit group `groups[i]` is the byte pair `bytes[2 i]`, `bytes[2 i + 1]`; it is zero
exactly when both bytes are zero, whatever the byte order of the machine. -/
structure IPv6Address where
  bytes : List Byte
  deriving DecidableEq, Repr

namespace IPv6Address

/-- The address after `reset()`, which is also the default-constructed address. -/
def zero : IPv6Address := ⟨List.replicate 16 0⟩

/-- The read `bytes[i]`; a read past the array (undefined behaviour in C++) yields 0. -/
def byteAt (a : IPv6Address) (i : Nat) : Byte := a.bytes.getD i 0

/-- The test `static_cast<std::uint16_t>(0) == groups[i]`. -/
def groupIsZero (a : IPv6Address) (i : Nat) : Bool :=
  a.byteAt (2 * i) == 0 && a.byteAt (2 * i + 1) == 0

/-- The call `memcpy(&groups[i], bytes.data(), 2)` with `bytes = {b1, b2}`. -/
def setGroup (a : IPv6Address) (i : Nat) (b1 b2 : Byte) : IPv6Address :=
  ⟨(a.bytes.set (2 * i) b1).set (2 * i + 1) b2⟩

/-- The call `std::swap(groups[i], groups[j])`. -/
def swapGroups (a : IPv6Address) (i j : Nat) : IPv6Address :=
  (a.setGroup i (a.byteAt (2 * j)) (a.byteAt (2 * j + 1))).setGroup j (a.byteAt (2 * i))
    (a.byteAt (2 * i + 1))

/-- The loop of `findLargestZeroSequence` from group index `i` on (the second argument
counts the groups still to visit): the pairs `test` and `sequence` afterwards. -/
def findLargestZeroSequence.loop (a : IPv6Address) :
    Nat → Nat → (Nat × Nat) → (Nat × Nat) → (Nat × Nat) × (Nat × Nat)
  | _, 0, test, sequence => (test, sequence)
  | i, n + 1, test, sequence =>
    if a.groupIsZero i then
      let test1 : Nat × Nat := (if SIZE_MAX = test.1 then i else test.1, i)
      findLargestZeroSequence.loop a (i + 1) n test1 sequence
    else if SIZE_MAX ≠ test.1 then
      let sequence1 :=
        if SIZE_MAX = test.1 ∨ subSize test.2 test.1 > subSize sequence.2 sequence.1 then test
        else sequence
      findLargestZeroSequence.loop a (i + 1) n (SIZE_MAX, SIZE_MAX) sequence1
    else findLargestZeroSequence.loop a (i + 1) n test sequence

/-- The member function `findLargestZeroSequence(sequence)`: the returned flag and the
pair `sequence` afterwards. -/
def findLargestZeroSequence (a : IPv6Address) (sequence : Nat × Nat) : Bool × (Nat × Nat) :=
  let r := findLargestZeroSequence.loop a 0 8 (SIZE_MAX, SIZE_MAX) sequence
  let test := r.1
  let sequence1 := if SIZE_MAX ≠ test.1 ∧ SIZE_MAX ≠ test.2 then test else r.2
  (decide (SIZE_MAX ≠ sequence1.1) && decide (SIZE_MAX ≠ sequence1.2), sequence1)

/-- The group text right-aligned in the array `characters`, which is filled with `'0'`. -/
def parse.characters (group : Str) : Str :=
  List.replicate (4 - group.length) (ch '0') ++ group

/-- The loop `while (doubleColonsPos < groupIndex)` of `parse`, which moves the groups read
after the `::` to the end of the array; it runs at most eight times. -/
def parse.spread : Nat → IPv6Address → Nat → Nat → Nat → Nat → IPv6Address
  | 0, a, _, _, _, _ => a
  | fuel + 1, a, doubleColonsPos, numFilledGroups, i, groupIndex =>
    if doubleColonsPos < groupIndex then
      parse.spread fuel (a.swapGroups (doubleColonsPos + numFilledGroups - i) (8 - i))
        (doubleColonsPos + 1) (numFilledGroups - 1) (i + 1) groupIndex
    else a

/-- The part of `parse` behind the main loop. -/
def parse.finish (s : Str) (a : IPv6Address) (groupIndex : Nat) (doubleColons : Bool)
    (doubleColonsPos : Nat) : Bool × IPv6Address :=
  if !doubleColons && ch ':' == s.getD (s.length - 1) 0 then (false, a)
  else if doubleColons then
    let numFilledGroups := subSize groupIndex doubleColonsPos
    if 0 = numFilledGroups then (decide (2 = s.length), a)
    else (true, parse.spread 8 a doubleColonsPos numFilledGroups 1 groupIndex)
  else (decide (groupIndex = 8), a)

/-- The main loop `while (previous < end)` of `parse`; `previous` is an index into the
whole text `s`.  Every iteration advances `previous`, so the fuel `length + 1` handed
over by `parse` is never used up. -/
def parse.loop (s : Str) : Nat → Nat → IPv6Address → Nat → Bool → Nat → Bool × IPv6Address
  | 0, _, a, _, _, _ => (false, a)
  | fuel + 1, previous, a, groupIndex, doubleColons, doubleColonsPos =>
    if ¬ previous < s.length then parse.finish s a groupIndex doubleColons doubleColonsPos
    else if 8 = groupIndex then (false, a)
    else
      let currentLength := findChar (ch ':') (s.drop previous)
      let current := previous + currentLength
      if 4 < currentLength then (false, a)
      else if 0 = currentLength then
        if current = s.length - 1 then (true, a)
        else if current = 0 then
          if ch ':' ≠ s.getD (current + 1) 0 then (false, a)
          else parse.loop s fuel (current + 1 + 1) a groupIndex true groupIndex
        else if doubleColons || decide (current + 1 ≥ s.length) ||
            ch ':' != s.getD (current - 1) 0 then (false, a)
        else parse.loop s fuel (current + 1) a groupIndex true groupIndex
      else
        let characters := parse.characters ((s.drop previous).take currentLength)
        match HexToByte (characters.getD 0 0) (characters.getD 1 0),
            HexToByte (characters.getD 2 0) (characters.getD 3 0) with
        | some b1, some b2 =>
          parse.loop s fuel (current + 1) (a.setGroup groupIndex b1 b2) (groupIndex + 1)
            doubleColons doubleColonsPos
        | _, _ => (false, a)

/-- The member function `IPv6Address::parse(str, length)`: the returned flag and the
address afterwards. -/
def parse (a : IPv6Address) (s : Str) : Bool × IPv6Address :=
  if 2 > s.length || s.length > 39 then (false, a)
  else parse.loop s (s.length + 1) 0 zero 0 false SIZE_MAX

/-- The pair `sequence` and the flag `_` computed at the start of `length<true>` and of
`stringify<true>`; the pair is value-initialised to `(0, 0)`. -/
def compressedSequence (a : IPv6Address) : Bool × (Nat × Nat) :=
  let r := a.findLargestZeroSequence (0, 0)
  (r.1 || decide (1 ≤ subSize r.2.2 r.2.1), r.2)

/-- The loop over the groups of `length<true>`. -/
def lengthCompressed.loop (a : IPv6Address) (sequence : Nat × Nat) : Nat → Nat → Nat → Nat
  | _, 0, len => len
  | groupIndex, n + 1, len =>
    if sequence.1 ≤ groupIndex ∧ groupIndex ≤ sequence.2 then
      lengthCompressed.loop a sequence (groupIndex + 1) n len
    else
      let b1 := a.byteAt (2 * groupIndex)
      let b2 := a.byteAt (2 * groupIndex + 1)
      let len1 :=
        if 0 ≠ b1 then (if 16 ≤ b1 then len + 3 + 1 else len + 3)
        else (if 16 ≤ b2 then len + 1 + 1 else len + 1)
      lengthCompressed.loop a sequence (groupIndex + 1) n len1

/-- The member function `IPv6Address::length<true>()`. -/
def lengthCompressed (a : IPv6Address) : Nat :=
  let r := a.compressedSequence
  let sequence := r.2
  let len0 :=
    if r.1 then
      (subSize 7 (subSize sequence.2 sequence.1)) + (if 0 = sequence.1 then 1 else 0) +
        (if 7 = sequence.2 then 1 else 0)
    else 7
  lengthCompressed.loop a sequence 0 8 len0

/-- The loop of `stringify<true>`: buffer, offset `o` and flag `n`, from group index
`groupIndex` on, while `o < len`. -/
def stringifyCompressed.loop (a : IPv6Address) (sequence : Nat × Nat) (len : Nat) :
    Nat → Str → Nat → Nat → Bool → Str
  | 0, buf, _, _, _ => buf
  | fuel + 1, buf, o, groupIndex, n =>
    if ¬ o < len then buf
    else if sequence.1 ≤ groupIndex ∧ groupIndex ≤ sequence.2 then
      let n1 := decide (sequence.2 = groupIndex)
      if sequence.1 = groupIndex ∨ n1 = true then
        stringifyCompressed.loop a sequence len fuel (buf.set o (ch ':')) (o + 1) (groupIndex + 1) n1
      else stringifyCompressed.loop a sequence len fuel buf o (groupIndex + 1) n1
    else
      let buf0 := if 0 ≠ o ∧ n = false then buf.set o (ch ':') else buf
      let o0 := if 0 ≠ o ∧ n = false then o + 1 else o
      let b1 := a.byteAt (2 * groupIndex)
      let b2 := a.byteAt (2 * groupIndex + 1)
      let h1 := ByteToHex true b1
      let h2 := ByteToHex true b2
      if 0 ≠ b1 then
        let buf1 := if 16 ≤ b1 then (buf0.set o0 h1.1).set (o0 + 1) h1.2 else buf0.set o0 h1.2
        let o1 := if 16 ≤ b1 then o0 + 2 else o0 + 1
        stringifyCompressed.loop a sequence len fuel ((buf1.set o1 h2.1).set (o1 + 1) h2.2) (o1 + 2)
          (groupIndex + 1) false
      else
        let buf1 := if 16 ≤ b2 then (buf0.set o0 h2.1).set (o0 + 1) h2.2 else buf0.set o0 h2.2
        let o1 := if 16 ≤ b2 then o0 + 2 else o0 + 1
        stringifyCompressed.loop a sequence len fuel buf1 o1 (groupIndex + 1) false

/-- The member function `IPv6Address::stringify<true>(std::string &str)`: the returned
flag and the new contents of `str`.  From group 8 on every iteration advances `o`, so the
fuel `8 + len + 1` is never used up. -/
def stringifyCompressedTo (a : IPv6Address) (s : Str) : Bool × Str :=
  let len := a.lengthCompressed
  let sequence := a.compressedSequence.2
  (true, stringifyCompressed.loop a sequence len (8 + len + 1) (resize s len) 0 0 false)

/-- The member function `IPv6Address::stringify<true>()` returning a string. -/
def stringifyCompressed (a : IPv6Address) : Str :=
  let r := a.stringifyCompressedTo []
  if !r.1 then [] else r.2

/-- The eight bytes from `bytes[k]` on read as one `std::uint64_t` (least significant byte
first; the value is zero in either byte order exactly when the eight bytes are zero). -/
def uint64At (a : IPv6Address) (k : Nat) : Nat :=
  (List.range 8).foldr (fun i v => (a.byteAt (k + i)).val + 256 * v) 0

/-- The member `low64` of the union: the first eight bytes. -/
def low64 (a : IPv6Address) : Nat := a.uint64At 0

/-- The member `high64` of the union: the last eight bytes. -/
def high64 (a : IPv6Address) : Nat := a.uint64At 8

/-- The conversion `operator bool()`. -/
def toBool (a : IPv6Address) : Bool := decide (0 ≠ a.low64) && decide (0 ≠ a.high64)

end IPv6Address

/-! ## Scheme (`url/impl/scheme.ipp`) -/

/-- The class `Scheme`. -/
structure Scheme where
  value_ : Str
  deriving DecidableEq, Repr

namespace Scheme

/-- The member function `clear()`. -/
def clear (_ : Scheme) : Scheme := ⟨[]⟩

/-- The member function `empty()`. -/
def empty (s : Scheme) : Bool := s.value_.isEmpty

/-- The member function `length()`. -/
def length (s : Scheme) : Nat := s.value_.length

/-- The loop `for (auto &c : temp)` of `setValue`: the lowercased copy, or `none` when the
loop executes `return false`. -/
def setValue.lower : Str → Option Str
  | [] => some []
  | c :: rest =>
    if (ch 'a' ≤ c && c ≤ ch 'z') || (ch '0' ≤ c && c ≤ ch '9') || ch '+' == c || ch '-' == c ||
        ch '.' == c then
      (setValue.lower rest).map (fun t => c :: t)
    else if ch 'A' ≤ c && c ≤ ch 'Z' then
      (setValue.lower rest).map (fun t => toByte (c.val + ((ch 'a').val - (ch 'A').val)) :: t)
    else none

/-- The member function `setValue(value, length)`: the returned flag and the scheme
afterwards. -/
def setValue (s : Scheme) (value : Str) : Bool × Scheme :=
  if 0 = value.length then (true, s.clear)
  else
    match setValue.lower value with
    | none => (false, s)
    | some temp =>
      if !(ch 'a' ≤ temp.getD 0 0 && temp.getD 0 0 ≤ ch 'z') then (false, s)
      else (true, ⟨temp⟩)

/-- The member function `stringify(std::string &str, offset)`: the returned flag and the
new contents of `str`. -/
def stringifyAt (s : Scheme) (buf : Str) (offset : Nat) : Bool × Str :=
  let len := s.value_.length + offset
  let buf1 := if len > buf.length then resize buf len else buf
  (true, writeAt buf1 offset s.value_)

/-- The call `std::ranges::all_of(value_, lambda)` of `operator==(const std::string &)`
from position `offset` on.  The lambda receives the byte `c` of `value_` and compares it
with `c2 = value_[offset++]`, a byte of `value_` as well. -/
def eqString.allOf (value_ : Str) : Str → Nat → Bool
  | [], _ => true
  | c :: rest, offset =>
    let c2 := value_.getD offset 0
    if c == c2 || (if ch 'A' ≤ c && c ≤ ch 'Z' then decide (c2.val = c.val - (ch ' ').val) else false)
    then eqString.allOf value_ rest (offset + 1)
    else false

/-- The operator `operator==(const std::string &scheme)`. -/
def eqString (s : Scheme) (scheme : Str) : Bool :=
  decide (scheme.length = s.value_.length) && eqString.allOf s.value_ s.value_ 0

end Scheme

/-! ## Port (`url/authority/impl/port.ipp`) -/

/-- The type `Port`, a `std::uint16_t`. -/
abbrev Port := Fin 65536

/-- Truncation of an integer to `std::uint16_t`. -/
def toPort (n : Nat) : Port := ⟨n % 65536, Nat.mod_lt n (by decide)⟩

/-- The loop of `ParsePort(str, length, port)` from index `i` on: the flag is `false` when
the loop executes `return false`. -/
def ParsePortTo.loop : Str → Nat → Port → Bool × Port
  | [], _, port => (true, port)
  | c :: rest, i, port =>
    if ch '0' ≤ c && c ≤ ch '9' then
      let digit := toPort (c.val - (ch '0').val)
      if 4 ≠ i then ParsePortTo.loop rest (i + 1) (toPort (port.val * 10 + digit.val))
      else if 6553 < port then (false, port)
      else if 6553 == port && 6 < digit then (false, port)
      else ParsePortTo.loop rest (i + 1) (toPort (port.val * 10 + digit.val))
    else (false, port)

/-- The function `ParsePort(str, length, Port &port)`: the returned flag and `port`
afterwards. -/
def ParsePortTo (s : Str) (port : Port) : Bool × Port :=
  if 0 = s.length || s.length > 5 then (false, port)
  else ParsePortTo.loop s 0 0

/-- The function `ParsePort(str, length)` returning the port, `0` upon failure. -/
def ParsePort (s : Str) : Port :=
  let r := ParsePortTo s 0
  if r.1 then r.2 else 0

/-- The loop of `CalculatePortLength`; a port is below 65536, so the body runs at most
four times. -/
def CalculatePortLength.loop : Nat → Port → Nat → Nat
  | 0, _, len => len
  | fuel + 1, port, len =>
    if 9 < port then CalculatePortLength.loop fuel (toPort (port.val / 10)) (len + 1) else len

/-- The function `CalculatePortLength(port)`. -/
def CalculatePortLength (port : Port) : Nat := CalculatePortLength.loop 4 port 1

/-- The loop `while (len != offset)` of `StringifyPort`; the first argument is
`len - offset`. -/
def StringifyPortAt.loop : Nat → Str → Nat → Port → Str
  | 0, buf, _, _ => buf
  | n + 1, buf, offset, p =>
    StringifyPortAt.loop n (buf.set (offset + n) (toByte ((ch '0').val + p.val % 10))) offset
      (toPort (p.val / 10))

/-- The function `StringifyPort(port, str, offset)`: the returned flag and the new contents
of `str`. -/
def StringifyPortAt (port : Port) (buf : Str) (offset : Nat) : Bool × Str :=
  let portLength := CalculatePortLength port
  let len := portLength + offset
  let buf1 := if len > buf.length then resize buf len else buf
  (true, StringifyPortAt.loop portLength buf1 offset port)

/-! ## User information (`url/authority/impl/user.ipp`) -/

/-- The class `UserInformation`. -/
structure UserInformation where
  user_ : Str
  password_ : Str
  deriving DecidableEq, Repr

namespace UserInformation

/-- The member function `clear()`. -/
def clear (_ : UserInformation) : UserInformation := ⟨[], []⟩

/-- The member function `empty()`. -/
def empty (u : UserInformation) : Bool := u.user_.isEmpty && u.password_.isEmpty

/-- The member function `parse(str, length)`: the returned flag and the object
afterwards. -/
def parse (u : UserInformation) (s : Str) : Bool × UserInformation :=
  let separator := findChar (ch ':') s
  let ru := Decode (s.take separator) []
  if !ru.1 then (false, u)
  else if s.length ≠ separator then
    let rp := Decode (s.drop (separator + 1)) []
    if !rp.1 then (false, u) else (true, ⟨ru.2, rp.2⟩)
  else (true, ⟨ru.2, []⟩)

/-- The member function `length<IncludePassword>()`. -/
def length (u : UserInformation) (includePassword : Bool) : Nat :=
  if includePassword then CalculateEncodedLength u.user_ + CalculateEncodedLength u.password_ + 1
  else CalculateEncodedLength u.user_

/-- The member function `stringify<IncludePassword>(std::string &str, offset)`: the
returned flag and the new contents of `str`.  The resize is unconditional. -/
def stringifyAt (u : UserInformation) (includePassword : Bool) (buf : Str) (offset : Nat) :
    Bool × Str :=
  let newLength := offset + u.length includePassword
  let buf1 := resize buf newLength
  let r := EncodeAt u.user_ buf1 offset
  let o := offset + r.2
  if includePassword then
    (true, (EncodeAt u.password_ (r.1.set o (ch ':')) (o + 1)).1)
  else (true, r.1)

/-- The member function `stringify(std::string &str, const bool &includePassword)`, which
writes from offset 0. -/
def stringifyFlag (u : UserInformation) (buf : Str) (includePassword : Bool) : Bool × Str :=
  u.stringifyAt includePassword buf 0

/-- The member function `stringify<IncludePassword>()` returning a string. -/
def stringify (u : UserInformation) (includePassword : Bool) : Str :=
  (u.stringifyAt includePassword [] 0).2

end UserInformation

/-! ## Host (`url/authority/impl/host.ipp`) -/

/-- The type tags of `Host`: the `char` constants `None`, `IPv4`, `IPv6` and `Name`. -/
inductive HostType where
  | None
  | IPv4
  | IPv6
  | Name
  deriving DecidableEq, Repr

/-- The class `Host`. -/
structure Host where
  value_ : Str
  type_ : HostType
  deriving DecidableEq, Repr

namespace Host

/-- The member function `clear()`. -/
def clear (_ : Host) : Host := ⟨[], HostType.None⟩

/-- The member function `empty()`. -/
def empty (h : Host) : Bool := decide (HostType.None = h.type_)

/-- The member function `length()`. -/
def length (h : Host) : Nat := h.value_.length

/-- The static member function `validateLabel_(label, length)`. -/
def validateLabel_ (label : Str) : Bool :=
  decide (0 < label.length) && decide (label.length ≤ 63) &&
    (ch '-' != label.getD 0 0 && !(ch '0' ≤ label.getD 0 0 && label.getD 0 0 ≤ ch '9')) &&
    ch '-' != label.getD (label.length - 1) 0 &&
    label.all (fun c => (ch '0' ≤ c && c ≤ ch '9') || (ch 'a' ≤ c && c ≤ ch 'z') ||
      (ch 'A' ≤ c && c ≤ ch 'Z') || ch '-' == c)

/-- The member function `assign(const IP::IPv4Address &)`. -/
def assignIPv4 (h : Host) (address : IPv4Address) : Bool × Host :=
  let r := address.stringifyTo h.value_
  if r.1 then (true, ⟨r.2, HostType.IPv4⟩) else (false, h.clear)

/-- The member function `assign(const IP::IPv6Address &)`. -/
def assignIPv6 (h : Host) (address : IPv6Address) : Bool × Host :=
  let r := address.stringifyCompressedTo h.value_
  if r.1 then (true, ⟨r.2, HostType.IPv6⟩) else (false, h.clear)

/-- The loop `while (previous < end)` of `parse` over the labels: `false` when a label is
rejected.  Every iteration consumes at least one character, so the fuel `length + 1`
handed over by `parse` is never used up. -/
def parse.labels : Nat → Str → Bool
  | 0, _ => false
  | fuel + 1, previous =>
    if previous.length = 0 then true
    else
      let label := findChar (ch '.') previous
      if !validateLabel_ (previous.take label) then false
      else parse.labels fuel (previous.drop (label + 1))

/-- The member function `parse(str, length)`: the returned flag and the host afterwards. -/
def parse (h : Host) (s : Str) : Bool × Host :=
  if 0 = s.length || 255 < s.length then (false, h.clear)
  else if ch '[' == s.getD 0 0 && s.getD (s.length - 1) 0 == ch ']' then
    let r := IPv6Address.zero.parse ((s.drop 1).take (s.length - 2))
    if r.1 then h.assignIPv6 r.2 else (false, h)
  else if (ch '0' ≤ s.getD 0 0 && s.getD 0 0 ≤ ch '9') &&
      (IPv4Address.zero.parse s).1 then
    h.assignIPv4 (IPv4Address.zero.parse s).2
  else if !parse.labels (s.length + 1) s then (false, h.clear)
  else
    (true, ⟨s.map (fun c => if ch 'A' ≤ c && c ≤ ch 'Z' then toByte (c.val + (ch ' ').val) else c),
      HostType.Name⟩)

/-- The member function `stringify(std::string &str, offset)`: the returned flag and the
new contents of `str`. -/
def stringifyAt (h : Host) (buf : Str) (offset : Nat) : Bool × Str :=
  let len := h.length + offset
  let buf1 := if len > buf.length then resize buf len else buf
  (true, writeAt buf1 offset h.value_)

end Host

/-! ## Authority (`url/authority/impl/authority.ipp`) -/

/-- The class `Authority`. -/
structure Authority where
  userInformation : UserInformation
  host : Host
  port : Port
  deriving DecidableEq, Repr

namespace Authority

/-- The member function `clear()`. -/
def clear (a : Authority) : Authority := ⟨a.userInformation.clear, a.host.clear, 0⟩

/-- The member function `empty()`. -/
def empty (a : Authority) : Bool :=
  a.userInformation.empty && a.host.empty && decide (0 = a.port)

/-- The member function `length()`; `userInformation.length()` is `length<false>()`. -/
def length (a : Authority) : Nat :=
  let len0 := a.host.length
  let len1 := if !a.userInformation.empty then len0 + a.userInformation.length false + 1 else len0
  let len2 := if !a.host.empty then len1 + a.host.length else len1
  if 0 ≠ a.port then len2 + CalculatePortLength a.port + 1 else len2

/-- The member function `parse(str, length)`: the returned flag and the authority
afterwards.  The call `ParsePort(previous, end - previous)` is the overload that returns
the port; its result is only tested, the member `port` is not assigned. -/
def parse (a : Authority) (s : Str) : Bool × Authority :=
  let a0 := a.clear
  let next := findChar (ch '@') s
  let ru := if s.length ≠ next then a0.userInformation.parse (s.take next) else (true, a0.userInformation)
  if !ru.1 then (false, ({ a0 with userInformation := ru.2 } : Authority).clear)
  else
    let a1 : Authority := { a0 with userInformation := ru.2 }
    let previous := if s.length ≠ next then s.drop (next + 1) else s
    let next2 := findChar (ch ':') previous
    let rh := a1.host.parse (previous.take next2)
    let a2 : Authority := { a1 with host := rh.2 }
    if !rh.1 then (false, a2.clear)
    else if previous.length = next2 then (true, a2)
    else
      let previous2 := previous.drop (next2 + 1)
      if decide (0 < previous2.length) && decide (ParsePort previous2 = 0) then (false, a2.clear)
      else (true, a2)

/-- The member function `stringify(std::string &str, offset)`: the returned flag and the
new contents of `str`.  The call `userInformation.stringify(str, o)` is the overload
`stringify(std::string &, const bool &includePassword)`, with `includePassword = (o != 0)`. -/
def stringifyAt (a : Authority) (buf : Str) (offset : Nat) : Bool × Str :=
  if a.empty then (true, buf)
  else
    let len := a.length + offset
    let buf1 := if len > buf.length then resize buf len else buf
    let ru :=
      if !a.userInformation.empty then a.userInformation.stringifyFlag buf1 (decide (offset ≠ 0))
      else (true, buf1)
    if !ru.1 then (false, ru.2)
    else
      let o1 := if !a.userInformation.empty then offset + a.userInformation.length false else offset
      let buf2 := if !a.userInformation.empty then ru.2.set o1 (ch '@') else ru.2
      let o2 := if !a.userInformation.empty then o1 + 1 else o1
      let rh := a.host.stringifyAt buf2 o2
      if !rh.1 then (false, rh.2)
      else
        let o3 := o2 + a.host.length
        if 0 ≠ a.port then StringifyPortAt a.port (rh.2.set o3 (ch ':')) (o3 + 1)
        else (true, rh.2)

end Authority

/-! ## Path (`url/path/impl/manager.ipp`) -/

/-- The class `PathManager`: the vector `paths_` of decoded segments. -/
structure PathManager where
  paths_ : List Str
  deriving DecidableEq, Repr

namespace PathManager

/-- The member function `clear()`. -/
def clear (_ : PathManager) : PathManager := ⟨[]⟩

/-- The member function `empty()`. -/
def empty (p : PathManager) : Bool := p.paths_.isEmpty

/-- The member function `count()`. -/
def count (p : PathManager) : Nat := p.paths_.length

/-- The loop `while (previous < end)` of `parse`: the flag is `false` when the loop jumps
to `bad`; the vector and the counter `added` are those at that moment.  Every iteration
consumes at least one character, so the fuel `length + 1` handed over by `parse` is never
used up. -/
def parse.loop : Nat → Str → List Str → Nat → Bool × List Str × Nat
  | 0, _, paths, added => (false, paths, added)
  | fuel + 1, previous, paths, added =>
    if previous.length = 0 then (true, paths, added)
    else
      let currentLength := findChar (ch '/') previous
      if 0 ≠ currentLength then
        let r := Decode (previous.take currentLength) []
        if !r.1 then (false, paths, added)
        else parse.loop fuel (previous.drop (currentLength + 1)) (paths ++ [r.2]) (added + 1)
      else parse.loop fuel (previous.drop (currentLength + 1)) paths added

/-- The member function `parse(str, length)`: the returned flag and the manager
afterwards; at `bad` the last `added` segments are popped. -/
def parse (p : PathManager) (s : Str) : Bool × PathManager :=
  let r := parse.loop (s.length + 1) s p.paths_ 0
  if r.1 then (true, ⟨r.2.1⟩)
  else (false, ⟨r.2.1.take (r.2.1.length - r.2.2)⟩)

/-- The member function `length()`. -/
def length (p : PathManager) : Nat :=
  max (p.paths_.foldl (fun len path => len + CalculateEncodedLength path) p.count) 1

/-- The loop `for (const std::string &path : paths_)` of `stringify`. -/
def stringifyAt.loop : List Str → Str → Nat → Str
  | [], buf, _ => buf
  | path :: rest, buf, o =>
    let r := EncodeAt path (buf.set o (ch '/')) (o + 1)
    stringifyAt.loop rest r.1 (o + 1 + r.2)

/-- The member function `stringify(std::string &str, offset)`: the returned flag and the
new contents of `str`. -/
def stringifyAt (p : PathManager) (buf : Str) (offset : Nat) : Bool × Str :=
  let stringifiedLength := p.length + offset
  let buf1 := if stringifiedLength > buf.length then resize buf stringifiedLength else buf
  if p.empty then (true, buf1.set offset (ch '/'))
  else (true, stringifyAt.loop p.paths_ buf1 offset)

/-- The member function `stringify()` returning a string. -/
def stringify (p : PathManager) : Str := (p.stringifyAt [] 0).2

end PathManager

/-! ## Query fields (`url/query/impl/field.ipp`) -/

/-- An argument of type `const std::string &` of a member function of `QueryField`: a
string outside the field, or the field's own value string, to which `value()` and
`getValue()` return a reference.  No other string changes while the member functions
run. -/
inductive StringRef where
  | other (s : Str)
  | ownValue
  deriving DecidableEq, Repr

/-- The class `QueryField`: name, packed value string and the vector of value offsets. -/
structure QueryField where
  name_ : Str
  value_ : Str
  indices_ : List Nat
  deriving DecidableEq, Repr

namespace QueryField

/-- The constructor `QueryField(std::string name)`; `indices_` starts as `{0}`. -/
def new (name : Str) : QueryField := ⟨name, [], [0]⟩

/-- The member function `size()`. -/
def size (f : QueryField) : Nat := f.indices_.length

/-- The member function `isArray()`. -/
def isArray (f : QueryField) : Bool := decide (1 < f.size)

/-- The member function `getValueAt(position, const char *&value, length)`: `none` for the
null pointer, otherwise the `length` bytes that start at `value`.  The subtractions do not
go below zero on the offsets that `addValue` produces. -/
def getValueAt (f : QueryField) (position : Nat) : Option Str :=
  if position ≥ f.indices_.length then none
  else
    let start := f.indices_.getD position 0
    let stop :=
      if f.indices_.length = position + 1 then f.value_.length
      else f.indices_.getD (position + 1) 0 - 1
    some ((f.value_.drop start).take (stop - start))

/-- The loop `for (i = 0; i < size(); ++i)` of `splitValues(values)`, from index `i` on
(the first argument counts the indices still to visit): `values[i]` is overwritten with
the value at position `i`; when `getValueAt` fails the vector is cleared. -/
def splitValues.loop (f : QueryField) : Nat → Nat → List Str → Bool × List Str
  | 0, _, values => (true, values)
  | n + 1, i, values =>
    match f.getValueAt i with
    | none => (false, [])
    | some v => splitValues.loop f n (i + 1) (values.set i v)

/-- The member function `splitValues(std::vector<std::string> &values)`: the returned flag
and the vector afterwards; the vector is first resized to `indices_.size()` empty
strings. -/
def splitValues (f : QueryField) : Bool × List Str :=
  splitValues.loop f f.size 0 (List.replicate f.indices_.length [])

/-- What a reference reads while the field is in the state `f`. -/
def readRef (f : QueryField) : StringRef → Str
  | StringRef.other s => s
  | StringRef.ownValue => f.value_

/-- The member function `addValue(const std::string &value)`.  The argument is read by
`value_.append(value)`, after `value_.push_back(',')`. -/
def addValue (f : QueryField) (value : StringRef) : Bool × QueryField :=
  let f1 : QueryField :=
    { f with indices_ := f.indices_ ++ [f.value_.length + 1], value_ := f.value_ ++ [ch ','] }
  (true, { f1 with value_ := f1.value_ ++ f1.readRef value })

/-- The member function `setValue(const std::string &value)`. -/
def setValue (f : QueryField) (value : StringRef) : Bool × QueryField :=
  (true, { f with value_ := f.readRef value, indices_ := f.indices_.take 1 })

/-- The member function `setValueAt(position, const std::string &value)`.  `replace`
throws `std::out_of_range`, and the function returns `false`, when the offset lies behind
the string; it clips the count to the end of the string, and it inserts the characters
that the argument held when it was called, also when the argument is the string itself.
The tests and differences with `value.length()` behind `replace` read the argument again,
in the state `f1`.  The subtractions are those of `std::size_t`; they do not go below zero
on a field whose offsets increase and lie within the string. -/
def setValueAt (f : QueryField) (position : Nat) (value : StringRef) : Bool × QueryField :=
  if position ≥ f.indices_.length then f.addValue value
  else
    let first := f.indices_.getD position 0
    let second0 :=
      (if f.indices_.length = position + 1 then f.value_.length
       else f.indices_.getD (position + 1) 0) - first
    let second := if f.indices_.length ≠ position + 1 then second0 - 1 else second0
    if first > f.value_.length then (false, f)
    else
      let f1 : QueryField :=
        { f with value_ := f.value_.take first ++ f.readRef value ++ f.value_.drop (first + second) }
      let len := (f1.readRef value).length
      if second = len then (true, f1)
      else if len > second then
        (true, { f1 with indices_ := f1.indices_.take (position + 1) ++
                          (f1.indices_.drop (position + 1)).map (fun i => i + (len - second)) })
      else
        (true, { f1 with indices_ := f1.indices_.take (position + 1) ++
                          (f1.indices_.drop (position + 1)).map (fun i => i - (second - len)) })

/-- The member function `clearValues()`. -/
def clearValues (f : QueryField) : QueryField :=
  { f with value_ := [], indices_ := f.indices_.take 1 }

/-- The member function `removeValueAt(position)`.  `erase` throws `std::out_of_range`,
and the function returns `false`, when the offset lies behind the string.  The
subtractions are those of `std::size_t`; they do not go below zero on a field whose
offsets increase and lie within the string. -/
def removeValueAt (f : QueryField) (position : Nat) : Bool × QueryField :=
  if position ≥ f.indices_.length then (false, f)
  else if !f.isArray then (true, f.clearValues)
  else
    let first := f.indices_.getD position 0
    let second :=
      (if f.indices_.length = position + 1 then f.value_.length
       else f.indices_.getD (position + 1) 0) - first
    if first > f.value_.length then (false, f)
    else
      (true, { f with value_ := f.value_.take first ++ f.value_.drop (first + second),
                      indices_ := f.indices_.take position ++
                        (f.indices_.drop (position + 1)).map (fun i => i - second) })

/-- The loop over the values in the array branch of `length()`. -/
def length.values (f : QueryField) : Nat → Nat → Nat → Nat
  | 0, _, l => l
  | n + 1, i, l =>
    length.values f n (i + 1) (l + CalculateEncodedLength ((f.getValueAt i).getD []))

/-- The member function `length()`. -/
def length (f : QueryField) : Nat :=
  if f.isArray then
    length.values f f.indices_.length 0 (CalculateEncodedLength f.name_ + (f.size * 4 - 1))
  else CalculateEncodedLength f.name_ + CalculateEncodedLength f.value_ + 1

/-- The loop over the values in the array branch of `stringify`. -/
def stringifyAt.values (f : QueryField) (encodedName : Str) : Nat → Nat → Str → Nat → Str
  | 0, _, buf, _ => buf
  | n + 1, i, buf, o =>
    let buf0 := if 0 ≠ i then buf.set o (ch '&') else buf
    let o0 := if 0 ≠ i then o + 1 else o
    let buf1 := writeAt buf0 o0 encodedName
    let o1 := o0 + encodedName.length
    let buf2 := buf1.set o1 (ch '=')
    let r := EncodeAt ((f.getValueAt i).getD []) buf2 (o1 + 1)
    stringifyAt.values f encodedName n (i + 1) r.1 (o1 + 1 + r.2)

/-- The member function `stringify(std::string &str, offset)`: the returned flag and the
new contents of `str`. -/
def stringifyAt (f : QueryField) (buf : Str) (offset : Nat) : Bool × Str :=
  let len := offset + f.length
  let buf1 := if buf.length < len then resize buf len else buf
  if f.isArray then
    let encodedName := (EncodeTo f.name_ []).2 ++ str "[]"
    (true, stringifyAt.values f encodedName f.indices_.length 0 buf1 offset)
  else
    let r1 := EncodeAt f.name_ buf1 offset
    let o1 := offset + r1.2
    let r2 := EncodeAt f.value_ (r1.1.set o1 (ch '=')) (o1 + 1)
    (true, r2.1)

end QueryField

/-! ## Query (`url/query/impl/manager.ipp`) -/

/-- The class `QueryManager`: the vector `fields_`. -/
structure QueryManager where
  fields_ : List QueryField
  deriving DecidableEq, Repr

namespace QueryManager

/-- The member function `clear()`. -/
def clear (_ : QueryManager) : QueryManager := ⟨[]⟩

/-- The member function `empty()`. -/
def empty (q : QueryManager) : Bool := q.fields_.isEmpty

/-- The member function `get(name)`: the position of the first field with that name,
`none` for the null pointer. -/
def get : List QueryField → Str → Option Nat
  | [], _ => none
  | f :: rest, name => if name = f.name_ then some 0 else (get rest name).map (fun i => i + 1)

/-- An update through the pointer that `get` or `create` returned. -/
def modify (fields : List QueryField) (i : Nat) (g : QueryField → QueryField) : List QueryField :=
  match fields.get? i with
  | some f => fields.set i (g f)
  | none => fields

/-- The member function `create(name)`: the vector afterwards and the position of the
field. -/
def create (fields : List QueryField) (name : Str) : List QueryField × Nat :=
  match get fields name with
  | some i => (fields, i)
  | none => (fields ++ [QueryField.new name], fields.length)

/-- The loop `while (previous < end)` of `parse`, on the vector `fields_` and the set
`arrayMarkings`: the flag is `false` when the loop jumps to `bad`.  Every iteration
consumes at least one character, so the fuel `length + 1` handed over by `parse` is never
used up. -/
def parse.loop : Nat → Str → List QueryField → List Str → Bool × List QueryField
  | 0, _, fields, _ => (false, fields)
  | fuel + 1, previous, fields, arrayMarkings =>
    if previous.length = 0 then (true, fields)
    else
      let fieldSeparator := findChar (ch '&') previous
      let pair := previous.take fieldSeparator
      let valueSeparator := findChar (ch '=') pair
      let valueLength :=
        if valueSeparator = fieldSeparator then 0 else fieldSeparator - valueSeparator - 1
      let nameLength0 := valueSeparator
      let isArray := decide (2 ≤ nameLength0) && ch '[' == previous.getD (nameLength0 - 2) 0 &&
        ch ']' == previous.getD (nameLength0 - 1) 0
      let nameLength := if isArray then nameLength0 - 2 else nameLength0
      let rn := Decode (previous.take nameLength) []
      let rv := Decode ((previous.drop (valueSeparator + 1)).take valueLength) []
      if !rn.1 || !rv.1 then (false, fields)
      else
        let fieldName := rn.2
        let fieldValue := rv.2
        let next := previous.drop (fieldSeparator + 1)
        match get fields fieldName with
        | some i =>
          let isMarkedAsArray := arrayMarkings.contains fieldName
          let field := (fields.get? i).getD (QueryField.new fieldName)
          if isArray then
            if !isMarkedAsArray && !field.isArray then
              parse.loop fuel next (modify fields i (fun f => { f with value_ := fieldValue }))
                (fieldName :: arrayMarkings)
            else
              parse.loop fuel next
                (modify fields i (fun f => (f.addValue (StringRef.other fieldValue)).2))
                arrayMarkings
          else
            let arrayMarkings1 :=
              if isMarkedAsArray then arrayMarkings.filter (fun n => n != fieldName)
              else arrayMarkings
            let fields1 := if field.isArray then modify fields i QueryField.clearValues else fields
            parse.loop fuel next (modify fields1 i (fun f => { f with value_ := fieldValue }))
              arrayMarkings1
        | none =>
          let c := create fields fieldName
          let fields1 := modify c.1 c.2 (fun f => { f with value_ := fieldValue })
          parse.loop fuel next fields1
            (if isArray then fieldName :: arrayMarkings else arrayMarkings)

/-- The member function `parse(str, length)`: the returned flag and the manager
afterwards; at `bad` the copy `tempFields` taken at the start is swapped back in. -/
def parse (q : QueryManager) (s : Str) : Bool × QueryManager :=
  let tempFields := q.fields_
  let r := parse.loop (s.length + 1) s q.fields_ []
  if r.1 then (true, ⟨r.2⟩) else (false, ⟨tempFields⟩)

/-- The member function `length()`. -/
def length (q : QueryManager) : Nat :=
  if q.empty then 0
  else q.fields_.foldl (fun l field => l + field.length) (q.fields_.length - 1)

/-- The loop `for (const QueryFieldType &field : fields_)` of `stringify`: `none` when a
field fails to stringify. -/
def stringifyAt.loop (offset : Nat) : List QueryField → Str → Nat → Bool × Str
  | [], buf, _ => (true, buf)
  | field :: rest, buf, o =>
    let buf0 := if o ≠ offset then buf.set o (ch '&') else buf
    let o0 := if o ≠ offset then o + 1 else o
    let r := field.stringifyAt buf0 o0
    if !r.1 then (false, r.2)
    else stringifyAt.loop offset rest r.2 (o0 + field.length)

/-- The member function `stringify(std::string &str, offset)`: the returned flag and the
new contents of `str` (the `printf` of the source is not modelled). -/
def stringifyAt (q : QueryManager) (buf : Str) (offset : Nat) : Bool × Str :=
  let len := offset + q.length
  let buf1 := if len > buf.length then resize buf len else buf
  stringifyAt.loop offset q.fields_ buf1 offset

end QueryManager

/-! ## URL (`url/impl/url.ipp`) -/

/-- The class `URL`; `Fragment` is `std::string`. -/
structure URL where
  scheme : Scheme
  authority : Authority
  path : PathManager
  query : QueryManager
  fragment : Str
  deriving DecidableEq, Repr

/-- The call `std::ranges::search(beg, end, pattern)`: the offset of the first occurrence
of `pattern`, `none` when the returned range is empty. -/
def searchStr (pattern : Str) : Str → Option Nat
  | [] => none
  | c :: rest =>
    if pattern.isPrefixOf (c :: rest) then some 0
    else (searchStr pattern rest).map (fun i => i + 1)

/-- The call `std::ranges::find_first_of(beg, end, set) - beg`: the offset of the first
byte that occurs in `set`, or the length of the range. -/
def findFirstOf (set : Str) : Str → Nat
  | [] => 0
  | c :: rest => if set.contains c then 0 else findFirstOf set rest + 1

namespace URL

/-- The constant `SchemeSeparator`. -/
def SchemeSeparator : Str := str "://"

/-- A default-constructed `URL`. -/
def new : URL :=
  ⟨⟨[]⟩, ⟨⟨[], []⟩, ⟨[], HostType.None⟩, 0⟩, ⟨[]⟩, ⟨[]⟩, []⟩

/-- The member function `clear()`. -/
def clear (u : URL) : URL :=
  ⟨u.scheme.clear, u.authority.clear, u.path.clear, u.query.clear, []⟩

/-- The member function `empty()`. -/
def empty (u : URL) : Bool :=
  u.scheme.empty && u.authority.empty && u.path.empty && u.query.empty && u.fragment.isEmpty

/-- The member function `parseScheme_(beg, end)`: the returned flag, the URL and the text
from `beg` on afterwards. -/
def parseScheme_ (u : URL) (beg : Str) : Bool × URL × Str :=
  match searchStr SchemeSeparator beg with
  | some schemeLength =>
    if 0 = schemeLength then (false, u, beg)
    else
      let r := u.scheme.setValue (beg.take schemeLength)
      if !r.1 then (false, { u with scheme := r.2 }, beg)
      else (true, { u with scheme := r.2 }, beg.drop (schemeLength + SchemeSeparator.length))
  | none => (true, u, beg)

/-- The member function `parseAuthority_(beg, end)`. -/
def parseAuthority_ (u : URL) (beg : Str) : Bool × URL × Str :=
  let next := findFirstOf (str "/?#") beg
  if 0 = next then (u.scheme.empty, u, beg)
  else
    let r := u.authority.parse (beg.take next)
    if !r.1 then (false, { u with authority := r.2 }, beg)
    else (true, { u with authority := r.2 }, beg.drop (next + 1))

/-- The member function `parsePath_(beg, end)`. -/
def parsePath_ (u : URL) (beg : Str) : Bool × URL × Str :=
  let next := findFirstOf (str "?#") beg
  let r := u.path.parse (beg.take next)
  if !r.1 then (false, { u with path := r.2 }, beg)
  else (true, { u with path := r.2 }, beg.drop (next + 1))

/-- The member function `parseQuery_(beg, end)`. -/
def parseQuery_ (u : URL) (beg : Str) : Bool × URL × Str :=
  let next := findChar (ch '#') beg
  let r := u.query.parse (beg.take next)
  if !r.1 then (false, { u with query := r.2 }, beg)
  else (true, { u with query := r.2 }, beg.drop (next + 1))

/-- The member function `parseFragment_(beg, end)`. -/
def parseFragment_ (u : URL) (beg : Str) : Bool × URL × Str :=
  if beg.length = 0 then (true, u, beg)
  else (true, { u with fragment := writeAt (resize u.fragment beg.length) 0 beg }, beg)

/-- The member function `parse(str, length)`: the returned flag and the URL afterwards. -/
def parse (u : URL) (s : Str) : Bool × URL :=
  let r1 := u.parseScheme_ s
  if !r1.1 then (false, r1.2.1.clear)
  else
    let r2 := r1.2.1.parseAuthority_ r1.2.2
    if !r2.1 then (false, r2.2.1.clear)
    else
      let r3 := r2.2.1.parsePath_ r2.2.2
      if !r3.1 then (false, r3.2.1.clear)
      else
        let r4 := r3.2.1.parseQuery_ r3.2.2
        if !r4.1 then (false, r4.2.1.clear)
        else
          let r5 := r4.2.1.parseFragment_ r4.2.2
          if !r5.1 then (false, r5.2.1.clear)
          else (true, r5.2.1)

/-- The member function `length()`. -/
def length (u : URL) : Nat :=
  let len0 := if !u.scheme.empty then u.scheme.length + SchemeSeparator.length else 0
  let len1 := if !u.authority.empty then len0 + u.authority.length else len0
  let len2 := len1 + u.path.length
  let len3 := if !u.query.empty then len2 + u.query.length + 1 else len2
  if !u.fragment.isEmpty then len3 + u.fragment.length + 1 else len3

/-- The member function `stringify(std::string &str, offset)`: the returned flag and the
new contents of `str`. -/
def stringifyAt (u : URL) (buf : Str) (offset : Nat) : Bool × Str :=
  if !u.scheme.empty && u.authority.empty then (false, buf)
  else
    let len := offset + u.length
    let buf0 := if len > buf.length then resize buf len else buf
    let rs := if !u.scheme.empty then u.scheme.stringifyAt buf0 offset else (true, buf0)
    if !rs.1 then (false, rs.2)
    else
      let o1 := if !u.scheme.empty then offset + u.scheme.length else offset
      let buf1 := if !u.scheme.empty then writeAt rs.2 o1 SchemeSeparator else rs.2
      let o2 := if !u.scheme.empty then o1 + SchemeSeparator.length else o1
      let ra := if !u.authority.empty then u.authority.stringifyAt buf1 o2 else (true, buf1)
      if !ra.1 then (false, ra.2)
      else
        let o3 := if !u.authority.empty then o2 + u.authority.length else o2
        let rp := u.path.stringifyAt ra.2 o3
        if !rp.1 then (false, rp.2)
        else
          let o4 := o3 + u.path.length
          let rq :=
            if !u.query.empty then u.query.stringifyAt (rp.2.set o4 (ch '?')) (o4 + 1)
            else (true, rp.2)
          if !rq.1 then (false, rq.2)
          else
            let o5 := if !u.query.empty then o4 + 1 + u.query.length else o4
            if !u.fragment.isEmpty then
              (true, writeAt (rq.2.set o5 (ch '#')) (o5 + 1) u.fragment)
            else (true, rq.2)

/-- The member function `stringify(std::string &str)`, which clears `str` first. -/
def stringifyTo (u : URL) (_ : Str) : Bool × Str := u.stringifyAt [] 0

/-- The member function `stringify()` returning a string, empty upon failure. -/
def stringify (u : URL) : Str :=
  let r := u.stringifyTo []
  if !r.1 then [] else r.2

end URL

/-! ## Specification-side notions for percent-encoding -/

/-- The safe set of the specification: `A-Z a-z 0-9 - _ . ! ~ * ' ( )`. -/
def safeBytes : Str :=
  str "ABCDEFGHIJKLMNOPQRSTUVWXYZabcdefghijklmnopqrstuvwxyz0123456789-_.!~*'()"

/-- Membership in the safe set of the specification. -/
def isSafeByte (c : Byte) : Bool := decide (c ∈ safeBytes)

/-- The numeric value of a hexadecimal digit (`0`-`9`, `a`-`f` or `A`-`F`), read off the
two digit tables by position; `none` for any other byte. -/
def hexDigitValue? (c : Byte) : Option Nat :=
  let lower := (str "0123456789abcdef").indexOf c
  let upper := (str "0123456789ABCDEF").indexOf c
  if lower < 16 then some lower else if upper < 16 then some upper else none

/-- A unit of percent-encoded text: a single byte other than `'%'`, or a `'%'` followed
by two hexadecimal digits. -/
def isPercentUnit : Str → Bool
  | [c] => c != ch '%'
  | [p, x, y] => p == ch '%' && (hexDigitValue? x).isSome && (hexDigitValue? y).isSome
  | _ => false

/-- The byte a unit stands for: the byte itself, or `16·X + Y` for `%XY`. -/
def unitByte : Str → Byte
  | [c] => c
  | [_, x, y] => toByte (16 * (hexDigitValue? x).getD 0 + (hexDigitValue? y).getD 0)
  | _ => 0

/-- What `Encode` emits for one byte: the byte itself when it is safe, otherwise `'%'`
and the two uppercase hex digits of `ByteToHex`. -/
def encodedByte (c : Byte) : Str :=
  if ShouldEncodeCharacter c then [ch '%', (ByteToHex false c).1, (ByteToHex false c).2] else [c]

/-- What `Encode` emits for a string: the concatenation of `encodedByte` over its bytes. -/
def encodedBytes : Str → Str
  | [] => []
  | c :: s => encodedByte c ++ encodedBytes s

/-! ## Specification-side notions for IPv4 text -/

/-- The decimal numeral of `v` without leading zeros, as bytes. -/
def decimal (v : Nat) : Str := (Nat.toDigits 10 v).map ch

/-- The canonical dotted-decimal text of four byte values. -/
def dottedQuad (a b c d : Byte) : Str :=
  decimal a.val ++ ch '.' :: (decimal b.val ++ ch '.' :: (decimal c.val ++ ch '.' :: decimal d.val))

/-- The decimal digits `0`-`9`. -/
def isDecimalDigit (c : Byte) : Bool := decide (c ∈ str "0123456789")

/-- A group of one to three decimal digits. -/
def isDigitGroup (g : Str) : Bool :=
  decide (1 ≤ g.length) && decide (g.length ≤ 3) && g.all isDecimalDigit

/-- The decimal value of a group of digits; a digit counts by its position in
`0123456789`. -/
def decimalValue (g : Str) : Nat :=
  g.foldl (fun v c => 10 * v + (str "0123456789").indexOf c) 0

/-- The byte of the decimal digit `d`. -/
def decimalDigit (d : Fin 10) : Byte := (str "0123456789").getD d.val 0

/-- What the digit loop of `IPv4Address::parse` does on a group `g`, started with the
byte 0: it accepts exactly when the value is at most 255, the byte is then the value, and
the group holds no dot. -/
def groupParsesExactly (g : Str) : Prop :=
  (IPv4Address.parse.group g 0).1 = decide (decimalValue g ≤ 255) ∧
  ((IPv4Address.parse.group g 0).1 = true → (IPv4Address.parse.group g 0).2.val = decimalValue g) ∧
  findChar (ch '.') g = g.length

instance (g : Str) : Decidable (groupParsesExactly g) := by
  unfold groupParsesExactly; infer_instance

/-- Four groups joined by dots. -/
def dottedGroups (g0 g1 g2 g3 : Str) : Str :=
  g0 ++ ch '.' :: (g1 ++ ch '.' :: (g2 ++ ch '.' :: g3))

/-! ## Specification-side notions for IPv6 text -/

/-- A group of one to four hexadecimal digits. -/
def isHexGroup (g : Str) : Bool :=
  decide (1 ≤ g.length) && decide (g.length ≤ 4) && g.all (fun c => (hexDigitValue? c).isSome)

/-- The value of a group of hexadecimal digits. -/
def hexValue (g : Str) : Nat :=
  g.foldl (fun v c => 16 * v + (hexDigitValue? c).getD 0) 0

/-- Groups joined by single colons. -/
def colonJoin : List Str → Str
  | [] => []
  | [g] => g
  | g :: h :: rest => g ++ ch ':' :: colonJoin (h :: rest)

/-- The text `A "::" B` of two lists of groups. -/
def doubleColonText (A B : List Str) : Str := colonJoin A ++ (ch ':' :: ch ':' :: colonJoin B)

/-- The eight 16-bit groups of an address, each read as a big-endian byte pair. -/
def groupValues (a : IPv6Address) : List Nat :=
  (List.range 8).map (fun i => 256 * (a.byteAt (2 * i)).val + (a.byteAt (2 * i + 1)).val)

/-- The byte pair (high byte, low byte) of the value of a group. -/
def groupPair (g : Str) : Byte × Byte := (toByte (hexValue g / 256), toByte (hexValue g % 256))

/-- The bytes of a list of byte pairs. -/
def pairBytes : List (Byte × Byte) → List Byte
  | [] => []
  | p :: rest => p.1 :: p.2 :: pairBytes rest

/-- Groups each followed by a colon. -/
def colonTerminated : List Str → Str
  | [] => []
  | g :: rest => g ++ ch ':' :: colonTerminated rest

/-! ## Specification-side notions for schemes -/

/-- The ASCII letters. -/
def isAsciiLetter (c : Byte) : Bool :=
  decide (c ∈ str "ABCDEFGHIJKLMNOPQRSTUVWXYZabcdefghijklmnopqrstuvwxyz")

/-- The bytes a scheme may consist of: ASCII letters, digits, `+`, `-` and `.`. -/
def isSchemeChar (c : Byte) : Bool :=
  isAsciiLetter c || isDecimalDigit c || decide (c ∈ str "+-.")

/-- The byte with `A`-`Z` replaced by `a`-`z`, read off the two alphabets by position. -/
def asciiLower (c : Byte) : Byte :=
  let i := (str "ABCDEFGHIJKLMNOPQRSTUVWXYZ").indexOf c
  if i < 26 then (str "abcdefghijklmnopqrstuvwxyz").getD i 0 else c

/-- Equality of two strings up to the case of ASCII letters. -/
def equalUpToCase (t v : Str) : Bool := t.map asciiLower == v.map asciiLower

/-! ## Specification-side notions for hosts, paths and queries -/

/-- Texts joined by a separator byte. -/
def joinWith (sep : Byte) : List Str → Str
  | [] => []
  | [g] => g
  | g :: h :: rest => g ++ sep :: joinWith sep (h :: rest)

/-- The pieces of a text between the occurrences of a separator byte. -/
def pieces (sep : Byte) : Str → List Str
  | [] => [[]]
  | c :: rest =>
    if c = sep then [] :: pieces sep rest
    else
      match pieces sep rest with
      | p :: ps => (c :: p) :: ps
      | [] => [[c]]

/-- The pieces that are not empty. -/
def nonEmptyPieces (sep : Byte) (s : Str) : List Str :=
  (pieces sep s).filter (fun p => !p.isEmpty)

/-- The bytes of a host label: ASCII letters, digits and `-`. -/
def isLabelChar (c : Byte) : Bool :=
  isAsciiLetter c || isDecimalDigit c || decide (c = ch '-')

/-- A label of 1 to 63 bytes that are letters, digits or `-`, with no `-` at either end. -/
def isLabelText (l : Str) : Bool :=
  decide (1 ≤ l.length) && decide (l.length ≤ 63) && l.all isLabelChar &&
    decide (l.head? ≠ some (ch '-')) && decide (l.getLast? ≠ some (ch '-'))

/-- A label that, in addition, does not begin with a digit. -/
def isHostLabel (l : Str) : Bool :=
  isLabelText l && !(l.head?.any isDecimalDigit)

/-- The query text `N[]=V1&…&N[]=Vk` of a name and its values, with `N = Encode(n)` and
`Vi = Encode(vi)`. -/
def arrayQueryText (n : Str) (vs : List Str) : Str :=
  joinWith (ch '&') (vs.map (fun v => Encode n ++ str "[]=" ++ Encode v))

/-- The values of an array field packed into one string, separated by commas. -/
def packValues : List Str → Str := joinWith (ch ',')

/-- The offsets of the packed values, the first one at offset `o`. -/
def packOffsets : Nat → List Str → List Nat
  | _, [] => []
  | o, v :: rest => o :: packOffsets (o + v.length + 1) rest

/-- A list of offsets that increases strictly. -/
def strictlyIncreasing : List Nat → Bool
  | a :: b :: rest => decide (a < b) && strictlyIncreasing (b :: rest)
  | _ => true

/-- The packed representation invariant of a query field: the index vector is not empty
and starts with 0, it increases strictly, and every later index lies within the value
string, right behind a comma. -/
def packedInvariant (f : QueryField) : Prop :=
  f.indices_ ≠ [] ∧ f.indices_.head? = some 0 ∧ strictlyIncreasing f.indices_ = true ∧
    ∀ k ∈ f.indices_.tail, k ≤ f.value_.length ∧ f.value_.getD (k - 1) 0 = ch ','

instance (f : QueryField) : Decidable (packedInvariant f) :=
  inferInstanceAs (Decidable (f.indices_ ≠ [] ∧ f.indices_.head? = some 0 ∧
    strictlyIncreasing f.indices_ = true ∧
    ∀ k ∈ f.indices_.tail, k ≤ f.value_.length ∧ f.value_.getD (k - 1) 0 = ch ','))

/-- The text of a list of path segments: every segment encoded, behind a `/`. -/
def pathText : List Str → Str
  | [] => []
  | seg :: rest => ch '/' :: (Encode seg ++ pathText rest)

/-! # Properties -/

/-! ## Buffers -/

theorem length_resize (s : Str) (n : Nat) : (resize s n).length = n := by
  simp only [resize, List.length_append, List.length_take, List.length_replicate]
  omega

theorem resize_nil (n : Nat) : resize [] n = List.replicate n 0 := by
  simp [resize]

theorem set_append_cons (pre : Str) (x v : Byte) (post : Str) (n : Nat) (h : pre.length = n) :
    (pre ++ x :: post).set n v = pre ++ v :: post := by
  subst h
  induction pre with
  | nil => rfl
  | cons a pre ih => simp [List.set, ih]

theorem set_beyond (buf : Str) (n : Nat) (v : Byte) (h : buf.length ≤ n) : buf.set n v = buf := by
  induction buf generalizing n with
  | nil => rfl
  | cons a buf ih =>
    cases n with
    | zero => simp at h
    | succ n => simp only [List.set, ih n (by simpa using h)]

/-! ## Hex digits -/

set_option maxRecDepth 1000000 in
theorem HexToByte_ByteToHex :
    ∀ c : Byte, Crypto.HexToByte (ByteToHex false c).1 (ByteToHex false c).2 = some c := by
  decide

set_option maxRecDepth 1000000 in
theorem IsHexDigit_iff_value : ∀ x : Byte, Crypto.IsHexDigit x = (hexDigitValue? x).isSome := by
  decide

set_option maxRecDepth 1000000 in
theorem GetHexDigitValue_eq_value :
    ∀ x : Byte, Crypto.IsHexDigit x = true →
      (hexDigitValue? x).getD 0 = (Crypto.GetHexDigitValue x).val ∧ (Crypto.GetHexDigitValue x).val < 16 := by
  decide

set_option maxRecDepth 1000000 in
theorem shift_or_nibbles :
    ∀ X : Fin 16, ∀ Y : Fin 16, toByte ((X.val <<< 4) ||| Y.val) = toByte (16 * X.val + Y.val) := by
  decide

theorem HexToByte_eq_value (x y : Byte) (hx : (hexDigitValue? x).isSome = true)
    (hy : (hexDigitValue? y).isSome = true) :
    Crypto.HexToByte x y = some (toByte (16 * (hexDigitValue? x).getD 0 + (hexDigitValue? y).getD 0)) := by
  have hx1 : Crypto.IsHexDigit x = true := by rw [IsHexDigit_iff_value, hx]
  have hy1 : Crypto.IsHexDigit y = true := by rw [IsHexDigit_iff_value, hy]
  obtain ⟨ex, lx⟩ := GetHexDigitValue_eq_value x hx1
  obtain ⟨ey, ly⟩ := GetHexDigitValue_eq_value y hy1
  have h := shift_or_nibbles ⟨_, lx⟩ ⟨_, ly⟩
  simp only [Crypto.HexToByte, hx1, hy1, Bool.not_true, Bool.or_self, Bool.false_eq_true, if_false, ex, ey]
  exact congrArg some h

theorem HexToByte_isSome (x y : Byte) (b : Byte) (h : Crypto.HexToByte x y = some b) :
    (hexDigitValue? x).isSome = true ∧ (hexDigitValue? y).isSome = true := by
  unfold Crypto.HexToByte at h
  rw [← IsHexDigit_iff_value, ← IsHexDigit_iff_value]
  cases hx : Crypto.IsHexDigit x <;> cases hy : Crypto.IsHexDigit y <;> simp [hx, hy] at h ⊢

/-! ## Percent-encoding -/

set_option maxRecDepth 1000000 in
theorem ShouldEncodeCharacter_eq_not_safe :
    ∀ c : Byte, ShouldEncodeCharacter c = !isSafeByte c := by
  decide

set_option maxRecDepth 1000000 in
theorem safe_ne_percent : ∀ c : Byte, ShouldEncodeCharacter c = false → (c != ch '%') = true := by
  decide

set_option maxRecDepth 1000000 in
theorem encodedByte_isPercentUnit : ∀ c : Byte, isPercentUnit (encodedByte c) = true := by
  decide

set_option maxRecDepth 1000000 in
theorem unitByte_encodedByte : ∀ c : Byte, unitByte (encodedByte c) = c := by
  decide

theorem length_encodedByte (c : Byte) :
    (encodedByte c).length = if ShouldEncodeCharacter c then 3 else 1 := by
  unfold encodedByte
  split <;> rfl

theorem foldl_encodedLength (s : Str) (a : Nat) :
    s.foldl (fun l c => l + (if ShouldEncodeCharacter c then 3 else 1)) a =
      a + (encodedBytes s).length := by
  induction s generalizing a with
  | nil => simp [encodedBytes]
  | cons c s ih =>
    simp only [List.foldl_cons, encodedBytes, List.length_append, ih, length_encodedByte]
    omega

theorem CalculateEncodedLength_eq_length (s : Str) :
    CalculateEncodedLength s = (encodedBytes s).length := by
  simp [CalculateEncodedLength, foldl_encodedLength]

theorem EncodeAt_loop_count (s : Str) : ∀ (buf : Str) (o j : Nat),
    (EncodeAt.loop s buf o j).2 = j + (encodedBytes s).length := by
  induction s with
  | nil => intro buf o j; simp [EncodeAt.loop, encodedBytes]
  | cons c s ih =>
    intro buf o j
    simp only [EncodeAt.loop, encodedBytes, List.length_append, length_encodedByte]
    split
    · rw [ih]; omega
    · rw [ih]; omega

theorem EncodeAt_loop_buffer (s : Str) : ∀ (pre mid post : Str) (o j : Nat),
    pre.length = o + j → mid.length = (encodedBytes s).length →
    (EncodeAt.loop s (pre ++ (mid ++ post)) o j).1 = pre ++ (encodedBytes s ++ post) := by
  induction s with
  | nil =>
    intro pre mid post o j _ hm
    have : mid = [] := List.eq_nil_of_length_eq_zero (by simpa [encodedBytes] using hm)
    simp [EncodeAt.loop, this, encodedBytes]
  | cons c s ih =>
    intro pre mid post o j hp hm
    simp only [encodedBytes, List.length_append, length_encodedByte] at hm
    simp only [EncodeAt.loop, encodedBytes, encodedByte]
    by_cases hc : ShouldEncodeCharacter c = true
    · simp only [hc, if_true] at hm ⊢
      match mid, hm with
      | [], hm | [_], hm | [_, _], hm => (simp at hm; omega)
      | m1 :: m2 :: m3 :: mid2, hm =>
        have h1 := set_append_cons pre m1 (ch '%') (m2 :: m3 :: (mid2 ++ post)) (o + j) hp
        have h2 := set_append_cons (pre ++ [ch '%']) m2 (ByteToHex false c).1 (m3 :: (mid2 ++ post))
          (o + (j + 1)) (by simp; omega)
        have h3 := set_append_cons (pre ++ [ch '%', (ByteToHex false c).1]) m3 (ByteToHex false c).2
          (mid2 ++ post) (o + (j + 1 + 1)) (by simp; omega)
        simp only [List.append_assoc, List.cons_append, List.nil_append] at h1 h2 h3 ⊢
        rw [h1, h2, h3]
        have := ih (pre ++ [ch '%', (ByteToHex false c).1, (ByteToHex false c).2]) mid2 post o
          (j + 1 + 2) (by simp; omega) (by simp at hm; omega)
        simpa using this
    · have hc2 : ShouldEncodeCharacter c = false := by simpa using hc
      simp only [hc2, Bool.false_eq_true, if_false] at hm ⊢
      match mid, hm with
      | [], hm => exact absurd hm (by simp; omega)
      | m1 :: mid2, hm =>
        have h1 := set_append_cons pre m1 c (mid2 ++ post) (o + j) hp
        simp only [List.cons_append] at h1 ⊢
        rw [h1]
        have := ih (pre ++ [c]) mid2 post o (j + 1) (by simp; omega) (by simp at hm; omega)
        simpa using this

theorem Encode_eq (s : Str) : Encode s = encodedBytes s := by
  have h := EncodeAt_loop_buffer s [] (resize [] (CalculateEncodedLength s)) [] 0 0 rfl
    (by rw [length_resize, CalculateEncodedLength_eq_length])
  simpa [Encode, EncodeTo, EncodeAt] using h

theorem isPercentUnit_cases (u : Str) (h : isPercentUnit u = true) :
    (∃ c, u = [c] ∧ (c != ch '%') = true) ∨
    (∃ x y, u = [ch '%', x, y] ∧ Crypto.HexToByte x y = some (unitByte u)) := by
  match u, h with
  | [c], h => exact Or.inl ⟨c, rfl, h⟩
  | [p, x, y], h =>
    simp only [isPercentUnit, Bool.and_eq_true, beq_iff_eq] at h
    obtain ⟨⟨hp, hx⟩, hy⟩ := h
    subst hp
    exact Or.inr ⟨x, y, rfl, HexToByte_eq_value x y hx hy⟩

theorem percent_ne_of_bne (c : Byte) (h : (c != ch '%') = true) : ¬ (ch '%' = c) := by
  intro e
  subst e
  simp at h

theorem CalculateDecodedLength_loop_other (c : Byte) (rest : Str) (l : Nat) (h : ¬ (ch '%' = c)) :
    CalculateDecodedLength.loop (c :: rest) l = CalculateDecodedLength.loop rest (l + 1) := by
  rw [CalculateDecodedLength.loop.eq_def]
  simp only [h, if_false]

theorem Decode_loop_other (c : Byte) (rest dec : Str) (j : Nat) (h : ¬ (ch '%' = c)) :
    Decode.loop (c :: rest) dec j = Decode.loop rest (dec.set j c) (j + 1) := by
  rw [Decode.loop.eq_def]
  simp only [h, if_false]

theorem CalculateDecodedLength_loop_units (us : List Str) (h : ∀ u ∈ us, isPercentUnit u = true) :
    ∀ l : Nat, CalculateDecodedLength.loop us.flatten l = some (l + us.length) := by
  induction us with
  | nil => intro l; simp [CalculateDecodedLength.loop]
  | cons u us ih =>
    intro l
    have ih2 := ih (fun v hv => h v (List.mem_cons_of_mem _ hv))
    rcases isPercentUnit_cases u (h u (List.mem_cons_self _ _)) with ⟨c, rfl, hc⟩ | ⟨x, y, rfl, _⟩
    · rw [List.flatten_cons, List.singleton_append,
        CalculateDecodedLength_loop_other c _ l (percent_ne_of_bne c hc), ih2, List.length_cons]
      exact congrArg some (by omega)
    · show CalculateDecodedLength.loop (ch '%' :: x :: y :: us.flatten) l = _
      simp only [CalculateDecodedLength.loop, if_true, ih2, List.length_cons]
      exact congrArg some (by omega)

theorem Decode_loop_units (us : List Str) (h : ∀ u ∈ us, isPercentUnit u = true) :
    ∀ (pre mid : Str) (j : Nat), pre.length = j → mid.length = us.length →
      Decode.loop us.flatten (pre ++ mid) j = (true, pre ++ us.map unitByte) := by
  induction us with
  | nil =>
    intro pre mid j _ hm
    have : mid = [] := List.eq_nil_of_length_eq_zero (by simpa using hm)
    simp [Decode.loop, this]
  | cons u us ih =>
    intro pre mid j hp hm
    have ih2 := ih (fun v hv => h v (List.mem_cons_of_mem _ hv))
    match mid, hm with
    | [], hm => simp at hm
    | m :: mid2, hm =>
      have hl : mid2.length = us.length := by simpa using hm
      rcases isPercentUnit_cases u (h u (List.mem_cons_self _ _)) with ⟨c, rfl, hc⟩ | ⟨x, y, rfl, hxy⟩
      · rw [List.flatten_cons, List.singleton_append,
          Decode_loop_other c _ _ j (percent_ne_of_bne c hc), set_append_cons pre m c mid2 j hp]
        have := ih2 (pre ++ [c]) mid2 (j + 1) (by simp [hp]) hl
        simpa [unitByte] using this
      · show Decode.loop (ch '%' :: x :: y :: us.flatten) _ j = _
        simp only [Decode.loop, if_true, hxy, set_append_cons pre m _ mid2 j hp]
        have := ih2 (pre ++ [unitByte [ch '%', x, y]]) mid2 (j + 1) (by simp [hp]) hl
        simpa using this

/-- Decoding a concatenation of units succeeds and yields the bytes of the units. -/
theorem Decode_units (us : List Str) (h : ∀ u ∈ us, isPercentUnit u = true) (out : Str) :
    Decode us.flatten out = (true, us.map unitByte) := by
  unfold Decode
  rw [CalculateDecodedLength, CalculateDecodedLength_loop_units us h]
  have := Decode_loop_units us h [] (resize out (0 + us.length)) 0 rfl (by rw [length_resize]; omega)
  simpa using this

/-- A successful run of the decoding loop splits its input into units. -/
theorem units_of_Decode_loop (n : Nat) : ∀ (e dec : Str) (j : Nat), e.length ≤ n →
    (Decode.loop e dec j).1 = true →
    ∃ us : List Str, us.flatten = e ∧ ∀ u ∈ us, isPercentUnit u = true := by
  induction n with
  | zero =>
    intro e dec j hn _
    have : e = [] := List.eq_nil_of_length_eq_zero (by omega)
    exact ⟨[], by simp [this], by simp⟩
  | succ n ih =>
    intro e dec j hn hd
    match e, hn, hd with
    | [], _, _ => exact ⟨[], by simp, by simp⟩
    | c :: rest, hn, hd =>
      by_cases hc : ch '%' = c
      · subst hc
        match rest, hn, hd with
        | [], _, hd => simp [Decode.loop] at hd
        | [_], _, hd => simp [Decode.loop] at hd
        | x :: y :: rest2, hn, hd =>
          simp only [Decode.loop, if_true] at hd
          cases hxy : Crypto.HexToByte x y with
          | none => simp [hxy] at hd
          | some b =>
            simp only [hxy] at hd
            obtain ⟨us, hus, hu⟩ := ih rest2 _ _ (by simp at hn; omega) hd
            obtain ⟨hx, hy⟩ := HexToByte_isSome x y b hxy
            refine ⟨[ch '%', x, y] :: us, by simp [hus], ?_⟩
            intro u hmem
            rcases List.mem_cons.1 hmem with rfl | hmem
            · simp [isPercentUnit, hx, hy]
            · exact hu u hmem
      · rw [Decode_loop_other c rest dec j hc] at hd
        obtain ⟨us, hus, hu⟩ := ih rest _ _ (by simp at hn; omega) hd
        refine ⟨[c] :: us, by simp [hus], ?_⟩
        intro u hmem
        rcases List.mem_cons.1 hmem with rfl | hmem
        · simp only [isPercentUnit, bne_iff_ne, ne_eq]
          exact fun e => hc e.symm
        · exact hu u hmem

theorem encodedBytes_eq_flatten (s : Str) : encodedBytes s = (s.map encodedByte).flatten := by
  induction s with
  | nil => rfl
  | cons c s ih => simp [encodedBytes, ih]

theorem countP_safe_unsafe (s : Str) :
    (encodedBytes s).length =
      s.countP isSafeByte + 3 * s.countP (fun c => !isSafeByte c) := by
  induction s with
  | nil => rfl
  | cons c s ih =>
    simp only [encodedBytes, List.length_append, length_encodedByte, ih, List.countP_cons,
      ShouldEncodeCharacter_eq_not_safe]
    cases isSafeByte c <;> simp <;> omega

set_option maxRecDepth 1000000 in
theorem safe_set_exact : ∀ c : Byte, ShouldEncodeCharacter c = false ↔ c ∈ safeBytes := by
  decide

/-! ## Claims about percent-encoding -/

/-- C4: for every byte string `s`, decoding the percent-encoding of `s` succeeds and gives
back `s`, with the out-parameter form of `Decode` (whatever `decoded` held before) and with
the form that returns the string. -/
theorem Decode_Encode (s out : Str) :
    Decode (Encode s) out = (true, s) ∧ DecodeValue (Encode s) = s := by
  have key : ∀ o : Str, Decode (Encode s) o = (true, s) := by
    intro o
    rw [Encode_eq, encodedBytes_eq_flatten]
    have h := Decode_units (s.map encodedByte)
      (by intro u hu; obtain ⟨c, _, rfl⟩ := List.mem_map.1 hu; exact encodedByte_isPercentUnit c) o
    rw [h, List.map_map]
    congr 1
    exact (List.map_congr_left (fun c _ => unitByte_encodedByte c)).trans (List.map_id s)
  exact ⟨key out, by rw [DecodeValue, key]⟩

/-- C5: for every byte string `s`, `CalculateEncodedLength(s)` is the count that the
buffer form of `Encode` returns (for any buffer and offset), it is the length of the
string `Encode(s)`, and both are the number of safe bytes plus three times the number of
the other bytes; the bytes that are not encoded are exactly
`A-Z a-z 0-9 - _ . ! ~ * ' ( )`. -/
theorem CalculateEncodedLength_exact (s buf : Str) (o : Nat) :
    CalculateEncodedLength s = (EncodeAt s buf o).2 ∧
    CalculateEncodedLength s = (Encode s).length ∧
    CalculateEncodedLength s =
      s.countP (fun c => decide (c ∈ safeBytes)) +
        3 * s.countP (fun c => !decide (c ∈ safeBytes)) ∧
    (∀ c : Byte, ShouldEncodeCharacter c = false ↔ c ∈ safeBytes) := by
  refine ⟨?_, ?_, ?_, safe_set_exact⟩
  · rw [CalculateEncodedLength_eq_length, EncodeAt, EncodeAt_loop_count]; omega
  · rw [CalculateEncodedLength_eq_length, Encode_eq]
  · rw [CalculateEncodedLength_eq_length]
    exact countP_safe_unsafe s

/-- C6: for every byte string `e`, `Decode(e, out)` returns `true` exactly when `e` is a
concatenation of units, each a single byte other than `'%'` or a `'%'` followed by two
hexadecimal digits; and whenever `e` is such a concatenation, `out` becomes the list of
the bytes of the units (a non-`'%'` byte itself, `%XY` the byte `16·X + Y`). -/
theorem Decode_true_iff_units (e out : Str) :
    ((Decode e out).1 = true ↔
      ∃ us : List Str, us.flatten = e ∧ ∀ u ∈ us, isPercentUnit u = true) ∧
    (∀ us : List Str, us.flatten = e → (∀ u ∈ us, isPercentUnit u = true) →
      Decode e out = (true, us.map unitByte)) := by
  refine ⟨⟨?_, ?_⟩, ?_⟩
  · intro h
    unfold Decode at h
    cases hl : CalculateDecodedLength e with
    | none => simp [hl] at h
    | some n =>
      simp only [hl] at h
      exact units_of_Decode_loop e.length e _ _ (Nat.le_refl _) h
  · rintro ⟨us, rfl, hu⟩
    rw [Decode_units us hu]
  · rintro us rfl hu
    exact Decode_units us hu out

/-- The truncated escape `"ab%4"` is rejected and `"ab%41"` decodes to `"abA"` (C6 at
concrete inputs). -/
theorem Decode_true_iff_units_witness :
    (Decode (str "ab%4") []).1 = false ∧ Decode (str "ab%41") [] = (true, str "abA") :=
  ⟨by decide,
   (Decode_true_iff_units (str "ab%41") []).2 [str "a", str "b", str "%41"] (by decide) (by decide)⟩

/-- C7 fails on the code: on `"a%zz"` the out-parameter form of `Decode` returns `false`,
yet the form that returns the string yields the two bytes `'a'`, NUL instead of the empty
string. -/
theorem DecodeValue_failure_nonempty :
    (Decode (str "a%zz") []).1 = false ∧ DecodeValue (str "a%zz") = [ch 'a', 0] ∧
      DecodeValue (str "a%zz") ≠ [] := by
  decide

/-- C8 fails on the code: on the one-byte string `" "` the in-place encoder leaves `"%25"`
where the out-of-place encoder returns `"%20"`. -/
theorem EncodeInPlace_differs :
    EncodeInPlace (str " ") = (true, str "%25") ∧ Encode (str " ") = str "%20" ∧
      (EncodeInPlace (str " ")).2 ≠ Encode (str " ") := by
  decide

/-! ## IPv4 addresses -/

theorem toByte_val (n : Nat) : (toByte n).val = n % 256 := rfl

theorem findChar_append (c : Byte) (xs rest : Str) (h : findChar c xs = xs.length) :
    findChar c (xs ++ c :: rest) = xs.length := by
  induction xs with
  | nil => simp [findChar]
  | cons b xs ih =>
    by_cases hb : b = c
    · simp [findChar, hb] at h
    · simp only [findChar, hb, if_false, List.length_cons, Nat.add_right_cancel_iff] at h
      simp [findChar, hb, ih h]

theorem getD_append_cons (pre : Str) (x : Byte) (post : Str) (n : Nat) (h : pre.length = n) :
    (pre ++ x :: post).getD n 0 = x := by
  subst h
  induction pre with
  | nil => rfl
  | cons a pre ih => simpa using ih

set_option maxRecDepth 1000000 in
theorem parse_group_decimal : ∀ v : Byte, IPv4Address.parse.group (decimal v.val) 0 = (true, v) := by
  decide

set_option maxRecDepth 1000000 in
theorem decimal_facts : ∀ v : Byte,
    findChar (ch '.') (decimal v.val) = (decimal v.val).length ∧
      1 ≤ (decimal v.val).length ∧ (decimal v.val).length ≤ 3 := by
  decide

set_option maxRecDepth 1000000 in
theorem decimal_one : ∀ v : Byte, v.val < 10 →
    decimal v.val = [toByte ((ch '0').val + v.val % 10)] ∧ toByte (v.val / 10) = 0 := by
  decide

set_option maxRecDepth 1000000 in
theorem decimal_two : ∀ v : Byte, 10 ≤ v.val → v.val < 100 →
    decimal v.val = [toByte ((ch '0').val + (toByte (v.val / 10)).val % 10),
      toByte ((ch '0').val + v.val % 10)] ∧
    toByte (v.val / 10) ≠ 0 ∧ toByte ((toByte (v.val / 10)).val / 10) = 0 := by
  decide

set_option maxRecDepth 1000000 in
theorem decimal_three : ∀ v : Byte, 100 ≤ v.val →
    decimal v.val = [toByte ((ch '0').val + (toByte ((toByte (v.val / 10)).val / 10)).val % 10),
      toByte ((ch '0').val + (toByte (v.val / 10)).val % 10),
      toByte ((ch '0').val + v.val % 10)] ∧
    toByte (v.val / 10) ≠ 0 ∧ toByte ((toByte (v.val / 10)).val / 10) ≠ 0 ∧
    toByte ((toByte ((toByte (v.val / 10)).val / 10)).val / 10) = 0 := by
  decide

set_option maxRecDepth 1000000 in
theorem length_digits_decimal : ∀ v : Byte,
    IPv4Address.length.digits 2 v 0 + 1 = (decimal v.val).length := by
  decide

theorem length_digits_add (fuel : Nat) : ∀ (v : Byte) (len : Nat),
    IPv4Address.length.digits fuel v len = len + IPv4Address.length.digits fuel v 0 := by
  induction fuel with
  | zero => intro v len; simp [IPv4Address.length.digits]
  | succ fuel ih =>
    intro v len
    simp only [IPv4Address.length.digits]
    split
    · rw [ih _ (len + 1), ih _ (0 + 1)]; omega
    · rfl

theorem IPv4_length_eq (a b c d : Byte) :
    (IPv4Address.mk a b c d).length =
      (decimal a.val).length + 1 + ((decimal b.val).length + 1 +
        ((decimal c.val).length + 1 + (decimal d.val).length)) := by
  have ha := length_digits_decimal a
  have hb := length_digits_decimal b
  have hc := length_digits_decimal c
  have hd := length_digits_decimal d
  simp only [IPv4Address.length, IPv4Address.bytes, List.foldl_cons, List.foldl_nil]
  rw [length_digits_add 2 d, length_digits_add 2 c, length_digits_add 2 b, length_digits_add 2 a]
  omega

theorem parse_loop_step (fuel : Nat) (v : Byte) (tail : Str) (i : Nat) (a : IPv4Address)
    (hi : i ≤ 3) (ha : a.get i = 0) (ht : tail = [] ∨ ∃ r, tail = ch '.' :: r) :
    IPv4Address.parse.loop (fuel + 1) (decimal v.val ++ tail) i a =
      IPv4Address.parse.loop fuel (tail.drop 1) (i + 1) (a.set i v) := by
  obtain ⟨hf, h1, h3⟩ := decimal_facts v
  have hfind : findChar (ch '.') (decimal v.val ++ tail) = (decimal v.val).length := by
    rcases ht with rfl | ⟨r, rfl⟩
    · simpa using hf
    · exact findChar_append _ _ _ hf
  have hlen : ¬ ((decimal v.val ++ tail).length = 0) := by
    simp only [List.length_append]; omega
  have hdrop : (decimal v.val ++ tail).drop ((decimal v.val).length + 1) = tail.drop 1 := by
    rw [List.drop_append_eq_append_drop]
    simp [List.drop_eq_nil_of_le (Nat.le_succ _)]
  simp only [IPv4Address.parse.loop, hlen, if_false, Nat.not_lt.2 hi, hfind, List.take_left,
    ha, parse_group_decimal, if_true, hdrop]
  have h0 : (0 == (decimal v.val).length) = false := by
    simp only [beq_eq_false_iff_ne, ne_eq]; omega
  have h4 : ¬ ((decimal v.val).length > 3) := by omega
  simp [h0, h4]

theorem swapAt_two (pre : Str) (x y : Byte) (post : Str) (o : Nat) (h : pre.length = o) :
    IPv4Address.swapAt (pre ++ x :: y :: post) (o + 1) o = pre ++ y :: x :: post := by
  have e1 : (pre ++ x :: y :: post).getD o 0 = x := getD_append_cons pre x _ o h
  have e2 : (pre ++ x :: y :: post).getD (o + 1) 0 = y := by
    have := getD_append_cons (pre ++ [x]) y post (o + 1) (by simp [h])
    simpa using this
  have s1 : (pre ++ x :: y :: post).set (o + 1) x = pre ++ x :: x :: post := by
    have := set_append_cons (pre ++ [x]) y x post (o + 1) (by simp [h])
    simpa using this
  rw [IPv4Address.swapAt, e1, e2, s1]
  exact set_append_cons pre x y (x :: post) o h

theorem swapAt_three (pre : Str) (x y z : Byte) (post : Str) (o : Nat) (h : pre.length = o) :
    IPv4Address.swapAt (pre ++ x :: y :: z :: post) (o + 2) o = pre ++ z :: y :: x :: post := by
  have e1 : (pre ++ x :: y :: z :: post).getD o 0 = x := getD_append_cons pre x _ o h
  have e2 : (pre ++ x :: y :: z :: post).getD (o + 2) 0 = z := by
    have := getD_append_cons (pre ++ [x, y]) z post (o + 2) (by simp [h])
    simpa using this
  have s1 : (pre ++ x :: y :: z :: post).set (o + 2) x = pre ++ x :: y :: x :: post := by
    have := set_append_cons (pre ++ [x, y]) z x post (o + 2) (by simp [h])
    simpa using this
  rw [IPv4Address.swapAt, e1, e2, s1]
  exact set_append_cons pre x z (y :: x :: post) o h

/-- Writing one byte in decimal at offset `|pre|` of a buffer that has room for it. -/
theorem stringify_group (v : Byte) (pre mid post : Str) (o : Nat) (ho : pre.length = o)
    (hm : mid.length = (decimal v.val).length) :
    (let r := IPv4Address.stringify.digits 3 (pre ++ (mid ++ post)) o v 0
     ((if 2 == r.2.2 then IPv4Address.swapAt r.1 (r.2.1 - 1) (r.2.1 - 2)
        else if 3 == r.2.2 then IPv4Address.swapAt r.1 (r.2.1 - 1) (r.2.1 - 3)
        else r.1), r.2.1)) = (pre ++ (decimal v.val ++ post), o + (decimal v.val).length) := by
  by_cases h10 : v.val < 10
  · obtain ⟨hd, hz⟩ := decimal_one v h10
    rw [hd] at hm ⊢
    match mid, hm with
    | [m1], _ =>
      simp only [IPv4Address.stringify.digits, hz, ne_eq, not_true_eq_false, if_false,
        List.cons_append, List.nil_append, set_append_cons pre m1 _ post o ho]
      simp
  · by_cases h100 : v.val < 100
    · obtain ⟨hd, hz1, hz2⟩ := decimal_two v (by omega) h100
      rw [hd] at hm ⊢
      match mid, hm with
      | [m1, m2], _ =>
        have s2 := set_append_cons (pre ++ [toByte ((ch '0').val + v.val % 10)]) m2
          (toByte ((ch '0').val + (toByte (v.val / 10)).val % 10)) post (o + 1) (by simp [ho])
        simp only [List.append_assoc, List.cons_append, List.nil_append] at s2
        simp only [IPv4Address.stringify.digits, hz1.symm, hz2, ne_eq, not_true_eq_false, if_false,
          not_false_eq_true, if_true, List.cons_append, List.nil_append,
          set_append_cons pre m1 _ (m2 :: post) o ho, s2]
        simp only [Nat.zero_add, Nat.reduceAdd, beq_self_eq_true, if_true, Nat.add_sub_cancel,
          List.length_cons, List.length_nil]
        rw [show o + 1 + 1 - 2 = o by omega, swapAt_two pre _ _ post o ho]
    · obtain ⟨hd, hz1, hz2, hz3⟩ := decimal_three v (by omega)
      rw [hd] at hm ⊢
      match mid, hm with
      | [m1, m2, m3], _ =>
        have s2 := set_append_cons (pre ++ [toByte ((ch '0').val + v.val % 10)]) m2
          (toByte ((ch '0').val + (toByte (v.val / 10)).val % 10)) (m3 :: post) (o + 1) (by simp [ho])
        have s3 := set_append_cons (pre ++ [toByte ((ch '0').val + v.val % 10),
          toByte ((ch '0').val + (toByte (v.val / 10)).val % 10)]) m3
          (toByte ((ch '0').val + (toByte ((toByte (v.val / 10)).val / 10)).val % 10)) post
          (o + 1 + 1) (by simp [ho])
        simp only [List.append_assoc, List.cons_append, List.nil_append] at s2 s3
        simp only [IPv4Address.stringify.digits, hz1.symm, hz2.symm, hz3, ne_eq, not_true_eq_false,
          if_false, not_false_eq_true, if_true, List.cons_append, List.nil_append,
          set_append_cons pre m1 _ (m2 :: m3 :: post) o ho, s2, s3]
        simp only [Nat.zero_add, Nat.reduceAdd, Nat.reduceBEq, Bool.false_eq_true, if_false,
          beq_self_eq_true, if_true, List.length_cons, List.length_nil]
        rw [show o + 1 + 1 + 1 - 3 = o by omega, show o + 1 + 1 + 1 - 1 = o + 2 by omega,
          swapAt_three pre _ _ _ post o ho]

theorem stringify_step_first (v : Byte) (mid post : Str)
    (hm : mid.length = (decimal v.val).length) :
    IPv4Address.stringify.step (mid ++ post, 0) v = (decimal v.val ++ post, (decimal v.val).length) := by
  have h := stringify_group v [] mid post 0 rfl hm
  simp only [List.nil_append, Nat.zero_add] at h
  simpa [IPv4Address.stringify.step] using h

theorem stringify_step_next (v : Byte) (pre : Str) (m : Byte) (mid post : Str) (o : Nat)
    (ho : pre.length = o) (hpos : 0 ≠ o) (hm : mid.length = (decimal v.val).length) :
    IPv4Address.stringify.step (pre ++ m :: (mid ++ post), o) v =
      (pre ++ ch '.' :: (decimal v.val ++ post), o + 1 + (decimal v.val).length) := by
  have h := stringify_group v (pre ++ [ch '.']) mid post (o + 1) (by simp [ho]) hm
  simp only [List.append_assoc, List.cons_append, List.nil_append] at h
  simp only [IPv4Address.stringify.step, hpos, ne_eq, not_false_eq_true, if_true,
    set_append_cons pre m (ch '.') (mid ++ post) o ho]
  exact h

/-! ## Claims about IPv4 addresses -/

/-- C9: for the canonical dotted-decimal text of any four byte values (each group the
decimal numeral, without leading zeros, of a value in `0..255`), `parse` returns `true`
whatever the address held before, the four bytes are the group values in order, and
`stringify()` of that address returns exactly the text. -/
theorem IPv4_parse_stringify_canonical (a b c d : Byte) (prior : IPv4Address) :
    (IPv4Address.parse prior (dottedQuad a b c d)).1 = true ∧
    (IPv4Address.parse prior (dottedQuad a b c d)).2.bytes = [a, b, c, d] ∧
    (IPv4Address.parse prior (dottedQuad a b c d)).2.stringify = dottedQuad a b c d := by
  suffices h : IPv4Address.parse prior (dottedQuad a b c d) = (true, ⟨a, b, c, d⟩) ∧
      IPv4Address.stringify ⟨a, b, c, d⟩ = dottedQuad a b c d by
    rw [h.1]
    exact ⟨rfl, rfl, h.2⟩
  obtain ⟨-, a1, a3⟩ := decimal_facts a
  obtain ⟨-, b1, b3⟩ := decimal_facts b
  obtain ⟨-, c1, c3⟩ := decimal_facts c
  obtain ⟨-, d1, d3⟩ := decimal_facts d
  refine ⟨?_, ?_⟩
  · have hlen : (dottedQuad a b c d).length =
        (decimal a.val).length + 1 + ((decimal b.val).length + 1 +
          ((decimal c.val).length + 1 + (decimal d.val).length)) := by
      simp only [dottedQuad, List.length_append, List.length_cons]; omega
    have h7 : ¬ (7 > (dottedQuad a b c d).length) := by omega
    have h15 : ¬ ((dottedQuad a b c d).length > 15) := by omega
    obtain ⟨k, hk⟩ : ∃ k, (dottedQuad a b c d).length + 1 = k + 1 + 1 + 1 + 1 + 1 :=
      ⟨(dottedQuad a b c d).length - 4, by omega⟩
    simp only [IPv4Address.parse, h7, h15, decide_False, Bool.or_self, Bool.false_eq_true, if_false, hk]
    rw [dottedQuad,
      parse_loop_step _ a _ 0 IPv4Address.zero (by omega) rfl (Or.inr ⟨_, rfl⟩)]
    simp only [List.drop_succ_cons, List.drop_zero]
    rw [parse_loop_step _ b _ 1 (IPv4Address.zero.set 0 a) (by omega) rfl (Or.inr ⟨_, rfl⟩)]
    simp only [List.drop_succ_cons, List.drop_zero]
    rw [parse_loop_step _ c _ 2 ((IPv4Address.zero.set 0 a).set 1 b) (by omega) rfl (Or.inr ⟨_, rfl⟩)]
    simp only [List.drop_succ_cons, List.drop_zero]
    have hlast := parse_loop_step (k + 1) d [] 3
      (((IPv4Address.zero.set 0 a).set 1 b).set 2 c) (by omega) rfl (Or.inl rfl)
    simp only [List.append_nil] at hlast
    rw [hlast]
    simp [IPv4Address.parse.loop, IPv4Address.set, IPv4Address.zero]
  · simp only [IPv4Address.stringify, IPv4Address.stringifyTo, Bool.not_true, Bool.false_eq_true,
      if_false, IPv4_length_eq, resize_nil, IPv4Address.bytes, List.foldl_cons, List.foldl_nil]
    rw [List.replicate_add, List.replicate_add, List.replicate_add, List.replicate_add,
      List.replicate_add, List.replicate_add]
    simp only [List.replicate_one, List.append_assoc, List.singleton_append]
    rw [stringify_step_first a _ _ (by simp)]
    rw [stringify_step_next b (decimal a.val) 0 _ _ _ rfl (by omega) (by simp)]
    have e2 : decimal a.val ++ ch '.' :: (decimal b.val ++
        0 :: (List.replicate (decimal c.val).length 0 ++ 0 :: List.replicate (decimal d.val).length 0)) =
        (decimal a.val ++ ch '.' :: decimal b.val) ++
        0 :: (List.replicate (decimal c.val).length 0 ++ 0 :: List.replicate (decimal d.val).length 0) := by
      simp
    rw [e2, stringify_step_next c _ 0 _ _ _ (by simp; omega) (by omega) (by simp)]
    have e3 : (decimal a.val ++ ch '.' :: decimal b.val) ++ ch '.' :: (decimal c.val ++
        0 :: List.replicate (decimal d.val).length 0) =
        (decimal a.val ++ ch '.' :: (decimal b.val ++ ch '.' :: decimal c.val)) ++
        0 :: (List.replicate (decimal d.val).length 0 ++ []) := by
      simp
    rw [e3, stringify_step_next d _ 0 _ _ _ (by simp; omega) (by omega) (by simp)]
    simp [dottedQuad]

/-- C10 fails on the code: the input `"1.2.3.4."`, which ends with a dot, is accepted (with
bytes 1, 2, 3, 4), while inputs with a leading dot, an empty group, three groups or five
groups are rejected. -/
theorem IPv4_parse_trailing_dot :
    IPv4Address.parse IPv4Address.zero (str "1.2.3.4.") = (true, ⟨1, 2, 3, 4⟩) ∧
    (IPv4Address.parse IPv4Address.zero (str ".1.2.3.4")).1 = false ∧
    (IPv4Address.parse IPv4Address.zero (str "1..2.3.4")).1 = false ∧
    (IPv4Address.parse IPv4Address.zero (str "255.255.255")).1 = false ∧
    (IPv4Address.parse IPv4Address.zero (str "1.2.3.4.5")).1 = false := by
  decide

/-! ## URL -/

theorem URL_clear_eq (u : URL) : u.clear = URL.new := rfl

/-! ## Claims about URLs -/

/-- C1 fails on the code: parsing `"http://example.com/a/b?x=1#f"` into an empty URL
succeeds, but `stringify()` then returns the text with eleven NUL bytes between the host
and the path, because `Authority::length()` counts the host twice; and for
`"http://example.com/a#f"` the text behind `'#'` does not even reach the fragment. -/
theorem URL_stringify_parse_differs :
    (URL.parse URL.new (str "http://example.com/a/b?x=1#f")).1 = true ∧
    (URL.parse URL.new (str "http://example.com/a/b?x=1#f")).2.authority.length = 22 ∧
    (URL.parse URL.new (str "http://example.com/a/b?x=1#f")).2.stringify =
      str "http://example.com" ++ List.replicate 11 0 ++ str "/a/b?x=1#f" ∧
    (URL.parse URL.new (str "http://example.com/a/b?x=1#f")).2.stringify ≠
      str "http://example.com/a/b?x=1#f" ∧
    (URL.parse URL.new (str "http://example.com/a#f")).2.fragment = [] := by
  decide

/-- C2 fails on the code: after parsing `"/p#f"` into an empty URL the fragment is empty
and the query holds a field named `f`; after parsing `"http://host?x=1"` the query is
empty and the path holds the segment `x=1`. -/
theorem URL_parse_fragment_misplaced :
    URL.parse URL.new (str "/p#f") =
      (true, { URL.new with path := ⟨[str "p"]⟩, query := ⟨[⟨str "f", [], [0]⟩]⟩, fragment := [] }) ∧
    URL.parse URL.new (str "http://host?x=1") =
      (true, { URL.new with scheme := ⟨str "http"⟩,
                            authority := ⟨⟨[], []⟩, ⟨str "host", HostType.Name⟩, 0⟩,
                            path := ⟨[str "x=1"]⟩, query := ⟨[]⟩ }) := by
  decide

/-- C3: for every input `s` and every prior URL state, if `parse` returns `false` then
afterwards every component is empty: the URL equals a default-constructed one and
`empty()` is `true`. -/
theorem URL_parse_false_clears (u : URL) (s : Str) (h : (u.parse s).1 = false) :
    (u.parse s).2.empty = true ∧ (u.parse s).2 = URL.new ∧
    (u.parse s).2.scheme.value_ = [] ∧ (u.parse s).2.authority.empty = true ∧
    (u.parse s).2.path.paths_ = [] ∧ (u.parse s).2.query.fields_ = [] ∧
    (u.parse s).2.fragment = [] := by
  have key : (u.parse s).2 = URL.new := by
    simp only [URL.parse, URL_clear_eq] at h ⊢
    split_ifs at h ⊢ <;> rfl
  rw [key]
  exact ⟨rfl, rfl, rfl, rfl, rfl, rfl, rfl⟩

/-- C3 at a concrete input: a URL that holds `http://h/p?k=v#g` is emptied by the failed
parse of `"/a%zz"`. -/
theorem URL_parse_false_clears_witness :
    ((URL.parse URL.new (str "http://h/p?k=v#g")).2.parse (str "/a%zz")).1 = false ∧
    ((URL.parse URL.new (str "http://h/p?k=v#g")).2.parse (str "/a%zz")).2.empty = true :=
  ⟨by decide,
   (URL_parse_false_clears (URL.parse URL.new (str "http://h/p?k=v#g")).2 (str "/a%zz")
     (by decide)).1⟩

/-! ## The fuel of the loops is never used up -/

theorem length_drop_succ_lt (s : Str) (k : Nat) (h : ¬ s.length = 0) :
    (s.drop (k + 1)).length < s.length := by
  simp only [List.length_drop]; omega

theorem IPv4_parse_loop_fuel (fuel1 : Nat) : ∀ (fuel2 : Nat) (previous : Str) (i : Nat)
    (a : IPv4Address), previous.length < fuel1 → previous.length < fuel2 →
    IPv4Address.parse.loop fuel1 previous i a = IPv4Address.parse.loop fuel2 previous i a := by
  induction fuel1 with
  | zero => intro _ _ _ _ h; omega
  | succ f1 ih =>
    intro fuel2 previous i a h1 h2
    match fuel2, h2 with
    | f2 + 1, h2 =>
      simp only [IPv4Address.parse.loop]
      by_cases h0 : previous.length = 0
      · simp [h0]
      · have hd := length_drop_succ_lt previous (findChar (ch '.') previous) h0
        simp only [h0, if_false]
        rw [ih f2 _ _ _ (by omega) (by omega)]

theorem Host_parse_labels_fuel (fuel1 : Nat) : ∀ (fuel2 : Nat) (previous : Str),
    previous.length < fuel1 → previous.length < fuel2 →
    Host.parse.labels fuel1 previous = Host.parse.labels fuel2 previous := by
  induction fuel1 with
  | zero => intro _ _ h; omega
  | succ f1 ih =>
    intro fuel2 previous h1 h2
    match fuel2, h2 with
    | f2 + 1, h2 =>
      simp only [Host.parse.labels]
      by_cases h0 : previous.length = 0
      · simp [h0]
      · have hd := length_drop_succ_lt previous (findChar (ch '.') previous) h0
        simp only [h0, if_false]
        rw [ih f2 _ (by omega) (by omega)]

theorem PathManager_parse_loop_fuel (fuel1 : Nat) : ∀ (fuel2 : Nat) (previous : Str)
    (paths : List Str) (added : Nat), previous.length < fuel1 → previous.length < fuel2 →
    PathManager.parse.loop fuel1 previous paths added =
      PathManager.parse.loop fuel2 previous paths added := by
  induction fuel1 with
  | zero => intro _ _ _ _ h; omega
  | succ f1 ih =>
    intro fuel2 previous paths added h1 h2
    match fuel2, h2 with
    | f2 + 1, h2 =>
      simp only [PathManager.parse.loop]
      by_cases h0 : previous.length = 0
      · simp [h0]
      · have hd := length_drop_succ_lt previous (findChar (ch '/') previous) h0
        simp only [h0, if_false]
        rw [ih f2 _ _ _ (by omega) (by omega), ih f2 _ _ _ (by omega) (by omega)]

theorem QueryManager_parse_loop_fuel (fuel1 : Nat) : ∀ (fuel2 : Nat) (previous : Str)
    (fields : List QueryField) (marks : List Str), previous.length < fuel1 →
    previous.length < fuel2 →
    QueryManager.parse.loop fuel1 previous fields marks =
      QueryManager.parse.loop fuel2 previous fields marks := by
  induction fuel1 with
  | zero => intro _ _ _ _ h; omega
  | succ f1 ih =>
    intro fuel2 previous fields marks h1 h2
    match fuel2, h2 with
    | f2 + 1, h2 =>
      simp only [QueryManager.parse.loop]
      by_cases h0 : previous.length = 0
      · simp [h0]
      · have hd := length_drop_succ_lt previous (findChar (ch '&') previous) h0
        have e : ∀ fs ms, QueryManager.parse.loop f1
            (previous.drop (findChar (ch '&') previous + 1)) fs ms =
            QueryManager.parse.loop f2 (previous.drop (findChar (ch '&') previous + 1)) fs ms :=
          fun fs ms => ih f2 _ fs ms (by omega) (by omega)
        simp only [h0, if_false, e]

theorem IPv6_parse_loop_fuel (s : Str) (fuel1 : Nat) : ∀ (fuel2 previous : Nat)
    (a : IPv6Address) (groupIndex : Nat) (dc : Bool) (pos : Nat),
    s.length - previous < fuel1 → s.length - previous < fuel2 →
    IPv6Address.parse.loop s fuel1 previous a groupIndex dc pos =
      IPv6Address.parse.loop s fuel2 previous a groupIndex dc pos := by
  induction fuel1 with
  | zero => intro _ _ _ _ _ _ h; omega
  | succ f1 ih =>
    intro fuel2 previous a groupIndex dc pos h1 h2
    match fuel2, h2 with
    | f2 + 1, h2 =>
      simp only [IPv6Address.parse.loop]
      by_cases hp : previous < s.length
      · have e : ∀ p a g d q, previous < p →
            IPv6Address.parse.loop s f1 p a g d q = IPv6Address.parse.loop s f2 p a g d q :=
          fun p a g d q hp => ih f2 p a g d q (by omega) (by omega)
        rw [e _ _ _ _ _ (by omega), e _ _ _ _ _ (by omega)]
        split
        · rfl
        · split
          · rfl
          · split
            · rfl
            · split
              · rfl
              · split
                · rw [e _ _ _ _ _ (by omega)]
                · rfl
      · simp [hp]

set_option maxRecDepth 1000000 in
theorem byte_two_divisions : ∀ v : Byte, ¬ (9 < toByte ((toByte (v.val / 10)).val / 10)) := by
  decide

set_option maxRecDepth 1000000 in
theorem byte_three_divisions :
    ∀ v : Byte, toByte ((toByte ((toByte (v.val / 10)).val / 10)).val / 10) = 0 := by
  decide

theorem IPv4_length_digits_stop (k : Nat) (w : Byte) (len : Nat) (h : ¬ (9 < w)) :
    IPv4Address.length.digits k w len = len := by
  cases k with
  | zero => rfl
  | succ k => simp only [IPv4Address.length.digits, h, if_false]

theorem IPv4_length_digits_fuel (k : Nat) (v : Byte) (len : Nat) :
    IPv4Address.length.digits (2 + k) v len = IPv4Address.length.digits 2 v len := by
  rw [show 2 + k = k + 1 + 1 by omega]
  simp only [IPv4Address.length.digits, IPv4_length_digits_stop k _ _ (byte_two_divisions v)]

theorem IPv4_stringify_digits_fuel (k : Nat) (buf : Str) (offset : Nat) (v : Byte) (len : Nat) :
    IPv4Address.stringify.digits (3 + k) buf offset v len =
      IPv4Address.stringify.digits 3 buf offset v len := by
  rw [show 3 + k = k + 1 + 1 + 1 by omega]
  simp only [IPv4Address.stringify.digits, byte_three_divisions v, ne_eq, not_true_eq_false,
    if_false]

theorem toPort_val (n : Nat) : (toPort n).val = n % 65536 := rfl

theorem port_four_divisions (p : Port) :
    ¬ (9 < toPort ((toPort ((toPort ((toPort (p.val / 10)).val / 10)).val / 10)).val / 10)) := by
  rw [Fin.lt_def]
  simp only [toPort_val]
  have := p.isLt
  show ¬ (9 < _)
  omega

theorem CalculatePortLength_loop_stop (k : Nat) (w : Port) (len : Nat) (h : ¬ (9 < w)) :
    CalculatePortLength.loop k w len = len := by
  cases k with
  | zero => rfl
  | succ k => simp only [CalculatePortLength.loop, h, if_false]

theorem CalculatePortLength_loop_fuel (k : Nat) (p : Port) (len : Nat) :
    CalculatePortLength.loop (4 + k) p len = CalculatePortLength.loop 4 p len := by
  rw [show 4 + k = k + 1 + 1 + 1 + 1 by omega]
  simp only [CalculatePortLength.loop, CalculatePortLength_loop_stop k _ _ (port_four_divisions p)]

theorem IPv6_parse_spread_fuel (fuel1 : Nat) : ∀ (fuel2 : Nat) (a : IPv6Address)
    (pos filled i groupIndex : Nat), groupIndex - pos ≤ fuel1 → groupIndex - pos ≤ fuel2 →
    IPv6Address.parse.spread fuel1 a pos filled i groupIndex =
      IPv6Address.parse.spread fuel2 a pos filled i groupIndex := by
  induction fuel1 with
  | zero =>
    intro fuel2 a pos filled i groupIndex h1 _
    have hp : ¬ pos < groupIndex := by omega
    cases fuel2 with
    | zero => rfl
    | succ f2 => simp [IPv6Address.parse.spread, hp]
  | succ f1 ih =>
    intro fuel2 a pos filled i groupIndex h1 h2
    cases fuel2 with
    | zero =>
      have hp : ¬ pos < groupIndex := by omega
      simp [IPv6Address.parse.spread, hp]
    | succ f2 =>
      simp only [IPv6Address.parse.spread]
      split
      · exact ih f2 _ _ _ _ _ (by omega) (by omega)
      · rfl

/-! ## IPv4 addresses: groups of digits -/

set_option maxRecDepth 1000000 in
theorem isDecimalDigit_eq : ∀ c : Byte, isDecimalDigit c = true → ∃ d : Fin 10, c = decimalDigit d := by
  decide

set_option maxRecDepth 1000000 in
theorem group_one : ∀ d1 : Fin 10, groupParsesExactly [decimalDigit d1] := by
  decide

set_option maxRecDepth 1000000 in
theorem group_two : ∀ d1 d2 : Fin 10, groupParsesExactly [decimalDigit d1, decimalDigit d2] := by
  decide

set_option maxRecDepth 1000000 in
set_option maxHeartbeats 4000000 in
theorem group_three : ∀ d1 d2 d3 : Fin 10,
    groupParsesExactly [decimalDigit d1, decimalDigit d2, decimalDigit d3] := by
  decide

theorem digit_group_parses (g : Str) (h : isDigitGroup g = true) : groupParsesExactly g := by
  simp only [isDigitGroup, Bool.and_eq_true, decide_eq_true_eq, List.all_eq_true] at h
  obtain ⟨⟨h1, h3⟩, hd⟩ := h
  match g, h1, h3, hd with
  | [c1], _, _, hd =>
    obtain ⟨d1, rfl⟩ := isDecimalDigit_eq c1 (hd c1 (by simp))
    exact group_one d1
  | [c1, c2], _, _, hd =>
    obtain ⟨d1, rfl⟩ := isDecimalDigit_eq c1 (hd c1 (by simp))
    obtain ⟨d2, rfl⟩ := isDecimalDigit_eq c2 (hd c2 (by simp))
    exact group_two d1 d2
  | [c1, c2, c3], _, _, hd =>
    obtain ⟨d1, rfl⟩ := isDecimalDigit_eq c1 (hd c1 (by simp))
    obtain ⟨d2, rfl⟩ := isDecimalDigit_eq c2 (hd c2 (by simp))
    obtain ⟨d3, rfl⟩ := isDecimalDigit_eq c3 (hd c3 (by simp))
    exact group_three d1 d2 d3
  | [], h1, _, _ => simp at h1
  | _ :: _ :: _ :: _ :: _, _, h3, _ => simp at h3

/-- One iteration of the outer loop of `parse` on a group of digits that is followed by
the end of the text or by a dot. -/
theorem parse_loop_group (fuel : Nat) (g : Str) (hg : isDigitGroup g = true) (tail : Str) (i : Nat)
    (a : IPv4Address) (hi : i ≤ 3) (ha : a.get i = 0) (ht : tail = [] ∨ ∃ r, tail = ch '.' :: r) :
    IPv4Address.parse.loop (fuel + 1) (g ++ tail) i a =
      if (IPv4Address.parse.group g 0).1 = true then
        IPv4Address.parse.loop fuel (tail.drop 1) (i + 1) (a.set i (IPv4Address.parse.group g 0).2)
      else (false, a.set i (IPv4Address.parse.group g 0).2) := by
  obtain ⟨-, -, hf⟩ := digit_group_parses g hg
  simp only [isDigitGroup, Bool.and_eq_true, decide_eq_true_eq] at hg
  obtain ⟨⟨h1, h3⟩, -⟩ := hg
  have hfind : findChar (ch '.') (g ++ tail) = g.length := by
    rcases ht with rfl | ⟨r, rfl⟩
    · simpa using hf
    · exact findChar_append _ _ _ hf
  have hlen : ¬ ((g ++ tail).length = 0) := by
    simp only [List.length_append]; omega
  have hdrop : (g ++ tail).drop (g.length + 1) = tail.drop 1 := by
    rw [List.drop_append_eq_append_drop]
    simp [List.drop_eq_nil_of_le (Nat.le_succ _)]
  have h0 : (0 == g.length) = false := by
    simp only [beq_eq_false_iff_ne, ne_eq]; omega
  have h4 : ¬ (g.length > 3) := by omega
  simp only [IPv4Address.parse.loop, hlen, if_false, Nat.not_lt.2 hi, hfind, List.take_left,
    ha, hdrop, h0, h4, decide_False, Bool.or_self, Bool.false_eq_true]

theorem parse_loop_nil (fuel : Nat) (i : Nat) (a : IPv4Address) :
    IPv4Address.parse.loop (fuel + 1) [] i a = (4 == i, a) := by
  simp [IPv4Address.parse.loop]

set_option maxRecDepth 1000000 in
theorem parse_group_digit_exact : ∀ (byte : Byte) (d : Fin 10),
    (IPv4Address.parse.group [decimalDigit d] byte).1 = true →
      byte.val * 10 + decimalValue [decimalDigit d] ≤ 255 ∧
      (IPv4Address.parse.group [decimalDigit d] byte).2.val =
        byte.val * 10 + decimalValue [decimalDigit d] := by
  decide

theorem isDigitGroup_length (g : Str) (h : isDigitGroup g = true) : 1 ≤ g.length ∧ g.length ≤ 3 := by
  simp only [isDigitGroup, Bool.and_eq_true, decide_eq_true_eq] at h
  exact h.1

/-- The result of `parse` on four groups of digits, as a cascade over the four digit
loops. -/
theorem IPv4_parse_groups_eq (g0 g1 g2 g3 : Str) (h0 : isDigitGroup g0 = true)
    (h1 : isDigitGroup g1 = true) (h2 : isDigitGroup g2 = true) (h3 : isDigitGroup g3 = true)
    (prior : IPv4Address) :
    IPv4Address.parse prior (dottedGroups g0 g1 g2 g3) =
      if (IPv4Address.parse.group g0 0).1 = true then
        if (IPv4Address.parse.group g1 0).1 = true then
          if (IPv4Address.parse.group g2 0).1 = true then
            if (IPv4Address.parse.group g3 0).1 = true then
              (true, ⟨(IPv4Address.parse.group g0 0).2, (IPv4Address.parse.group g1 0).2,
                (IPv4Address.parse.group g2 0).2, (IPv4Address.parse.group g3 0).2⟩)
            else (false, ⟨(IPv4Address.parse.group g0 0).2, (IPv4Address.parse.group g1 0).2,
                (IPv4Address.parse.group g2 0).2, (IPv4Address.parse.group g3 0).2⟩)
          else (false, ⟨(IPv4Address.parse.group g0 0).2, (IPv4Address.parse.group g1 0).2,
                (IPv4Address.parse.group g2 0).2, 0⟩)
        else (false, ⟨(IPv4Address.parse.group g0 0).2, (IPv4Address.parse.group g1 0).2, 0, 0⟩)
      else (false, ⟨(IPv4Address.parse.group g0 0).2, 0, 0, 0⟩) := by
  obtain ⟨a1, a3⟩ := isDigitGroup_length g0 h0
  obtain ⟨b1, b3⟩ := isDigitGroup_length g1 h1
  obtain ⟨c1, c3⟩ := isDigitGroup_length g2 h2
  obtain ⟨d1, d3⟩ := isDigitGroup_length g3 h3
  have hlen : (dottedGroups g0 g1 g2 g3).length =
      g0.length + 1 + (g1.length + 1 + (g2.length + 1 + g3.length)) := by
    simp only [dottedGroups, List.length_append, List.length_cons]; omega
  have h7 : ¬ (7 > (dottedGroups g0 g1 g2 g3).length) := by omega
  have h15 : ¬ ((dottedGroups g0 g1 g2 g3).length > 15) := by omega
  obtain ⟨k, hk⟩ : ∃ k, (dottedGroups g0 g1 g2 g3).length + 1 = k + 1 + 1 + 1 + 1 + 1 :=
    ⟨(dottedGroups g0 g1 g2 g3).length - 4, by omega⟩
  simp only [IPv4Address.parse, h7, h15, decide_False, Bool.or_self, Bool.false_eq_true, if_false, hk]
  rw [dottedGroups, parse_loop_group _ g0 h0 _ 0 IPv4Address.zero (by omega) rfl (Or.inr ⟨_, rfl⟩)]
  simp only [List.drop_succ_cons, List.drop_zero]
  split
  · rw [parse_loop_group _ g1 h1 _ 1 (IPv4Address.zero.set 0 (IPv4Address.parse.group g0 0).2)
      (by omega) rfl (Or.inr ⟨_, rfl⟩)]
    simp only [List.drop_succ_cons, List.drop_zero]
    split
    · rw [parse_loop_group _ g2 h2 _ 2 ((IPv4Address.zero.set 0 (IPv4Address.parse.group g0 0).2).set 1
        (IPv4Address.parse.group g1 0).2) (by omega) rfl (Or.inr ⟨_, rfl⟩)]
      simp only [List.drop_succ_cons, List.drop_zero]
      split
      · have hlast := parse_loop_group (k + 1) g3 h3 [] 3
          (((IPv4Address.zero.set 0 (IPv4Address.parse.group g0 0).2).set 1
            (IPv4Address.parse.group g1 0).2).set 2 (IPv4Address.parse.group g2 0).2)
          (by omega) rfl (Or.inl rfl)
        simp only [List.append_nil] at hlast
        rw [hlast]
        split
        · simp [parse_loop_nil, IPv4Address.set, IPv4Address.zero]
        · simp [IPv4Address.set, IPv4Address.zero]
      · simp [IPv4Address.set, IPv4Address.zero]
    · simp [IPv4Address.set, IPv4Address.zero]
  · simp [IPv4Address.set, IPv4Address.zero]

/-! ## Claims about IPv4 addresses, continued -/

/-- C11: for every input made of four dot-separated groups of one to three decimal digits
(so of length 7 to 15), `parse` returns `true` exactly when the decimal value of every
group is at most 255, whatever the address held before; the four bytes are then the
values of the groups; and whenever the digit loop accepts a digit, the new value
`10 · byte + digit` is at most 255 and is stored without truncation. -/
theorem IPv4_parse_iff_groups (g0 g1 g2 g3 : Str) (h0 : isDigitGroup g0 = true)
    (h1 : isDigitGroup g1 = true) (h2 : isDigitGroup g2 = true) (h3 : isDigitGroup g3 = true)
    (prior : IPv4Address) :
    ((IPv4Address.parse prior (dottedGroups g0 g1 g2 g3)).1 = true ↔
      decimalValue g0 ≤ 255 ∧ decimalValue g1 ≤ 255 ∧ decimalValue g2 ≤ 255 ∧
        decimalValue g3 ≤ 255) ∧
    ((IPv4Address.parse prior (dottedGroups g0 g1 g2 g3)).1 = true →
      (IPv4Address.parse prior (dottedGroups g0 g1 g2 g3)).2.bytes.map Fin.val =
        [decimalValue g0, decimalValue g1, decimalValue g2, decimalValue g3]) ∧
    (7 ≤ (dottedGroups g0 g1 g2 g3).length ∧ (dottedGroups g0 g1 g2 g3).length ≤ 15) ∧
    (∀ (byte c : Byte), isDecimalDigit c = true → (IPv4Address.parse.group [c] byte).1 = true →
      byte.val * 10 + decimalValue [c] ≤ 255 ∧
      (IPv4Address.parse.group [c] byte).2.val = byte.val * 10 + decimalValue [c]) := by
  obtain ⟨p0, v0, -⟩ := digit_group_parses g0 h0
  obtain ⟨p1, v1, -⟩ := digit_group_parses g1 h1
  obtain ⟨p2, v2, -⟩ := digit_group_parses g2 h2
  obtain ⟨p3, v3, -⟩ := digit_group_parses g3 h3
  obtain ⟨a1, a3⟩ := isDigitGroup_length g0 h0
  obtain ⟨b1, b3⟩ := isDigitGroup_length g1 h1
  obtain ⟨c1, c3⟩ := isDigitGroup_length g2 h2
  obtain ⟨d1, d3⟩ := isDigitGroup_length g3 h3
  rw [IPv4_parse_groups_eq g0 g1 g2 g3 h0 h1 h2 h3 prior]
  refine ⟨?_, ?_, ?_, ?_⟩
  · rw [p0, p1, p2, p3]
    by_cases q0 : decimalValue g0 ≤ 255 <;> by_cases q1 : decimalValue g1 ≤ 255 <;>
      by_cases q2 : decimalValue g2 ≤ 255 <;> by_cases q3 : decimalValue g3 ≤ 255 <;>
      simp [q0, q1, q2, q3]
  · intro h
    split at h
    · split at h
      · split at h
        · split at h
          · rename_i t0 t1 t2 t3
            simp only [t0, t1, t2, t3, if_true, IPv4Address.bytes, List.map_cons, List.map_nil,
              v0 t0, v1 t1, v2 t2, v3 t3]
          · simp at h
        · simp at h
      · simp at h
    · simp at h
  · simp only [dottedGroups, List.length_append, List.length_cons]
    omega
  · intro byte c hc
    obtain ⟨d, rfl⟩ := isDecimalDigit_eq c hc
    exact parse_group_digit_exact byte d

/-- C11 at concrete inputs: `"255.255.255.255"` is accepted with four bytes 255, and
`"192.168.1.256"` is rejected. -/
theorem IPv4_parse_iff_groups_witness :
    (IPv4Address.parse IPv4Address.zero (str "255.255.255.255")).1 = true ∧
    (IPv4Address.parse IPv4Address.zero (str "192.168.1.256")).1 = false :=
  ⟨((IPv4_parse_iff_groups (str "255") (str "255") (str "255") (str "255")
      (by decide) (by decide) (by decide) (by decide) IPv4Address.zero).1).2 (by decide),
   by
    have h := (IPv4_parse_iff_groups (str "192") (str "168") (str "1") (str "256")
      (by decide) (by decide) (by decide) (by decide) IPv4Address.zero).1
    cases hp : (IPv4Address.parse IPv4Address.zero (str "192.168.1.256")).1
    · rfl
    · exact absurd (h.1 hp).2.2.2 (by decide)⟩

/-! ## Claims about IPv6 addresses -/

/-! ### Addresses as lists of byte pairs -/

theorem length_pairBytes (L : List (Byte × Byte)) : (pairBytes L).length = 2 * L.length := by
  induction L with
  | nil => rfl
  | cons p L ih => simp only [pairBytes, List.length_cons, ih]; omega

theorem pairBytes_append (X Y : List (Byte × Byte)) :
    pairBytes (X ++ Y) = pairBytes X ++ pairBytes Y := by
  induction X with
  | nil => rfl
  | cons p X ih => simp [pairBytes, ih]

theorem byteAt_pairBytes_fst (X : List (Byte × Byte)) (x : Byte × Byte) (R : List (Byte × Byte))
    (n : Nat) (h : X.length = n) :
    IPv6Address.byteAt ⟨pairBytes (X ++ x :: R)⟩ (2 * n) = x.1 := by
  simp only [IPv6Address.byteAt, pairBytes_append, pairBytes]
  exact getD_append_cons _ _ _ _ (by rw [length_pairBytes, h])

theorem byteAt_pairBytes_snd (X : List (Byte × Byte)) (x : Byte × Byte) (R : List (Byte × Byte))
    (n : Nat) (h : X.length = n) :
    IPv6Address.byteAt ⟨pairBytes (X ++ x :: R)⟩ (2 * n + 1) = x.2 := by
  simp only [IPv6Address.byteAt, pairBytes_append, pairBytes]
  have e : pairBytes X ++ x.1 :: x.2 :: pairBytes R = (pairBytes X ++ [x.1]) ++ x.2 :: pairBytes R := by
    simp
  rw [e]
  exact getD_append_cons _ _ _ _ (by simp [length_pairBytes, h])

theorem setGroup_pairBytes (X : List (Byte × Byte)) (x : Byte × Byte) (R : List (Byte × Byte))
    (n : Nat) (b1 b2 : Byte) (h : X.length = n) :
    IPv6Address.setGroup ⟨pairBytes (X ++ x :: R)⟩ n b1 b2 = ⟨pairBytes (X ++ (b1, b2) :: R)⟩ := by
  simp only [IPv6Address.setGroup, pairBytes_append, pairBytes]
  rw [set_append_cons _ _ _ _ _ (by rw [length_pairBytes, h])]
  have e : pairBytes X ++ b1 :: x.2 :: pairBytes R = (pairBytes X ++ [b1]) ++ x.2 :: pairBytes R := by
    simp
  rw [e, set_append_cons _ _ _ _ _ (by simp [length_pairBytes, h])]
  simp

theorem swapGroups_pairBytes (X M Y : List (Byte × Byte)) (x y : Byte × Byte) (i j : Nat)
    (hi : X.length = i) (hj : X.length + 1 + M.length = j) :
    IPv6Address.swapGroups ⟨pairBytes (X ++ x :: (M ++ y :: Y))⟩ i j =
      ⟨pairBytes (X ++ y :: (M ++ x :: Y))⟩ := by
  have e1 : X ++ x :: (M ++ y :: Y) = (X ++ x :: M) ++ y :: Y := by simp
  have hl : (X ++ x :: M).length = j := by simp; omega
  have hl2 : (X ++ y :: M).length = j := by simp; omega
  have e2 : X ++ y :: (M ++ y :: Y) = (X ++ y :: M) ++ y :: Y := by simp
  have e3 : (X ++ y :: M) ++ x :: Y = X ++ y :: (M ++ x :: Y) := by simp
  unfold IPv6Address.swapGroups
  rw [byteAt_pairBytes_fst X x _ i hi, byteAt_pairBytes_snd X x _ i hi]
  rw [e1, byteAt_pairBytes_fst _ y _ j hl, byteAt_pairBytes_snd _ y _ j hl, ← e1]
  rw [setGroup_pairBytes X x _ i _ _ hi, e2, setGroup_pairBytes _ y _ j _ _ hl2, e3]

theorem spread_pairBytes (n : Nat) : ∀ (Brem : List (Byte × Byte)) (fuel : Nat)
    (Av Bdone : List (Byte × Byte)) (z : Nat), Brem.length = n → Brem.length ≤ fuel →
    Av.length + Brem.length + (z + 1) + Bdone.length = 8 →
    IPv6Address.parse.spread fuel
        ⟨pairBytes (Av ++ (Brem ++ (List.replicate (z + 1) (0, 0) ++ Bdone)))⟩
        (Av.length + Bdone.length) Brem.length (1 + Bdone.length)
        (Av.length + Brem.length + Bdone.length) =
      ⟨pairBytes (Av ++ (List.replicate (z + 1) (0, 0) ++ (Brem ++ Bdone)))⟩ := by
  induction n with
  | zero =>
    intro Brem fuel Av Bdone z hn _ _
    have hB : Brem = [] := List.length_eq_zero.mp hn
    subst hB
    cases fuel with
    | zero => simp [IPv6Address.parse.spread]
    | succ f => simp [IPv6Address.parse.spread]
  | succ n ih =>
    intro Brem fuel Av Bdone z hn hf h8
    rcases List.eq_nil_or_concat Brem with hB | ⟨B1, x, hB⟩
    · subst hB; simp at hn
    · rw [List.concat_eq_append] at hB
      subst hB
      have hn1 : B1.length = n := by simpa using hn
      simp only [List.length_append, List.length_singleton] at hf h8 ⊢
      obtain ⟨f, rfl⟩ : ∃ f, fuel = f + 1 := ⟨fuel - 1, by omega⟩
      have hlt : Av.length + Bdone.length < Av.length + (B1.length + 1) + Bdone.length := by omega
      simp only [IPv6Address.parse.spread, hlt, if_true]
      have el : Av ++ ((B1 ++ [x]) ++ (List.replicate (z + 1) ((0 : Byte), (0 : Byte)) ++ Bdone)) =
          (Av ++ B1) ++ x :: (List.replicate z ((0 : Byte), (0 : Byte)) ++ (0, 0) :: Bdone) := by
        rw [List.replicate_succ']; simp
      have er : (Av ++ B1) ++ ((0 : Byte), (0 : Byte)) ::
            (List.replicate z ((0 : Byte), (0 : Byte)) ++ x :: Bdone) =
          Av ++ (B1 ++ (List.replicate (z + 1) ((0 : Byte), (0 : Byte)) ++ x :: Bdone)) := by
        rw [List.replicate_succ]; simp
      rw [el, swapGroups_pairBytes (Av ++ B1) _ _ x (0, 0) _ _ (by simp; omega)
        (by simp; omega), er]
      have key := ih B1 f Av (x :: Bdone) z hn1 (by omega) (by simp; omega)
      simp only [List.length_cons] at key
      have a1 : Av.length + Bdone.length + 1 = Av.length + (Bdone.length + 1) := by omega
      have a2 : B1.length + 1 - 1 = B1.length := by omega
      have a3 : 1 + Bdone.length + 1 = 1 + (Bdone.length + 1) := by omega
      have a4 : Av.length + (B1.length + 1) + Bdone.length =
          Av.length + B1.length + (Bdone.length + 1) := by omega
      rw [a1, a2, a3, a4, key]
      simp


/-! ### Groups of hexadecimal digits -/

set_option maxRecDepth 1000000 in
theorem hexDigitValue_lt : ∀ c : Byte, (hexDigitValue? c).getD 0 < 16 := by decide

set_option maxRecDepth 1000000 in
theorem hexDigit_ne_colon : ∀ c : Byte, (hexDigitValue? c).isSome = true → c ≠ ch ':' := by decide

theorem hexDigitValue_zero : hexDigitValue? (ch '0') = some 0 := by decide

theorem findChar_absent (c : Byte) (xs : Str) (h : ∀ x ∈ xs, x ≠ c) :
    findChar c xs = xs.length := by
  induction xs with
  | nil => rfl
  | cons b xs ih =>
    have hb : b ≠ c := h b (List.mem_cons_self _ _)
    simp [findChar, hb, ih (fun x hx => h x (List.mem_cons_of_mem _ hx))]

theorem isHexGroup_digits (g : Str) (h : isHexGroup g = true) :
    ∀ c ∈ g, (hexDigitValue? c).isSome = true := by
  simp only [isHexGroup, Bool.and_eq_true, List.all_eq_true] at h
  exact h.2

theorem isHexGroup_length (g : Str) (h : isHexGroup g = true) : 1 ≤ g.length ∧ g.length ≤ 4 := by
  simp only [isHexGroup, Bool.and_eq_true, decide_eq_true_eq] at h
  exact h.1

theorem findChar_hexGroup (g tail : Str) (h : isHexGroup g = true)
    (ht : tail = [] ∨ ∃ r, tail = ch ':' :: r) : findChar (ch ':') (g ++ tail) = g.length := by
  have h0 := findChar_absent (ch ':') g
    (fun x hx => hexDigit_ne_colon x (isHexGroup_digits g h x hx))
  rcases ht with rfl | ⟨r, rfl⟩
  · simpa using h0
  · exact findChar_append _ _ _ h0

theorem nibbles_high (a b c d : Nat) (hc : c < 16) (hd : d < 16) :
    (16 * (16 * (16 * (16 * 0 + a) + b) + c) + d) / 256 = 16 * a + b := by omega

theorem nibbles_low (a b c d : Nat) (hc : c < 16) (hd : d < 16) :
    (16 * (16 * (16 * (16 * 0 + a) + b) + c) + d) % 256 = 16 * c + d := by omega

theorem HexToByte_four (c0 c1 c2 c3 : Byte) (h0 : (hexDigitValue? c0).isSome = true)
    (h1 : (hexDigitValue? c1).isSome = true) (h2 : (hexDigitValue? c2).isSome = true)
    (h3 : (hexDigitValue? c3).isSome = true) :
    HexToByte c0 c1 = some (groupPair [c0, c1, c2, c3]).1 ∧
      HexToByte c2 c3 = some (groupPair [c0, c1, c2, c3]).2 := by
  have l2 := hexDigitValue_lt c2
  have l3 := hexDigitValue_lt c3
  simp only [HexToByte, HexToByte_eq_value _ _ h0 h1, HexToByte_eq_value _ _ h2 h3, groupPair,
    hexValue, List.foldl, nibbles_high _ _ _ _ l2 l3, nibbles_low _ _ _ _ l2 l3,
    and_self]

/-- The array `characters` of a group: four hexadecimal digits with the value of the
group. -/
theorem characters_hexGroup (g : Str) (h : isHexGroup g = true) :
    ∃ c0 c1 c2 c3 : Byte, IPv6Address.parse.characters g = [c0, c1, c2, c3] ∧
      (hexDigitValue? c0).isSome = true ∧ (hexDigitValue? c1).isSome = true ∧
      (hexDigitValue? c2).isSome = true ∧ (hexDigitValue? c3).isSome = true ∧
      groupPair g = groupPair [c0, c1, c2, c3] := by
  have hd := isHexGroup_digits g h
  have hl := isHexGroup_length g h
  have z : (hexDigitValue? (ch '0')).isSome = true := by decide
  match g, hd, hl with
  | [x], hd, _ =>
    exact ⟨ch '0', ch '0', ch '0', x, rfl, z, z, z, hd x (by simp),
      by simp [groupPair, hexValue, hexDigitValue_zero]⟩
  | [x, y], hd, _ =>
    exact ⟨ch '0', ch '0', x, y, rfl, z, z, hd x (by simp), hd y (by simp),
      by simp [groupPair, hexValue, hexDigitValue_zero]⟩
  | [x, y, w], hd, _ =>
    exact ⟨ch '0', x, y, w, rfl, z, hd x (by simp), hd y (by simp), hd w (by simp),
      by simp [groupPair, hexValue, hexDigitValue_zero]⟩
  | [x, y, w, v], hd, _ =>
    exact ⟨x, y, w, v, rfl, hd x (by simp), hd y (by simp), hd w (by simp), hd v (by simp), rfl⟩
  | [], _, hl => simp at hl
  | _ :: _ :: _ :: _ :: _ :: _, _, hl => simp at hl

theorem HexToByte_characters (g : Str) (h : isHexGroup g = true) :
    HexToByte ((IPv6Address.parse.characters g).getD 0 0)
        ((IPv6Address.parse.characters g).getD 1 0) = some (groupPair g).1 ∧
      HexToByte ((IPv6Address.parse.characters g).getD 2 0)
        ((IPv6Address.parse.characters g).getD 3 0) = some (groupPair g).2 := by
  obtain ⟨c0, c1, c2, c3, e, h0, h1, h2, h3, ep⟩ := characters_hexGroup g h
  rw [e, ep]
  exact HexToByte_four c0 c1 c2 c3 h0 h1 h2 h3

/-! ### Steps of the main loop of `IPv6Address::parse` -/

/-- A group of hexadecimal digits, followed by a colon or by the end of the text, is
stored and the loop goes on behind the colon. -/
theorem IPv6_loop_group (s pre g tail : Str) (hs : s = pre ++ (g ++ tail))
    (hg : isHexGroup g = true) (ht : tail = [] ∨ ∃ r, tail = ch ':' :: r) (fuel : Nat)
    (a : IPv6Address) (gi : Nat) (hgi : gi < 8) (dc : Bool) (pos : Nat) :
    IPv6Address.parse.loop s (fuel + 1) pre.length a gi dc pos =
      IPv6Address.parse.loop s fuel (pre.length + g.length + 1)
        (a.setGroup gi (groupPair g).1 (groupPair g).2) (gi + 1) dc pos := by
  have hl := isHexGroup_length g hg
  have hlen : pre.length < s.length := by rw [hs]; simp; omega
  have hdrop : s.drop pre.length = g ++ tail := by rw [hs]; simp
  have hfind := findChar_hexGroup g tail hg ht
  have h8 : ¬ 8 = gi := by omega
  have h4 : ¬ 4 < g.length := by omega
  have h0 : ¬ 0 = g.length := by omega
  obtain ⟨e1, e2⟩ := HexToByte_characters g hg
  simp only [IPv6Address.parse.loop, hlen, not_true_eq_false, if_false, h8, hdrop, hfind, h4, h0,
    List.take_left, e1, e2]

/-- The marker "::" at the start of the text. -/
theorem IPv6_loop_marker_start (s tail : Str) (hs : s = ch ':' :: ch ':' :: tail) (fuel : Nat)
    (a : IPv6Address) (gi : Nat) (hgi : gi < 8) (dc : Bool) (pos : Nat) :
    IPv6Address.parse.loop s (fuel + 1) 0 a gi dc pos =
      IPv6Address.parse.loop s fuel 2 a gi true gi := by
  subst hs
  have h8 : ¬ 8 = gi := by omega
  simp [IPv6Address.parse.loop, h8, findChar]

/-- The second colon of a marker "::" that is followed by more text. -/
theorem IPv6_loop_marker_middle (s pre tail : Str) (c : Byte)
    (hs : s = pre ++ (ch ':' :: ch ':' :: c :: tail)) (fuel : Nat) (a : IPv6Address) (gi : Nat)
    (hgi : gi < 8) (pos : Nat) :
    IPv6Address.parse.loop s (fuel + 1) (pre.length + 1) a gi false pos =
      IPv6Address.parse.loop s fuel (pre.length + 2) a gi true gi := by
  have h8 : ¬ 8 = gi := by omega
  have hlen : pre.length + 1 < s.length := by rw [hs]; simp
  have e : s = (pre ++ [ch ':']) ++ (ch ':' :: c :: tail) := by rw [hs]; simp
  have hdrop : s.drop (pre.length + 1) = ch ':' :: c :: tail := by
    rw [e]; exact List.drop_left' (by simp)
  have hprev : s.getD pre.length 0 = ch ':' := by
    rw [hs]; exact getD_append_cons _ _ _ _ rfl
  have hlast : ¬ pre.length + 1 = s.length - 1 := by rw [hs]; simp
  have hprev2 : s[pre.length]?.getD 0 = ch ':' := by simpa using hprev
  have hge : ¬ pre.length + 1 + 1 ≥ s.length := by rw [hs]; simp; omega
  simp [IPv6Address.parse.loop, hlen, h8, hdrop, findChar, hlast, hge, hprev2]

/-- The second colon of a marker "::" that ends the text. -/
theorem IPv6_loop_marker_end (s pre : Str) (hs : s = pre ++ [ch ':', ch ':']) (fuel : Nat)
    (a : IPv6Address) (gi : Nat) (hgi : gi < 8) (dc : Bool) (pos : Nat) :
    IPv6Address.parse.loop s (fuel + 1) (pre.length + 1) a gi dc pos = (true, a) := by
  have h8 : ¬ 8 = gi := by omega
  have hlen : pre.length + 1 < s.length := by rw [hs]; simp
  have e : s = (pre ++ [ch ':']) ++ [ch ':'] := by rw [hs]; simp
  have hdrop : s.drop (pre.length + 1) = [ch ':'] := by
    rw [e]; exact List.drop_left' (by simp)
  have hlast : s.length - 1 = pre.length + 1 := by rw [hs]; simp
  simp only [IPv6Address.parse.loop, hlen, not_true_eq_false, if_false, h8, hdrop, findChar,
    if_true, Nat.add_zero, Nat.lt_irrefl, hlast]
  rfl

/-- Behind the end of the text the loop is left. -/
theorem IPv6_loop_end (s : Str) (fuel previous : Nat) (hp : s.length ≤ previous)
    (a : IPv6Address) (gi : Nat) (dc : Bool) (pos : Nat) :
    IPv6Address.parse.loop s (fuel + 1) previous a gi dc pos =
      IPv6Address.parse.finish s a gi dc pos := by
  have h : ¬ previous < s.length := by omega
  simp [IPv6Address.parse.loop, h]


/-! ### Lists of groups -/

theorem colonJoin_cons (g : Str) (L : List Str) (h : L ≠ []) :
    colonJoin (g :: L) = g ++ ch ':' :: colonJoin L := by
  cases L with
  | nil => exact absurd rfl h
  | cons x L => rfl

theorem colonJoin_concat (B : List Str) (g : Str) :
    colonJoin (B ++ [g]) = colonTerminated B ++ g := by
  induction B with
  | nil => rfl
  | cons x B ih =>
    rw [List.cons_append, colonJoin_cons _ _ (by simp), ih]
    simp [colonTerminated]

theorem colonTerminated_eq (A : List Str) (h : A ≠ []) :
    colonTerminated A = colonJoin A ++ [ch ':'] := by
  induction A with
  | nil => exact absurd rfl h
  | cons x A ih =>
    cases A with
    | nil => simp [colonTerminated, colonJoin]
    | cons y A =>
      rw [colonJoin_cons _ _ (by simp), colonTerminated, ih (by simp)]
      simp

theorem length_colonTerminated_le (A : List Str) (h : ∀ g ∈ A, isHexGroup g = true) :
    (colonTerminated A).length ≤ 5 * A.length := by
  induction A with
  | nil => simp [colonTerminated]
  | cons x A ih =>
    have hx := (isHexGroup_length x (h x (List.mem_cons_self _ _))).2
    have := ih (fun g hg => h g (List.mem_cons_of_mem _ hg))
    simp only [colonTerminated, List.length_append, List.length_cons]
    omega

theorem length_colonJoin_le (A : List Str) (h : ∀ g ∈ A, isHexGroup g = true) :
    (colonJoin A).length ≤ 5 * A.length := by
  cases A with
  | nil => simp [colonJoin]
  | cons x A =>
    have := length_colonTerminated_le (x :: A) h
    rw [colonTerminated_eq _ (by simp)] at this
    simp only [List.length_append, List.length_singleton] at this
    omega

/-! ### Runs of the main loop of `IPv6Address::parse` -/

/-- Groups that are each followed by a colon are stored one after the other. -/
theorem IPv6_loop_groups : ∀ (A : List Str) (s pre tail : Str) (fuel : Nat)
    (V : List (Byte × Byte)) (m : Nat) (dc : Bool) (pos : Nat),
    (∀ g ∈ A, isHexGroup g = true) → s = pre ++ (colonTerminated A ++ tail) →
    V.length + A.length + m = 8 →
    IPv6Address.parse.loop s (fuel + A.length) pre.length
        ⟨pairBytes (V ++ List.replicate (A.length + m) (0, 0))⟩ V.length dc pos =
      IPv6Address.parse.loop s fuel (pre.length + (colonTerminated A).length)
        ⟨pairBytes ((V ++ A.map groupPair) ++ List.replicate m (0, 0))⟩
        (V.length + A.length) dc pos := by
  intro A
  induction A with
  | nil =>
    intro s pre tail fuel V m dc pos _ _ _
    simp [colonTerminated]
  | cons g A ih =>
    intro s pre tail fuel V m dc pos hA hs h8
    have hg := hA g (List.mem_cons_self _ _)
    have hA2 : ∀ x ∈ A, isHexGroup x = true := fun x hx => hA x (List.mem_cons_of_mem _ hx)
    simp only [List.length_cons] at h8 ⊢
    have hs1 : s = pre ++ (g ++ (ch ':' :: (colonTerminated A ++ tail))) := by
      rw [hs]; simp [colonTerminated]
    have hs2 : s = (pre ++ (g ++ [ch ':'])) ++ (colonTerminated A ++ tail) := by
      rw [hs]; simp [colonTerminated]
    have e0 : fuel + (A.length + 1) = (fuel + A.length) + 1 := by omega
    have er : List.replicate (A.length + 1 + m) ((0 : Byte), (0 : Byte)) =
        (0, 0) :: List.replicate (A.length + m) (0, 0) := by
      rw [show A.length + 1 + m = (A.length + m) + 1 by omega, List.replicate_succ]
    rw [e0, IPv6_loop_group s pre g _ hs1 hg (Or.inr ⟨_, rfl⟩) _ _ _ (by omega), er,
      setGroup_pairBytes V _ _ _ _ _ rfl]
    have key := ih s (pre ++ (g ++ [ch ':'])) tail fuel (V ++ [groupPair g]) m dc pos hA2 hs2
      (by simp; omega)
    simp only [List.length_append, List.length_singleton, List.length_cons, List.length_nil,
      List.append_assoc, List.singleton_append] at key
    have e1 : pre.length + g.length + 1 = pre.length + (g.length + (0 + 1)) := by omega
    rw [e1, key]
    simp only [colonTerminated, List.length_append, List.length_cons, List.map_cons,
      List.append_assoc]
    congr 1 <;> omega

/-- The groups behind the marker "::", up to the end of the text, are stored, and the part
of `parse` behind the loop is reached. -/
theorem IPv6_loop_last_groups (B : List Str) (g : Str) (s pre : Str) (fuel : Nat)
    (V : List (Byte × Byte)) (m : Nat) (dc : Bool) (pos : Nat)
    (hB : ∀ x ∈ B, isHexGroup x = true) (hg : isHexGroup g = true)
    (hs : s = pre ++ (colonTerminated B ++ g)) (h8 : V.length + B.length + 1 + m = 8) :
    IPv6Address.parse.loop s (fuel + 1 + 1 + B.length) pre.length
        ⟨pairBytes (V ++ List.replicate (B.length + (1 + m)) (0, 0))⟩ V.length dc pos =
      IPv6Address.parse.finish s
        ⟨pairBytes (V ++ ((B.map groupPair ++ [groupPair g]) ++ List.replicate m (0, 0)))⟩
        (V.length + B.length + 1) dc pos := by
  rw [IPv6_loop_groups B s pre g (fuel + 1 + 1) V (1 + m) dc pos hB hs (by omega)]
  have hs2 : s = (pre ++ colonTerminated B) ++ (g ++ []) := by rw [hs]; simp
  have key := IPv6_loop_group s (pre ++ colonTerminated B) g [] hs2 hg (Or.inl rfl) (fuel + 1)
    ⟨pairBytes ((V ++ B.map groupPair) ++ List.replicate (1 + m) (0, 0))⟩
    (V.length + B.length) (by omega) dc pos
  simp only [List.length_append] at key
  rw [key, IPv6_loop_end s fuel _ (by rw [hs]; simp; omega)]
  have er : List.replicate (1 + m) ((0 : Byte), (0 : Byte)) = (0, 0) :: List.replicate m (0, 0) := by
    rw [show 1 + m = m + 1 by omega, List.replicate_succ]
  rw [er, setGroup_pairBytes (V ++ B.map groupPair) _ _ _ _ _ (by simp)]
  simp

theorem subSize_sub (a b : Nat) (ha : a ≤ 8) (hb : b ≤ a) : subSize a b = a - b := by
  simp only [subSize, Nat.reducePow]
  omega

/-- The groups behind the marker "::" are read and moved to the end of the address. -/
theorem IPv6_loop_after_marker (B : List Str) (hne : B ≠ []) (s pre : Str) (fuel : Nat)
    (V : List (Byte × Byte)) (z : Nat) (hB : ∀ x ∈ B, isHexGroup x = true)
    (hs : s = pre ++ colonJoin B) (hf : B.length + 1 ≤ fuel)
    (h8 : V.length + B.length + (z + 1) = 8) :
    IPv6Address.parse.loop s fuel pre.length
        ⟨pairBytes (V ++ List.replicate (B.length + (z + 1)) (0, 0))⟩ V.length true V.length =
      (true, ⟨pairBytes (V ++ (List.replicate (z + 1) (0, 0) ++ B.map groupPair))⟩) := by
  rcases List.eq_nil_or_concat B with h | ⟨B1, g, h⟩
  · exact absurd h hne
  · rw [List.concat_eq_append] at h
    subst h
    simp only [List.length_append, List.length_singleton] at hf h8 ⊢
    rw [colonJoin_concat] at hs
    obtain ⟨f, rfl⟩ : ∃ f, fuel = f + 1 + 1 + B1.length := ⟨fuel - B1.length - 2, by omega⟩
    have e1 : B1.length + 1 + (z + 1) = B1.length + (1 + (z + 1)) := by omega
    rw [e1, IPv6_loop_last_groups B1 g s pre f V (z + 1) true V.length
      (fun x hx => hB x (by simp [hx])) (hB g (by simp)) hs (by omega)]
    have hsub : subSize (V.length + B1.length + 1) V.length = B1.length + 1 := by
      rw [subSize_sub _ _ (by omega) (by omega)]; omega
    have hnz : ¬ 0 = B1.length + 1 := by omega
    simp only [IPv6Address.parse.finish, Bool.not_true, Bool.false_and, Bool.false_eq_true,
      if_false, if_true, hsub, hnz]
    have key := spread_pairBytes (B1.length + 1) (B1.map groupPair ++ [groupPair g]) 8 V [] z
      (by simp) (by simp; omega) (by simp; omega)
    simp only [List.length_append, List.length_map, List.length_singleton, List.length_nil,
      Nat.add_zero, List.append_nil] at key
    rw [show V.length + B1.length + 1 = V.length + (B1.length + 1) by omega, key]
    simp

/-! ### Texts with the marker "::" -/

theorem zero_eq_pairBytes : IPv6Address.zero = ⟨pairBytes (List.replicate 8 (0, 0))⟩ := by
  decide

theorem groupValues_pairBytes (L : List (Byte × Byte)) (h : L.length = 8) :
    groupValues ⟨pairBytes L⟩ = L.map (fun p => 256 * p.1.val + p.2.val) := by
  match L, h with
  | [p0, p1, p2, p3, p4, p5, p6, p7], _ => rfl

theorem hexValue_groupPair (g : Str) (h : isHexGroup g = true) :
    256 * (groupPair g).1.val + (groupPair g).2.val = hexValue g := by
  have hlt : hexValue g < 65536 := by
    have hl := isHexGroup_length g h
    match g, hl with
    | [x], _ =>
      have := hexDigitValue_lt x
      simp only [hexValue, List.foldl]; omega
    | [x, y], _ =>
      have := hexDigitValue_lt x
      have := hexDigitValue_lt y
      simp only [hexValue, List.foldl]; omega
    | [x, y, w], _ =>
      have := hexDigitValue_lt x
      have := hexDigitValue_lt y
      have := hexDigitValue_lt w
      simp only [hexValue, List.foldl]; omega
    | [x, y, w, v], _ =>
      have := hexDigitValue_lt x
      have := hexDigitValue_lt y
      have := hexDigitValue_lt w
      have := hexDigitValue_lt v
      simp only [hexValue, List.foldl]; omega
    | [], hl => simp at hl
    | _ :: _ :: _ :: _ :: _ :: _, hl => simp at hl
  simp only [groupPair, toByte]
  omega

theorem colonJoin_ne_nil (B : List Str) (hne : B ≠ []) (hB : ∀ x ∈ B, isHexGroup x = true) :
    ∃ c t, colonJoin B = c :: t := by
  match B, hne, hB with
  | [g], _, hB =>
    have hl := isHexGroup_length g (hB g (by simp))
    match g, hl with
    | c :: t, _ => exact ⟨c, t, rfl⟩
    | [], hl => simp at hl
  | g :: h :: rest, _, hB =>
    have hl := isHexGroup_length g (hB g (by simp))
    match g, hl with
    | c :: t, _ => exact ⟨c, t ++ ch ':' :: colonJoin (h :: rest), rfl⟩
    | [], hl => simp at hl

/-- The address that `parse` gives for the text `A "::" B`. -/
theorem IPv6_parse_doubleColonText (A B : List Str) (hA : ∀ g ∈ A, isHexGroup g = true)
    (hB : ∀ g ∈ B, isHexGroup g = true) (h7 : A.length + B.length ≤ 7) (prior : IPv6Address) :
    IPv6Address.parse prior (doubleColonText A B) =
      (true, ⟨pairBytes (A.map groupPair ++
        (List.replicate (8 - A.length - B.length) (0, 0) ++ B.map groupPair))⟩) := by
  have hlenA := length_colonJoin_le A hA
  have hlenB := length_colonJoin_le B hB
  have hlen : (doubleColonText A B).length = (colonJoin A).length + (colonJoin B).length + 2 := by
    simp only [doubleColonText, List.length_append, List.length_cons]; omega
  have hrange : ¬ (2 > (doubleColonText A B).length || (doubleColonText A B).length > 39) = true := by
    simp only [Bool.or_eq_true, decide_eq_true_eq]; omega
  simp only [IPv6Address.parse, hrange, Bool.false_eq_true, if_false]
  rw [IPv6_parse_loop_fuel _ _ ((doubleColonText A B).length + 20) 0 _ _ _ _ (by omega) (by omega),
    zero_eq_pairBytes]
  generalize hs : doubleColonText A B = s
  obtain ⟨z, hz⟩ : ∃ z, 8 - A.length - B.length = z + 1 := ⟨7 - A.length - B.length, by omega⟩
  rw [hz]
  by_cases hAe : A = []
  · subst hAe
    have hs1 : s = ch ':' :: ch ':' :: colonJoin B := by rw [← hs]; rfl
    simp only [List.length_nil, Nat.sub_zero] at hz
    rw [show s.length + 20 = (s.length + 19) + 1 by omega,
      IPv6_loop_marker_start s _ hs1 _ _ _ (by omega)]
    by_cases hBe : B = []
    · subst hBe
      subst hs1
      simp only [List.length_nil, Nat.sub_zero] at hz
      have hz7 : z = 7 := by omega
      subst hz7
      decide
    · have key := IPv6_loop_after_marker B hBe s [ch ':', ch ':'] (s.length + 19) [] z hB
        (by rw [hs1]; rfl) (by omega) (by simp; omega)
      simp only [List.length_cons, List.length_nil, List.nil_append] at key
      have e8 : B.length + (z + 1) = 8 := by omega
      rw [e8] at key
      simpa using key
  · have hs1 : s = [] ++ (colonTerminated A ++ (ch ':' :: colonJoin B)) := by
      rw [← hs, colonTerminated_eq A hAe]; simp [doubleColonText]
    have e8 : (8 : Nat) = A.length + (B.length + (z + 1)) := by omega
    have key := IPv6_loop_groups A s [] (ch ':' :: colonJoin B) (s.length + 20 - A.length) []
      (B.length + (z + 1)) false SIZE_MAX hA hs1 (by simp; omega)
    simp only [List.length_nil, List.nil_append, Nat.zero_add] at key
    rw [show s.length + 20 - A.length + A.length = s.length + 20 by omega, ← e8] at key
    rw [key, colonTerminated_eq A hAe]
    by_cases hBe : B = []
    · subst hBe
      have hs2 : s = colonJoin A ++ [ch ':', ch ':'] := by rw [← hs]; rfl
      simp only [List.length_append, List.length_singleton, List.length_nil, Nat.zero_add]
      rw [show s.length + 20 - A.length = (s.length + 19 - A.length) + 1 by omega,
        IPv6_loop_marker_end s _ hs2 _ _ _ (by omega)]
      simp
    · obtain ⟨c, t, hc⟩ := colonJoin_ne_nil B hBe hB
      have hs2 : s = colonJoin A ++ (ch ':' :: ch ':' :: c :: t) := by
        rw [← hs, ← hc]; rfl
      simp only [List.length_append, List.length_singleton]
      rw [show s.length + 20 - A.length = (s.length + 19 - A.length) + 1 by omega,
        IPv6_loop_marker_middle s _ t c hs2 _ _ _ (by omega)]
      have hs3 : s = (colonJoin A ++ [ch ':', ch ':']) ++ colonJoin B := by
        rw [← hs]; simp [doubleColonText]
      have key2 := IPv6_loop_after_marker B hBe s (colonJoin A ++ [ch ':', ch ':'])
        (s.length + 19 - A.length) (A.map groupPair) z hB hs3 (by omega) (by simp; omega)
      simp only [List.length_append, List.length_cons, List.length_nil, List.length_map,
        Nat.zero_add] at key2
      rw [key2]

set_option maxRecDepth 1000000 in
/-- C12: for lists `A` and `B` of groups of one to four hexadecimal digits with
`|A| + |B| ≤ 7`, `parse` accepts the text `A "::" B` (the groups of each list joined by
single colons), and the eight groups of the address, read as big-endian byte pairs, are
the values of `A`, then `8 - |A| - |B|` zero groups, then the values of `B`. -/
theorem IPv6_parse_double_colon (A B : List Str) (hA : ∀ g ∈ A, isHexGroup g = true)
    (hB : ∀ g ∈ B, isHexGroup g = true) (h7 : A.length + B.length ≤ 7) (prior : IPv6Address) :
    (IPv6Address.parse prior (doubleColonText A B)).1 = true ∧
      groupValues (IPv6Address.parse prior (doubleColonText A B)).2 =
        A.map hexValue ++ (List.replicate (8 - A.length - B.length) 0 ++ B.map hexValue) := by
  rw [IPv6_parse_doubleColonText A B hA hB h7 prior]
  refine ⟨rfl, ?_⟩
  rw [groupValues_pairBytes _ (by simp; omega)]
  simp only [List.map_append, List.map_map, List.map_replicate]
  have hmap : ∀ L : List Str, (∀ g ∈ L, isHexGroup g = true) →
      L.map ((fun p : Byte × Byte => 256 * p.1.val + p.2.val) ∘ groupPair) = L.map hexValue :=
    fun L hL => List.map_congr_left (fun g hg => hexValue_groupPair g (hL g hg))
  rw [hmap A hA, hmap B hB]
  rfl

set_option maxRecDepth 1000000 in
theorem IPv6_parse_double_colon_witness :
    ((IPv6Address.parse IPv6Address.zero (str "2001:4860:4001:803::1011")).1 = true ∧
      groupValues (IPv6Address.parse IPv6Address.zero (str "2001:4860:4001:803::1011")).2 =
        [8193, 18528, 16385, 2051, 0, 0, 0, 4113]) ∧
    ((IPv6Address.parse IPv6Address.zero (str "::")).1 = true ∧
      groupValues (IPv6Address.parse IPv6Address.zero (str "::")).2 = [0, 0, 0, 0, 0, 0, 0, 0]) ∧
    ((IPv6Address.parse IPv6Address.zero (str "1::")).1 = true ∧
      groupValues (IPv6Address.parse IPv6Address.zero (str "1::")).2 = [1, 0, 0, 0, 0, 0, 0, 0]) ∧
    ((IPv6Address.parse IPv6Address.zero (str "::1")).1 = true ∧
      groupValues (IPv6Address.parse IPv6Address.zero (str "::1")).2 = [0, 0, 0, 0, 0, 0, 0, 1]) :=
  ⟨IPv6_parse_double_colon [str "2001", str "4860", str "4001", str "803"] [str "1011"]
      (by decide) (by decide) (by decide) IPv6Address.zero,
    IPv6_parse_double_colon [] [] (by decide) (by decide) (by decide) IPv6Address.zero,
    IPv6_parse_double_colon [str "1"] [] (by decide) (by decide) (by decide) IPv6Address.zero,
    IPv6_parse_double_colon [] [str "1"] (by decide) (by decide) (by decide) IPv6Address.zero⟩



theorem IPv6_parse_single_leading_colon (prior : IPv6Address) (c : Byte) (t : Str)
    (hc : c ≠ ch ':') : (IPv6Address.parse prior (ch ':' :: c :: t)).1 = false := by
  unfold IPv6Address.parse
  split
  · rfl
  · have hc2 : ¬ ch ':' = c := fun h => hc h.symm
    simp [IPv6Address.parse.loop, findChar, hc2]

set_option maxRecDepth 1000000 in
/-- C13 fails on the code: the text "1:2:3:4:5:6:7:8" is accepted, the compressed text
of the resulting address (which has no zero group) starts with a single colon,
":2:3:4:5:6:7:8:", and no text that starts with ":2" is accepted, so parsing the
compressed text does not give the address back. -/
theorem IPv6_stringify_parse_differs :
    IPv6Address.parse IPv6Address.zero (str "1:2:3:4:5:6:7:8") =
        (true, ⟨[0, 1, 0, 2, 0, 3, 0, 4, 0, 5, 0, 6, 0, 7, 0, 8]⟩) ∧
      IPv6Address.compressedSequence ⟨[0, 1, 0, 2, 0, 3, 0, 4, 0, 5, 0, 6, 0, 7, 0, 8]⟩ =
        (true, (0, 0)) ∧
      IPv6Address.lengthCompressed ⟨[0, 1, 0, 2, 0, 3, 0, 4, 0, 5, 0, 6, 0, 7, 0, 8]⟩ = 15 ∧
      IPv6Address.stringifyCompressed ⟨[0, 1, 0, 2, 0, 3, 0, 4, 0, 5, 0, 6, 0, 7, 0, 8]⟩ =
        str ":2:3:4:5:6:7:8:" ∧
      (IPv6Address.parse IPv6Address.zero (str ":2:3:4:5:6:7:8:")).1 = false ∧
      ∀ (prior : IPv6Address) (t : Str),
        (IPv6Address.parse prior (ch ':' :: ch '2' :: t)).1 = false :=
  ⟨by decide, by decide, by decide, by decide, by decide,
    fun prior t => IPv6_parse_single_leading_colon prior (ch '2') t (by decide)⟩

set_option maxRecDepth 1000000 in
/-- C14 fails on the code: in the address 1:0:0:0:4:5:0:0 the longest run of zero groups
is the groups 1 to 3, but `findLargestZeroSequence`, started with the pair (0,0), returns
the shorter run at the end, the groups 6 to 7. -/
theorem IPv6_findLargestZeroSequence_trailing_run :
    (IPv6Address.parse IPv6Address.zero (str "1:0:0:0:4:5:0:0")).2 =
        ⟨[0, 1, 0, 0, 0, 0, 0, 0, 0, 4, 0, 5, 0, 0, 0, 0]⟩ ∧
      (List.range 8).map (IPv6Address.groupIsZero ⟨[0, 1, 0, 0, 0, 0, 0, 0, 0, 4, 0, 5, 0, 0, 0, 0]⟩) =
        [false, true, true, true, false, false, true, true] ∧
      IPv6Address.findLargestZeroSequence ⟨[0, 1, 0, 0, 0, 0, 0, 0, 0, 4, 0, 5, 0, 0, 0, 0]⟩
        (0, 0) = (true, (6, 7)) :=
  ⟨by decide, by decide, by decide⟩

set_option maxRecDepth 1000000 in
/-- C15 fails on the code: the text "::1:" ends in a colon that does not follow another
colon, and `parse` accepts it (as the address ::1); "0:1:2:3:" is rejected. -/
theorem IPv6_parse_trailing_colon_accepted :
    IPv6Address.parse IPv6Address.zero (str "::1:") =
        (true, ⟨[0, 0, 0, 0, 0, 0, 0, 0, 0, 0, 0, 0, 0, 0, 0, 1]⟩) ∧
      (IPv6Address.parse IPv6Address.zero (str "0:1:2:3:")).1 = false :=
  ⟨by decide, by decide⟩

set_option maxRecDepth 1000000 in
/-- C16 fails on the code: the texts ":::" and "1::2::" hold the marker "::" twice, and
`parse` accepts both; "1::2::3" is rejected. -/
theorem IPv6_parse_two_markers_accepted :
    IPv6Address.parse IPv6Address.zero (str ":::") = (true, IPv6Address.zero) ∧
      IPv6Address.parse IPv6Address.zero (str "1::2::") =
        (true, ⟨[0, 1, 0, 2, 0, 0, 0, 0, 0, 0, 0, 0, 0, 0, 0, 0]⟩) ∧
      (IPv6Address.parse IPv6Address.zero (str "1::2::3")).1 = false :=
  ⟨by decide, by decide, by decide⟩

set_option maxRecDepth 1000000 in
/-- C17 fails on the code: the address ::1 has a non-zero byte, and its conversion to
`bool` is false, because the conversion asks for both 64-bit halves to be non-zero; so is
that of 1::, while that of 1::1 is true and that of :: is false. -/
theorem IPv6_toBool_needs_both_halves :
    (IPv6Address.parse IPv6Address.zero (str "::1")).2 =
        ⟨[0, 0, 0, 0, 0, 0, 0, 0, 0, 0, 0, 0, 0, 0, 0, 1]⟩ ∧
      IPv6Address.toBool ⟨[0, 0, 0, 0, 0, 0, 0, 0, 0, 0, 0, 0, 0, 0, 0, 1]⟩ = false ∧
      IPv6Address.toBool ⟨[0, 1, 0, 0, 0, 0, 0, 0, 0, 0, 0, 0, 0, 0, 0, 0]⟩ = false ∧
      IPv6Address.toBool ⟨[0, 1, 0, 0, 0, 0, 0, 0, 0, 0, 0, 0, 0, 0, 0, 1]⟩ = true ∧
      IPv6Address.toBool IPv6Address.zero = false :=
  ⟨by decide, by decide, by decide, by decide, by decide⟩

/-! ## Scheme -/

set_option maxRecDepth 1000000 in
theorem setValue_lower_byte : ∀ c : Byte,
    if (ch 'a' ≤ c && c ≤ ch 'z') || (ch '0' ≤ c && c ≤ ch '9') || ch '+' == c || ch '-' == c ||
        ch '.' == c then isSchemeChar c = true ∧ asciiLower c = c
    else if ch 'A' ≤ c && c ≤ ch 'Z' then
      isSchemeChar c = true ∧ asciiLower c = toByte (c.val + ((ch 'a').val - (ch 'A').val))
    else isSchemeChar c = false := by
  decide

set_option maxRecDepth 1000000 in
theorem asciiLower_letter : ∀ c : Byte, isSchemeChar c = true →
    (ch 'a' ≤ asciiLower c && asciiLower c ≤ ch 'z') = isAsciiLetter c := by
  decide

theorem setValue_lower_eq (v : Str) :
    Scheme.setValue.lower v = if v.all isSchemeChar = true then some (v.map asciiLower) else none := by
  induction v with
  | nil => rfl
  | cons c v ih =>
    have hc := setValue_lower_byte c
    simp only [Scheme.setValue.lower, ih, List.all_cons, List.map_cons]
    split at hc
    · rename_i h1
      simp only [h1, if_true, hc.1, hc.2, Bool.true_and]
      split <;> rfl
    · rename_i h1
      split at hc
      · rename_i h2
        simp only [h1, h2, if_true, hc.1, hc.2, Bool.true_and, Bool.false_eq_true, if_false]
        split <;> rfl
      · rename_i h2
        simp [h1, h2, hc]

/-! ## Claims about schemes -/

/-- C18: for every non-empty string `v`, `setValue(v)` returns `true` exactly when the
first byte of `v` is an ASCII letter and every byte of `v` is an ASCII letter, a digit,
`+`, `-` or `.`; the stored value is then `v` with `A`-`Z` replaced by `a`-`z`. -/
theorem Scheme_setValue_iff (s : Scheme) (v : Str) (hv : v ≠ []) :
    ((s.setValue v).1 = true ↔
      isAsciiLetter (v.headD 0) = true ∧ ∀ c ∈ v, isSchemeChar c = true) ∧
    ((s.setValue v).1 = true → (s.setValue v).2.value_ = v.map asciiLower) := by
  match v, hv with
  | c :: rest, _ =>
    have hlen : ¬ (0 = (c :: rest).length) := by simp
    simp only [Scheme.setValue, hlen, if_false, setValue_lower_eq, List.headD_cons]
    by_cases hall : (c :: rest).all isSchemeChar = true
    · have hc : isSchemeChar c = true := by
        simp only [List.all_cons, Bool.and_eq_true] at hall
        exact hall.1
      have hall2 : ∀ x ∈ c :: rest, isSchemeChar x = true := List.all_eq_true.1 hall
      simp only [hall, if_true, List.map_cons, List.getD_cons_zero, asciiLower_letter c hc]
      cases hl : isAsciiLetter c
      · simp
      · simp only [Bool.not_true, Bool.false_eq_true, if_false, true_and, implies_true, and_true,
          true_iff]
        exact hall2
    · have hall2 : ¬ ∀ x ∈ c :: rest, isSchemeChar x = true := fun h => hall (List.all_eq_true.2 h)
      simp only [hall, if_false]
      exact ⟨⟨fun h => by simp at h, fun h => absurd h.2 hall2⟩, fun h => by simp at h⟩

/-- C18 at concrete inputs: `"HTTP"`, `"Http"` and `"hTtp"` store `"http"`; `" https"`,
`"https://"` and `"+hello"` are rejected. -/
theorem Scheme_setValue_iff_witness :
    (Scheme.setValue ⟨[]⟩ (str "HTTP")).2.value_ = str "http" ∧
    (Scheme.setValue ⟨[]⟩ (str "Http")).2.value_ = str "http" ∧
    (Scheme.setValue ⟨[]⟩ (str "hTtp")).2.value_ = str "http" ∧
    (Scheme.setValue ⟨[]⟩ (str " https")).1 = false ∧
    (Scheme.setValue ⟨[]⟩ (str "https://")).1 = false ∧
    (Scheme.setValue ⟨[]⟩ (str "+hello")).1 = false :=
  ⟨(Scheme_setValue_iff ⟨[]⟩ (str "HTTP") (by decide)).2 (by decide),
   (Scheme_setValue_iff ⟨[]⟩ (str "Http") (by decide)).2 (by decide),
   (Scheme_setValue_iff ⟨[]⟩ (str "hTtp") (by decide)).2 (by decide),
   by decide, by decide, by decide⟩

/-- C19: for every stored scheme and every input, if `setValue` returns `false` then the
scheme afterwards is the scheme before, so the stored value is untouched. -/
theorem Scheme_setValue_false_keeps (s : Scheme) (v : Str) (h : (s.setValue v).1 = false) :
    (s.setValue v).2 = s ∧ (s.setValue v).2.value_ = s.value_ := by
  have key : (s.setValue v).2 = s := by
    unfold Scheme.setValue at h ⊢
    split at h
    · simp at h
    · split at h
      · rename_i hn
        simp only [‹¬ (0 = v.length)›, if_false, hn]
      · rename_i temp ht
        split at h
        · rename_i hf
          simp only [‹¬ (0 = v.length)›, if_false, ht, hf, if_true]
        · simp at h
  rw [key]
  exact ⟨rfl, rfl⟩

/-- C19 at a concrete input: the scheme `"http"` survives the failed `setValue("+hello")`. -/
theorem Scheme_setValue_false_keeps_witness :
    (Scheme.setValue ⟨str "http"⟩ (str "+hello")).1 = false ∧
    (Scheme.setValue ⟨str "http"⟩ (str "+hello")).2.value_ = str "http" :=
  ⟨by decide, (Scheme_setValue_false_keeps ⟨str "http"⟩ (str "+hello") (by decide)).2⟩

theorem eqString_allOf_true (value_ : Str) : ∀ (pre rest : Str), pre ++ rest = value_ →
    Scheme.eqString.allOf value_ rest pre.length = true := by
  intro pre rest
  induction rest generalizing pre with
  | nil => intro _; rfl
  | cons c rest ih =>
    intro h
    have hg : value_.getD pre.length 0 = c := by
      rw [← h]; exact getD_append_cons pre c rest pre.length rfl
    have := ih (pre ++ [c]) (by simpa using h)
    simp only [Scheme.eqString.allOf, hg, beq_self_eq_true, Bool.true_or, if_true]
    simpa using this

/-- The operator `operator==(const std::string &)` only compares the lengths. -/
theorem eqString_eq_length (s : Scheme) (t : Str) :
    s.eqString t = decide (t.length = s.value_.length) := by
  have := eqString_allOf_true s.value_ [] s.value_ rfl
  simp only [List.length_nil] at this
  simp [Scheme.eqString, this]

/-- C20 fails on the code: for the scheme `"http"` the operator `==` returns `true` on
`"abcd"`, which differs from it in every position by more than case (and `true` on
`"HTTP"`, `false` on `"https"`). -/
theorem Scheme_eqString_not_case_insensitive :
    Scheme.eqString ⟨str "http"⟩ (str "abcd") = true ∧
    equalUpToCase (str "abcd") (str "http") = false ∧
    Scheme.eqString ⟨str "http"⟩ (str "HTTP") = true ∧
    Scheme.eqString ⟨str "http"⟩ (str "https") = false := by
  decide

/-! ## Claims about ports, hosts and authorities -/

set_option maxRecDepth 1000000 in
/-- C21 fails on the code: `ParsePort` accepts the digit string "65536", whose value
exceeds 65535, and gives the port 0, the value wrapped modulo 2^16; "65535" is accepted
with the port 65535 and "65537" is rejected. -/
theorem ParsePort_accepts_65536 :
    ParsePortTo (str "65536") 7 = (true, 0) ∧
      ParsePortTo (str "65535") 7 = (true, 65535) ∧
      (ParsePortTo (str "65537") 7).1 = false ∧
      decimalValue (str "65536") = 65536 := by
  decide

/-! ### Registered names -/

theorem joinWith_cons (sep : Byte) (g : Str) (L : List Str) (h : L ≠ []) :
    joinWith sep (g :: L) = g ++ sep :: joinWith sep L := by
  cases L with
  | nil => exact absurd rfl h
  | cons x L => rfl

set_option maxRecDepth 1000000 in
theorem isLabelChar_eq : ∀ c : Byte, ((ch '0' ≤ c && c ≤ ch '9') || (ch 'a' ≤ c && c ≤ ch 'z') ||
    (ch 'A' ≤ c && c ≤ ch 'Z') || ch '-' == c) = isLabelChar c := by
  decide

set_option maxRecDepth 1000000 in
theorem isDecimalDigit_range : ∀ c : Byte, (ch '0' ≤ c && c ≤ ch '9') = isDecimalDigit c := by
  decide

set_option maxRecDepth 1000000 in
theorem isLabelChar_ne_dot : ∀ c : Byte, isLabelChar c = true → c ≠ ch '.' := by decide

set_option maxRecDepth 1000000 in
theorem isLabelChar_ne_bracket : ∀ c : Byte, isLabelChar c = true → (ch '[' == c) = false := by
  decide

set_option maxRecDepth 1000000 in
theorem host_lower_eq : ∀ c : Byte,
    (if ch 'A' ≤ c && c ≤ ch 'Z' then toByte (c.val + (ch ' ').val) else c) = asciiLower c := by
  decide

/-- The first byte of a host label: a label byte that is neither `-` nor a digit. -/
theorem isHostLabel_head (l : Str) (h : isHostLabel l = true) :
    ∃ c t, l = c :: t ∧ isLabelChar c = true ∧ c ≠ ch '-' ∧ isDecimalDigit c = false := by
  simp only [isHostLabel, isLabelText, Bool.and_eq_true, decide_eq_true_eq, List.all_eq_true,
    Bool.not_eq_true'] at h
  obtain ⟨⟨⟨⟨⟨h1, _⟩, hall⟩, hhead⟩, _⟩, hdig⟩ := h
  match l, h1, hall, hhead, hdig with
  | c :: t, _, hall, hhead, hdig =>
    refine ⟨c, t, rfl, hall c (List.mem_cons_self _ _), ?_, ?_⟩
    · intro hc; exact hhead (by rw [hc]; rfl)
    · simpa using hdig

theorem validateLabel_of_isHostLabel (l : Str) (h : isHostLabel l = true) :
    Host.validateLabel_ l = true := by
  obtain ⟨c, t, rfl, _, hc1, hc2⟩ := isHostLabel_head l h
  simp only [isHostLabel, isLabelText, Bool.and_eq_true, decide_eq_true_eq, List.all_eq_true,
    Bool.not_eq_true'] at h
  obtain ⟨⟨⟨⟨⟨h1, h63⟩, hall⟩, _⟩, hlast⟩, _⟩ := h
  have hl : (c :: t).getLast? = some ((c :: t).getD ((c :: t).length - 1) 0) := by
    rw [List.getLast?_eq_getElem?, List.getD_eq_getElem?_getD]
    have : (c :: t).length - 1 < (c :: t).length := by simp
    rw [List.getElem?_eq_getElem this]
    rfl
  have hlast2 : (ch '-' != (c :: t).getD ((c :: t).length - 1) 0) = true := by
    rw [bne_iff_ne]
    intro he
    exact hlast (by rw [hl, ← he])
  have hfirst : (ch '-' != c) = true := by
    rw [bne_iff_ne]; exact fun he => hc1 he.symm
  have hall2 : (c :: t).all (fun x => (ch '0' ≤ x && x ≤ ch '9') || (ch 'a' ≤ x && x ≤ ch 'z') ||
      (ch 'A' ≤ x && x ≤ ch 'Z') || ch '-' == x) = true := by
    rw [List.all_eq_true]
    intro x hx
    rw [isLabelChar_eq]
    exact hall x hx
  unfold Host.validateLabel_
  rw [hall2, hlast2]
  simp only [List.getD_cons_zero, hfirst, isDecimalDigit_range, hc2, Bool.not_false,
    Bool.and_true, Bool.and_eq_true, decide_eq_true_eq]
  exact ⟨by omega, h63⟩

theorem findChar_label (l tail : Str) (h : isHostLabel l = true)
    (ht : tail = [] ∨ ∃ r, tail = ch '.' :: r) : findChar (ch '.') (l ++ tail) = l.length := by
  have hall : ∀ x ∈ l, isLabelChar x = true := by
    simp only [isHostLabel, isLabelText, Bool.and_eq_true, List.all_eq_true] at h
    exact h.1.1.1.2
  have h0 := findChar_absent (ch '.') l (fun x hx => isLabelChar_ne_dot x (hall x hx))
  rcases ht with rfl | ⟨r, rfl⟩
  · simpa using h0
  · exact findChar_append _ _ _ h0

/-- The label loop of `Host::parse` accepts a text of host labels joined by dots. -/
theorem Host_parse_labels_joined : ∀ (L : List Str), L ≠ [] →
    (∀ l ∈ L, isHostLabel l = true) → ∀ fuel, (joinWith (ch '.') L).length + 1 ≤ fuel →
    Host.parse.labels fuel (joinWith (ch '.') L) = true := by
  intro L
  induction L with
  | nil => intro h; exact absurd rfl h
  | cons l L ih =>
    intro _ hL fuel hf
    have hl := hL l (List.mem_cons_self _ _)
    obtain ⟨c, t, hct, _⟩ := isHostLabel_head l hl
    have hv := validateLabel_of_isHostLabel l hl
    obtain ⟨f, rfl⟩ : ∃ f, fuel = f + 1 := ⟨fuel - 1, by omega⟩
    by_cases hLe : L = []
    · subst hLe
      have hne : ¬ (joinWith (ch '.') [l]).length = 0 := by simp [joinWith, hct]
      have hfind : findChar (ch '.') (joinWith (ch '.') [l]) = l.length := by
        simpa [joinWith] using findChar_label l [] hl (Or.inl rfl)
      obtain ⟨f2, rfl⟩ : ∃ f2, f = f2 + 1 := ⟨f - 1, by simp [joinWith, hct] at hf; omega⟩
      simp only [Host.parse.labels, hne, if_false, hfind]
      simp [joinWith, hv, Host.parse.labels]
    · have hj := joinWith_cons (ch '.') l L hLe
      have hne : ¬ (joinWith (ch '.') (l :: L)).length = 0 := by rw [hj]; simp [hct]
      have hfind : findChar (ch '.') (joinWith (ch '.') (l :: L)) = l.length := by
        rw [hj]; exact findChar_label l _ hl (Or.inr ⟨_, rfl⟩)
      have hrec := ih hLe (fun x hx => hL x (List.mem_cons_of_mem _ hx)) f
        (by rw [hj] at hf; simp at hf; omega)
      simp only [Host.parse.labels, hne, if_false, hfind]
      rw [hj, List.take_left, hv]
      simp only [Bool.not_true, Bool.false_eq_true, if_false]
      rw [show l.length + 1 = (l ++ [ch '.']).length by simp,
        show l ++ ch '.' :: joinWith (ch '.') L = (l ++ [ch '.']) ++ joinWith (ch '.') L by simp,
        List.drop_left]
      exact hrec

set_option maxRecDepth 1000000 in
/-- C22 as stated fails on the code: every label of "a.1b" has 1 to 63 letters, digits or
`-` with no `-` at either end, the text does not begin with `[` and is no IPv4 address,
and `Host::parse` rejects it, because `validateLabel_` refuses a label that begins with a
digit. -/
theorem Host_parse_rejects_digit_label :
    isLabelText (str "a") = true ∧ isLabelText (str "1b") = true ∧
      joinWith (ch '.') [str "a", str "1b"] = str "a.1b" ∧
      (IPv4Address.parse IPv4Address.zero (str "a.1b")).1 = false ∧
      Host.validateLabel_ (str "1b") = false ∧
      Host.parse ⟨[], HostType.None⟩ (str "a.1b") = (false, ⟨[], HostType.None⟩) := by
  decide

/-- C22, amended: for every text of 1 to 255 bytes made of dot-separated labels that each
have 1 to 63 bytes, consist of ASCII letters, digits and `-`, do not begin or end with
`-` and do not begin with a digit, `Host::parse` returns `true`, the host is a registered
name, and the stored value is the text with `A`-`Z` lowercased. -/
theorem Host_parse_registered_name (h : Host) (L : List Str) (hne : L ≠ [])
    (hL : ∀ l ∈ L, isHostLabel l = true) (hlen : (joinWith (ch '.') L).length ≤ 255) :
    Host.parse h (joinWith (ch '.') L) =
      (true, ⟨(joinWith (ch '.') L).map asciiLower, HostType.Name⟩) := by
  have hlabels := Host_parse_labels_joined L hne hL ((joinWith (ch '.') L).length + 1) (le_refl _)
  obtain ⟨c, t, hs, hc, hdig⟩ : ∃ c t, joinWith (ch '.') L = c :: t ∧ isLabelChar c = true ∧
      isDecimalDigit c = false := by
    match L, hne, hL with
    | l :: R, _, hL =>
      obtain ⟨c, t, hct, hc, _, hdig⟩ := isHostLabel_head l (hL l (List.mem_cons_self _ _))
      subst hct
      cases R with
      | nil => exact ⟨c, t, rfl, hc, hdig⟩
      | cons r R => exact ⟨c, t ++ ch '.' :: joinWith (ch '.') (r :: R), rfl, hc, hdig⟩
  have h0 : ¬ (0 = (joinWith (ch '.') L).length || 255 < (joinWith (ch '.') L).length) = true := by
    have hl : (joinWith (ch '.') L).length = t.length + 1 := by rw [hs]; rfl
    simp only [Bool.or_eq_true, decide_eq_true_eq]
    omega
  have hget : (joinWith (ch '.') L).getD 0 0 = c := by rw [hs]; rfl
  have hmap : (joinWith (ch '.') L).map
      (fun c => if ch 'A' ≤ c && c ≤ ch 'Z' then toByte (c.val + (ch ' ').val) else c) =
      (joinWith (ch '.') L).map asciiLower :=
    List.map_congr_left (fun x _ => host_lower_eq x)
  simp only [Host.parse, h0, if_false, hget, isLabelChar_ne_bracket c hc, Bool.false_and,
    Bool.false_eq_true, isDecimalDigit_range, hdig, hlabels, Bool.not_true, hmap]

set_option maxRecDepth 1000000 in
/-- C22, amended, at concrete inputs: "Example.COM" is stored as "example.com", and "a.b1"
is accepted. -/
theorem Host_parse_registered_name_witness :
    Host.parse ⟨[], HostType.None⟩ (str "Example.COM") =
        (true, ⟨str "example.com", HostType.Name⟩) ∧
      Host.parse ⟨[], HostType.None⟩ (str "a.b1") = (true, ⟨str "a.b1", HostType.Name⟩) :=
  ⟨Host_parse_registered_name _ [str "Example", str "COM"] (by decide) (by decide) (by decide),
    Host_parse_registered_name _ [str "a", str "b1"] (by decide) (by decide) (by decide)⟩

set_option maxRecDepth 1000000 in
/-- C23 fails on the code: a host that holds the registered name "example.com" still holds
it after `parse("[zz]")` has returned `false`; the bracketed branch returns without
clearing the host when the inner IPv6 parse fails. -/
theorem Host_parse_bracket_failure_keeps :
    Host.parse ⟨str "example.com", HostType.Name⟩ (str "[zz]") =
        (false, ⟨str "example.com", HostType.Name⟩) ∧
      Host.empty (Host.parse ⟨str "example.com", HostType.Name⟩ (str "[zz]")).2 = false ∧
      (Host.parse ⟨[], HostType.None⟩ (str "example.com")) =
        (true, ⟨str "example.com", HostType.Name⟩) := by
  decide

set_option maxRecDepth 1000000 in
/-- C24 fails on the code: `Authority::parse("example.com:8080")` returns `true` and the
host is "example.com", but the port field is 0, not 8080: the port text is only checked. -/
theorem Authority_parse_drops_port :
    Authority.parse ⟨⟨[], []⟩, ⟨[], HostType.None⟩, 0⟩ (str "example.com:8080") =
        (true, ⟨⟨[], []⟩, ⟨str "example.com", HostType.Name⟩, 0⟩) ∧
      ParsePort (str "8080") = 8080 := by
  decide

/-- The authority after `clear()`. -/
theorem Authority_clear_eq (a : Authority) :
    a.clear = ⟨⟨[], []⟩, ⟨[], HostType.None⟩, 0⟩ := rfl

/-- C25: for every prior authority and every input, if `Authority::parse` returns `false`
then user, password and host are empty and the port is 0 afterwards, and `empty()` is
true. -/
theorem Authority_parse_false_clears (a : Authority) (s : Str)
    (h : (a.parse s).1 = false) :
    (a.parse s).2 = ⟨⟨[], []⟩, ⟨[], HostType.None⟩, 0⟩ ∧ (a.parse s).2.empty = true := by
  have key : (a.parse s).2 = ⟨⟨[], []⟩, ⟨[], HostType.None⟩, 0⟩ := by
    simp only [Authority.parse, Authority_clear_eq] at h ⊢
    split_ifs at h ⊢ <;> rfl
  rw [key]
  exact ⟨rfl, rfl⟩

set_option maxRecDepth 1000000 in
/-- C25 at concrete inputs: an authority that holds a user, a host and a port is empty
after the failed parses of "example.com:99999" (port), "a%zz@example.com" (user
information) and "exa mple.com" (host). -/
theorem Authority_parse_false_clears_witness :
    (Authority.parse ⟨⟨str "u", str "p"⟩, ⟨str "h", HostType.Name⟩, 80⟩
        (str "example.com:99999")).2.empty = true ∧
      (Authority.parse ⟨⟨str "u", str "p"⟩, ⟨str "h", HostType.Name⟩, 80⟩
        (str "a%zz@example.com")).2.empty = true ∧
      (Authority.parse ⟨⟨str "u", str "p"⟩, ⟨str "h", HostType.Name⟩, 80⟩
        (str "exa mple.com")).2.empty = true :=
  ⟨(Authority_parse_false_clears _ (str "example.com:99999") (by decide)).2,
    (Authority_parse_false_clears _ (str "a%zz@example.com") (by decide)).2,
    (Authority_parse_false_clears _ (str "exa mple.com") (by decide)).2⟩

set_option maxRecDepth 1000000 in
/-- C26 fails on the code: for the authority that holds only the host "example.com",
`length()` is 22, twice the length of the text "example.com" that `stringify` writes
into the first 11 bytes. -/
theorem Authority_length_counts_host_twice :
    Authority.length ⟨⟨[], []⟩, ⟨str "example.com", HostType.Name⟩, 0⟩ = 22 ∧
      (str "example.com").length = 11 ∧
      ((Authority.stringifyAt ⟨⟨[], []⟩, ⟨str "example.com", HostType.Name⟩, 0⟩ [] 0).2.take 11 =
        str "example.com") := by
  decide

/-! ## Claims about paths -/

theorem pieces_ne_nil (sep : Byte) (s : Str) : pieces sep s ≠ [] := by
  induction s with
  | nil => simp [pieces]
  | cons c rest ih =>
    unfold pieces
    split
    · simp
    · split <;> simp

/-- The first piece of a text ends at the first separator, and the other pieces are those
of the text behind that separator. -/
theorem pieces_findChar (sep : Byte) (s : Str) :
    pieces sep s = s.take (findChar sep s) ::
      (if findChar sep s < s.length then pieces sep (s.drop (findChar sep s + 1)) else []) := by
  induction s with
  | nil => simp [pieces, findChar]
  | cons c rest ih =>
    by_cases hc : c = sep
    · simp [pieces, findChar, hc]
    · simp only [pieces, findChar, hc, if_false, List.take_succ_cons, List.drop_succ_cons,
        List.length_cons, Nat.add_lt_add_iff_right]
      rw [ih]

theorem nonEmptyPieces_nil (sep : Byte) : nonEmptyPieces sep [] = [] := by
  simp [nonEmptyPieces, pieces]

/-- The non-empty pieces of a non-empty text, by its first piece. -/
theorem nonEmptyPieces_step (sep : Byte) (s : Str) :
    nonEmptyPieces sep s =
      (if 0 ≠ findChar sep s then [s.take (findChar sep s)] else []) ++
        nonEmptyPieces sep (s.drop (findChar sep s + 1)) := by
  have hle : findChar sep s ≤ s.length := by
    induction s with
    | nil => simp [findChar]
    | cons c rest ih =>
      by_cases hc : c = sep
      · simp [findChar, hc]
      · simp [findChar, hc, ih]
  have hrest : (if findChar sep s < s.length then pieces sep (s.drop (findChar sep s + 1)) else []).filter
      (fun p => !p.isEmpty) = nonEmptyPieces sep (s.drop (findChar sep s + 1)) := by
    split
    · rfl
    · rw [List.drop_eq_nil_of_le (by omega), nonEmptyPieces_nil]; rfl
  conv_lhs => rw [nonEmptyPieces, pieces_findChar, List.filter_cons, hrest]
  by_cases h0 : 0 = findChar sep s
  · have : s.take (findChar sep s) = [] := by rw [← h0]; rfl
    simp [h0.symm, this]
  · have hne : s.take (findChar sep s) ≠ [] := by
      intro he
      have := congrArg List.length he
      simp only [List.length_take, List.length_nil] at this
      omega
    cases ht : s.take (findChar sep s) with
    | nil => exact absurd ht hne
    | cons x xs => simp [h0]

/-- What the loop of `PathManager::parse` leaves: the vector has grown by `new`, the
counter by the length of `new`; the loop succeeds exactly when every non-empty piece
decodes, and `new` then holds the decoded pieces. -/
theorem PathManager_loop_spec (fuel : Nat) : ∀ (previous : Str) (paths : List Str) (added : Nat),
    previous.length < fuel →
    ∃ new : List Str,
      (PathManager.parse.loop fuel previous paths added).2.1 = paths ++ new ∧
      (PathManager.parse.loop fuel previous paths added).2.2 = added + new.length ∧
      ((PathManager.parse.loop fuel previous paths added).1 = true ↔
        ∀ p ∈ nonEmptyPieces (ch '/') previous, (Decode p []).1 = true) ∧
      ((PathManager.parse.loop fuel previous paths added).1 = true →
        new = (nonEmptyPieces (ch '/') previous).map (fun p => (Decode p []).2)) := by
  induction fuel with
  | zero => intro previous _ _ h; omega
  | succ fuel ih =>
    intro previous paths added hlt
    by_cases h0 : previous.length = 0
    · have hp : previous = [] := List.length_eq_zero.mp h0
      subst hp
      exact ⟨[], by simp [PathManager.parse.loop, nonEmptyPieces_nil]⟩
    · have hdrop : (previous.drop (findChar (ch '/') previous + 1)).length < fuel := by
        have := length_drop_succ_lt previous (findChar (ch '/') previous) h0
        omega
      rw [nonEmptyPieces_step (ch '/') previous]
      by_cases hk : 0 ≠ findChar (ch '/') previous
      · cases hd : (Decode (previous.take (findChar (ch '/') previous)) []).1
        · refine ⟨[], ?_⟩
          simp only [PathManager.parse.loop, h0, if_false, hk, ne_eq, not_false_eq_true, if_true,
            hd, Bool.not_false]
          simp [hk, hd]
        · obtain ⟨new, e1, e2, e3, e4⟩ := ih (previous.drop (findChar (ch '/') previous + 1))
            (paths ++ [(Decode (previous.take (findChar (ch '/') previous)) []).2]) (added + 1) hdrop
          refine ⟨(Decode (previous.take (findChar (ch '/') previous)) []).2 :: new, ?_⟩
          simp only [PathManager.parse.loop, h0, if_false, hk, ne_eq, not_false_eq_true, if_true,
            hd, Bool.not_true, Bool.false_eq_true]
          refine ⟨by rw [e1]; simp, by rw [e2]; simp; omega, ?_, ?_⟩
          · rw [e3]; simp [hd]
          · intro h; rw [e4 h]; simp
      · obtain ⟨new, e1, e2, e3, e4⟩ := ih (previous.drop (findChar (ch '/') previous + 1))
          paths added hdrop
        refine ⟨new, ?_⟩
        simp only [PathManager.parse.loop, h0, if_false, hk]
        refine ⟨e1, e2, ?_, ?_⟩
        · rw [e3]; simp
        · intro h; rw [e4 h]; simp

set_option maxRecDepth 1000000 in
/-- C27 as stated fails on the code: `parse("/a/b")` on a manager that holds the segment
"x" returns `true` and leaves the segments "x", "a", "b"; the segment held before is
kept, so the list is not the list "a", "b" of the pieces of the input. -/
theorem PathManager_parse_keeps_old_segments :
    PathManager.parse ⟨[str "x"]⟩ (str "/a/b") = (true, ⟨[str "x", str "a", str "b"]⟩) ∧
      (nonEmptyPieces (ch '/') (str "/a/b")).map (fun p => (Decode p []).2) = [str "a", str "b"] ∧
      (PathManager.parse ⟨[str "x"]⟩ (str "/a/b")).2.paths_ ≠
        (nonEmptyPieces (ch '/') (str "/a/b")).map (fun p => (Decode p []).2) := by
  decide

/-- C27, amended: `PathManager::parse(s)` returns `true` exactly when every non-empty
`/`-separated piece of `s` decodes, and the segment list afterwards is then the list held
before the call followed by the percent-decoded non-empty pieces of `s` in order. -/
theorem PathManager_parse_appends (p : PathManager) (s : Str) :
    ((p.parse s).1 = true ↔ ∀ x ∈ nonEmptyPieces (ch '/') s, (Decode x []).1 = true) ∧
    ((p.parse s).1 = true →
      (p.parse s).2.paths_ =
        p.paths_ ++ (nonEmptyPieces (ch '/') s).map (fun x => (Decode x []).2)) := by
  obtain ⟨new, e1, _, e3, e4⟩ := PathManager_loop_spec (s.length + 1) s p.paths_ 0 (by omega)
  cases hr : (PathManager.parse.loop (s.length + 1) s p.paths_ 0).1
  · rw [hr] at e3
    simp only [PathManager.parse, hr, Bool.false_eq_true, if_false, false_iff, false_implies,
      and_true]
    exact fun h => absurd (e3.2 h) (by simp)
  · rw [hr] at e3 e4
    simp only [PathManager.parse, hr, if_true, true_iff, true_implies]
    exact ⟨e3.1 rfl, by rw [e1, e4 rfl]⟩

set_option maxRecDepth 1000000 in
/-- C27, amended, at a concrete input: "/a%20b//c" on a manager that holds "x" gives the
segments "x", "a b", "c". -/
theorem PathManager_parse_appends_witness :
    (PathManager.parse ⟨[str "x"]⟩ (str "/a%20b//c")).2.paths_ = [str "x", str "a b", str "c"] :=
  (PathManager_parse_appends ⟨[str "x"]⟩ (str "/a%20b//c")).2 (by decide)

/-- C28: for every manager and every input, if `PathManager::parse` returns `false` then
the segment list afterwards is the list held before the call: the segments appended
before the failure are popped again. -/
theorem PathManager_parse_false_restores (p : PathManager) (s : Str)
    (h : (p.parse s).1 = false) : (p.parse s).2 = p := by
  obtain ⟨new, e1, e2, _, _⟩ := PathManager_loop_spec (s.length + 1) s p.paths_ 0 (by omega)
  cases hr : (PathManager.parse.loop (s.length + 1) s p.paths_ 0).1
  · simp only [PathManager.parse, hr, Bool.false_eq_true, if_false, e1, e2]
    simp
  · simp [PathManager.parse, hr] at h

set_option maxRecDepth 1000000 in
/-- C28 at a concrete input: on "/a/b/%zz" the loop has appended "a" and "b" to the
segment "x" when the third piece fails to decode, and the manager afterwards holds "x"
alone. -/
theorem PathManager_parse_false_restores_witness :
    (PathManager.parse.loop 9 (str "/a/b/%zz") [str "x"] 0) =
        (false, [str "x", str "a", str "b"], 2) ∧
      (PathManager.parse ⟨[str "x"]⟩ (str "/a/b/%zz")).2 = ⟨[str "x"]⟩ :=
  ⟨by decide, PathManager_parse_false_restores ⟨[str "x"]⟩ (str "/a/b/%zz") (by decide)⟩

/-! ## Claims about queries -/

theorem Decode_Encode_eq (s out : Str) : Decode (Encode s) out = (true, s) := by
  rw [Encode_eq, encodedBytes_eq_flatten]
  have h := Decode_units (s.map encodedByte)
    (by intro u hu; obtain ⟨c, _, rfl⟩ := List.mem_map.1 hu; exact encodedByte_isPercentUnit c) out
  rw [h, List.map_map]
  congr 1
  exact (List.map_congr_left (fun c _ => unitByte_encodedByte c)).trans (List.map_id s)

set_option maxRecDepth 1000000 in
theorem encodedByte_all_no_separator : ∀ c : Byte,
    (encodedByte c).all (fun x => x != ch '&' && x != ch '=') = true := by
  decide

theorem encodedByte_no_separator (c x : Byte) (hx : x ∈ encodedByte c) :
    x ≠ ch '&' ∧ x ≠ ch '=' := by
  have h := List.all_eq_true.1 (encodedByte_all_no_separator c) x hx
  simpa using h

set_option maxRecDepth 1000000 in
theorem brackets_no_amp : ∀ x ∈ str "[]=", x ≠ ch '&' := by decide

set_option maxRecDepth 1000000 in
theorem brackets_no_equals : ∀ x ∈ str "[]", x ≠ ch '=' := by decide

theorem Encode_no_separator (s : Str) : ∀ x ∈ Encode s, x ≠ ch '&' ∧ x ≠ ch '=' := by
  rw [Encode_eq]
  induction s with
  | nil => intro x hx; simp [encodedBytes] at hx
  | cons c s ih =>
    intro x hx
    simp only [encodedBytes, List.mem_append] at hx
    rcases hx with hx | hx
    · exact encodedByte_no_separator c x hx
    · exact ih x hx

/-- The text of one pair `N[]=V` of an array field. -/
theorem arrayPair_facts (n v tail : Str) (ht : tail = [] ∨ ∃ r, tail = ch '&' :: r) :
    findChar (ch '&') (Encode n ++ str "[]=" ++ Encode v ++ tail) =
        (Encode n).length + 3 + (Encode v).length ∧
      findChar (ch '=') (Encode n ++ str "[]=" ++ Encode v) = (Encode n).length + 2 := by
  constructor
  · have h0 : findChar (ch '&') (Encode n ++ str "[]=" ++ Encode v) =
        (Encode n ++ str "[]=" ++ Encode v).length := by
      apply findChar_absent
      intro x hx
      simp only [List.mem_append] at hx
      rcases hx with (hx | hx) | hx
      · exact (Encode_no_separator n x hx).1
      · exact brackets_no_amp x hx
      · exact (Encode_no_separator v x hx).1
    have hl : (Encode n ++ str "[]=" ++ Encode v).length =
        (Encode n).length + 3 + (Encode v).length := by
      simp only [List.length_append]; rfl
    rcases ht with rfl | ⟨r, rfl⟩
    · rw [List.append_nil, h0, hl]
    · rw [findChar_append _ _ _ h0, hl]
  · have h0 : findChar (ch '=') (Encode n ++ str "[]") = (Encode n ++ str "[]").length := by
      apply findChar_absent
      intro x hx
      simp only [List.mem_append] at hx
      rcases hx with hx | hx
      · exact (Encode_no_separator n x hx).2
      · exact brackets_no_equals x hx
    have e : Encode n ++ str "[]=" ++ Encode v = (Encode n ++ str "[]") ++ ch '=' :: Encode v := by
      simp [str]
    rw [e, findChar_append _ _ _ h0]
    simp only [List.length_append]; rfl

/-- One pair `N[]=V` of the query text: the name and the value are decoded, the pair is
taken as an array pair, and the loop goes on behind the following `&`. -/
theorem QueryManager_loop_array_pair (n v tail : Str) (ht : tail = [] ∨ ∃ r, tail = ch '&' :: r)
    (fuel : Nat) (fields : List QueryField) (marks : List Str) :
    QueryManager.parse.loop (fuel + 1) (Encode n ++ str "[]=" ++ Encode v ++ tail) fields marks =
      match QueryManager.get fields n with
      | some i =>
        if !marks.contains n && !((fields.get? i).getD (QueryField.new n)).isArray then
          QueryManager.parse.loop fuel (tail.drop 1)
            (QueryManager.modify fields i (fun f => { f with value_ := v })) (n :: marks)
        else
          QueryManager.parse.loop fuel (tail.drop 1)
            (QueryManager.modify fields i (fun f => (f.addValue (StringRef.other v)).2)) marks
      | none =>
        QueryManager.parse.loop fuel (tail.drop 1)
          (QueryManager.modify (QueryManager.create fields n).1 (QueryManager.create fields n).2
            (fun f => { f with value_ := v })) (n :: marks) := by
  obtain ⟨hamp, heq⟩ := arrayPair_facts n v tail ht
  generalize hP : Encode n ++ str "[]=" ++ Encode v ++ tail = P at hamp
  generalize hN : Encode n = N at *
  generalize hV : Encode v = V at *
  have hdn : Decode N [] = (true, n) := by rw [← hN]; exact Decode_Encode_eq n []
  have hdv : Decode V [] = (true, v) := by rw [← hV]; exact Decode_Encode_eq v []
  have hne : ¬ P.length = 0 := by rw [← hP]; simp [str]
  have htake : P.take (N.length + 3 + V.length) = N ++ str "[]=" ++ V := by
    rw [← hP]; exact List.take_left' (by simp [str]; omega)
  have hsep : ¬ (N.length + 2 = N.length + 3 + V.length) := by omega
  have hvl : N.length + 3 + V.length - (N.length + 2) - 1 = V.length := by omega
  have h2 : decide (2 ≤ N.length + 2) = true := by simp
  have hb1 : P.getD (N.length + 2 - 2) 0 = ch '[' := by
    rw [← hP, show N.length + 2 - 2 = N.length by omega,
      show N ++ str "[]=" ++ V ++ tail = N ++ ch '[' :: (str "]=" ++ V ++ tail) by simp [str]]
    exact getD_append_cons _ _ _ _ rfl
  have hb2 : P.getD (N.length + 2 - 1) 0 = ch ']' := by
    rw [← hP, show N.length + 2 - 1 = N.length + 1 by omega,
      show N ++ str "[]=" ++ V ++ tail = (N ++ [ch '[']) ++ ch ']' :: (str "=" ++ V ++ tail) by
        simp [str]]
    exact getD_append_cons _ _ _ _ (by simp)
  have hname : P.take (N.length + 2 - 2) = N := by
    rw [← hP, show N.length + 2 - 2 = N.length by omega, List.append_assoc, List.append_assoc]
    exact List.take_left _ _
  have hvalue : (P.drop (N.length + 2 + 1)).take V.length = V := by
    rw [← hP, show N ++ str "[]=" ++ V ++ tail = (N ++ str "[]=") ++ (V ++ tail) by simp,
      List.drop_left' (by simp [str]), List.take_left]
  have hnext : P.drop (N.length + 3 + V.length + 1) = tail.drop 1 := by
    rw [← hP, show N.length + 3 + V.length + 1 = (N ++ str "[]=" ++ V).length + 1 by
      simp [str]; omega, ← List.drop_drop, List.drop_left]
  simp only [QueryManager.parse.loop, hne, if_false, hamp, htake, heq, hsep, hvl, h2, hb1, hb2,
    beq_self_eq_true, Bool.and_self, if_true, hname, hvalue, hdn, hdv, Bool.not_true,
    Bool.or_self, Bool.false_eq_true, hnext]

/-! ### Packed values of an array field -/

theorem joinWith_concat (sep : Byte) : ∀ (L : List Str) (g : Str), L ≠ [] →
    joinWith sep (L ++ [g]) = joinWith sep L ++ sep :: g := by
  intro L
  induction L with
  | nil => intro _ h; exact absurd rfl h
  | cons x L ih =>
    intro g _
    cases L with
    | nil => rfl
    | cons y L =>
      show joinWith sep (x :: ((y :: L) ++ [g])) = joinWith sep (x :: y :: L) ++ sep :: g
      rw [joinWith_cons sep x ((y :: L) ++ [g]) (by simp), ih g (by simp),
        joinWith_cons sep x (y :: L) (by simp)]
      simp

theorem length_packOffsets : ∀ (vs : List Str) (o : Nat), (packOffsets o vs).length = vs.length := by
  intro vs
  induction vs with
  | nil => intro _; rfl
  | cons v vs ih => intro o; simp [packOffsets, ih]

theorem packOffsets_concat : ∀ (vs : List Str) (o : Nat) (v : Str), vs ≠ [] →
    packOffsets o (vs ++ [v]) = packOffsets o vs ++ [o + (packValues vs).length + 1] := by
  intro vs
  induction vs with
  | nil => intro _ _ h; exact absurd rfl h
  | cons w vs ih =>
    intro o v _
    cases vs with
    | nil => rfl
    | cons w2 r =>
      have e := ih (o + w.length + 1) v (by simp)
      have hlen : (packValues (w :: w2 :: r)).length =
          w.length + 1 + (packValues (w2 :: r)).length := by
        simp only [packValues, joinWith_cons _ w (w2 :: r) (by simp), List.length_append,
          List.length_cons]
        omega
      show o :: packOffsets (o + w.length + 1) ((w2 :: r) ++ [v]) =
        o :: (packOffsets (o + w.length + 1) (w2 :: r) ++ [o + (packValues (w :: w2 :: r)).length + 1])
      rw [e, hlen]
      congr 3
      omega

/-- The call `addValue(v)` on a field that holds the values `vs`. -/
theorem addValue_packed (n : Str) (vs : List Str) (v : Str) (h : vs ≠ []) :
    (QueryField.addValue ⟨n, packValues vs, packOffsets 0 vs⟩ (StringRef.other v)).2 =
      ⟨n, packValues (vs ++ [v]), packOffsets 0 (vs ++ [v])⟩ := by
  simp only [QueryField.addValue, QueryField.readRef, packValues, joinWith_concat _ vs v h,
    packOffsets_concat vs 0 v h, Nat.zero_add, List.append_assoc, List.singleton_append]

/-- The value at a position of a field whose packed values and offsets continue a prefix. -/
theorem getValueAt_packed (n : Str) : ∀ (vs : List Str) (pre : Str) (idx : List Nat) (j : Nat),
    j < vs.length →
    QueryField.getValueAt ⟨n, pre ++ packValues vs, idx ++ packOffsets pre.length vs⟩
      (idx.length + j) = some (vs.getD j []) := by
  intro vs
  induction vs with
  | nil => intro _ _ j h; simp at h
  | cons v vs ih =>
    intro pre idx j hj
    cases j with
    | zero =>
      have hpos : ¬ idx.length + 0 ≥ (idx ++ packOffsets pre.length (v :: vs)).length := by
        simp [length_packOffsets]
      have hstart : (idx ++ packOffsets pre.length (v :: vs)).getD (idx.length + 0) 0 = pre.length := by
        rw [Nat.add_zero, List.getD_eq_getElem?_getD, List.getElem?_append_right (le_refl _)]
        simp [packOffsets]
      cases vs with
      | nil =>
        simp only [QueryField.getValueAt, hpos, if_false, hstart]
        simp [packOffsets, packValues, joinWith]
      | cons w r =>
        have hnext : (idx ++ packOffsets pre.length (v :: w :: r)).getD (idx.length + 0 + 1) 0 =
            pre.length + v.length + 1 := by
          rw [Nat.add_zero, List.getD_eq_getElem?_getD,
            List.getElem?_append_right (Nat.le_succ _)]
          simp [packOffsets]
        have hlast : ¬ (idx ++ packOffsets pre.length (v :: w :: r)).length = idx.length + 0 + 1 := by
          simp [length_packOffsets]
        simp only [QueryField.getValueAt, hpos, if_false, hstart, hnext, hlast]
        simp only [packValues, joinWith_cons _ v (w :: r) (by simp), List.drop_left,
          show pre.length + v.length + 1 - 1 - pre.length = v.length by omega, List.take_left,
          List.getD_cons_zero]
    | succ j =>
      have hj2 : j < vs.length := by simpa using hj
      have hne : vs ≠ [] := by intro h; rw [h] at hj2; simp at hj2
      have key := ih (pre ++ (v ++ [ch ','])) (idx ++ [pre.length]) j hj2
      simp only [List.length_append, List.length_singleton, List.append_assoc,
        List.singleton_append] at key
      have e1 : pre ++ packValues (v :: vs) = pre ++ (v ++ ch ',' :: packValues vs) := by
        simp only [packValues, joinWith_cons _ v vs hne]
      have e2 : idx ++ packOffsets pre.length (v :: vs) =
          idx ++ pre.length :: packOffsets (pre.length + (v.length + 1)) vs := by
        simp only [packOffsets, Nat.add_assoc]
      rw [e1, e2, show idx.length + (j + 1) = idx.length + 1 + j by omega, key]
      simp

theorem getValueAt_arrayField (n : Str) (vs : List Str) (j : Nat) (hj : j < vs.length) :
    QueryField.getValueAt ⟨n, packValues vs, packOffsets 0 vs⟩ j = some (vs.getD j []) := by
  have h := getValueAt_packed n vs [] [] j hj
  simpa using h

theorem set_append_cons_any {α : Type} (pre : List α) (x v : α) (post : List α) (k : Nat)
    (h : pre.length = k) : (pre ++ x :: post).set k v = pre ++ v :: post := by
  subst h
  induction pre with
  | nil => rfl
  | cons a pre ih => simp [List.set, ih]

/-- The loop of `splitValues` on a field that holds the values `vs`. -/
theorem splitValues_loop_packed (n : Str) (vs : List Str) : ∀ (m : Nat) (done : List Str),
    done.length + m = vs.length → done = vs.take done.length →
    QueryField.splitValues.loop ⟨n, packValues vs, packOffsets 0 vs⟩ m done.length
      (done ++ List.replicate m []) = (true, vs) := by
  intro m
  induction m with
  | zero =>
    intro done hl hd
    have hdv : done = vs := by
      have h := hd
      rw [show done.length = vs.length by omega, List.take_length] at h
      exact h
    simp [QueryField.splitValues.loop, hdv]
  | succ m ih =>
    intro done hl hd
    have hj : done.length < vs.length := by omega
    have key := ih (done ++ [vs.getD done.length []]) (by simp; omega)
      (by
        simp only [List.length_append, List.length_singleton]
        rw [List.take_succ, ← hd, List.getD_eq_getElem?_getD, List.getElem?_eq_getElem hj]
        rfl)
    simp only [QueryField.splitValues.loop, getValueAt_arrayField n vs _ hj, List.replicate_succ,
      set_append_cons_any done [] _ _ _ rfl]
    simpa using key

theorem splitValues_arrayField (n : Str) (vs : List Str) :
    QueryField.splitValues ⟨n, packValues vs, packOffsets 0 vs⟩ = (true, vs) := by
  have h := splitValues_loop_packed n vs vs.length [] (by simp) (by simp)
  simpa [QueryField.splitValues, QueryField.size, length_packOffsets] using h

/-! ### The pairs of an array field -/

theorem arrayPairs_text (n v : Str) (vs : List Str) :
    ∃ tail, (tail = [] ∨ ∃ r, tail = ch '&' :: r) ∧
      arrayQueryText n (v :: vs) = Encode n ++ str "[]=" ++ Encode v ++ tail ∧
      tail.drop 1 = arrayQueryText n vs := by
  cases vs with
  | nil => exact ⟨[], Or.inl rfl, by simp [arrayQueryText, joinWith], rfl⟩
  | cons w r =>
    exact ⟨ch '&' :: arrayQueryText n (w :: r), Or.inr ⟨_, rfl⟩,
      by simp [arrayQueryText, joinWith], rfl⟩

theorem length_arrayQueryText_lt (n v : Str) (vs : List Str) :
    (arrayQueryText n vs).length < (arrayQueryText n (v :: vs)).length := by
  obtain ⟨tail, _, e, ed⟩ := arrayPairs_text n v vs
  rw [e, ← ed]
  simp only [List.length_append, List.length_drop]
  have : (str "[]=").length = 3 := rfl
  omega

/-- The pairs behind the first one are added to the field that the first pair made. -/
theorem QueryManager_loop_array_rest (n : Str) : ∀ (vs done : List Str), done ≠ [] →
    ∀ fuel, (arrayQueryText n vs).length < fuel →
    QueryManager.parse.loop fuel (arrayQueryText n vs)
        [⟨n, packValues done, packOffsets 0 done⟩] [n] =
      (true, [⟨n, packValues (done ++ vs), packOffsets 0 (done ++ vs)⟩]) := by
  intro vs
  induction vs with
  | nil =>
    intro done _ fuel hf
    obtain ⟨f, rfl⟩ : ∃ f, fuel = f + 1 := ⟨fuel - 1, by omega⟩
    simp [QueryManager.parse.loop, arrayQueryText, joinWith]
  | cons v vs ih =>
    intro done hd fuel hf
    obtain ⟨f, rfl⟩ : ∃ f, fuel = f + 1 := ⟨fuel - 1, by omega⟩
    obtain ⟨tail, ht, e, ed⟩ := arrayPairs_text n v vs
    have hlt := length_arrayQueryText_lt n v vs
    rw [e, QueryManager_loop_array_pair n v tail ht f _ _, ed]
    have hget : QueryManager.get [(⟨n, packValues done, packOffsets 0 done⟩ : QueryField)] n =
        some 0 := by
      simp [QueryManager.get]
    have hmark : ([n] : List Str).contains n = true := by simp
    simp only [hget, hmark, Bool.not_true, Bool.false_and, Bool.false_eq_true, if_false]
    have hmod : QueryManager.modify [(⟨n, packValues done, packOffsets 0 done⟩ : QueryField)] 0
        (fun f => (f.addValue (StringRef.other v)).2) =
          [⟨n, packValues (done ++ [v]), packOffsets 0 (done ++ [v])⟩] := by
      simp only [QueryManager.modify, List.get?, List.set, addValue_packed n done v hd]
    rw [hmod, ih (done ++ [v]) (by simp) f (by omega)]
    simp

/-- The field sequence that `parse` leaves for the text of an array field. -/
theorem QueryManager_parse_on_arrayText (n v : Str) (vs : List Str) :
    QueryManager.parse ⟨[]⟩ (arrayQueryText n (v :: vs)) =
      (true, ⟨[⟨n, packValues (v :: vs), packOffsets 0 (v :: vs)⟩]⟩) := by
  obtain ⟨tail, ht, e, ed⟩ := arrayPairs_text n v vs
  have hlt := length_arrayQueryText_lt n v vs
  have hfirst : QueryManager.parse.loop ((arrayQueryText n (v :: vs)).length + 1)
      (arrayQueryText n (v :: vs)) [] [] =
      (true, [⟨n, packValues (v :: vs), packOffsets 0 (v :: vs)⟩]) := by
    conv_lhs => arg 2; rw [e]
    rw [QueryManager_loop_array_pair n v tail ht _ _ _, ed]
    simp only [QueryManager.get, QueryManager.create, QueryManager.modify, List.nil_append,
      List.get?, List.set, QueryField.new, List.length_nil]
    have h := QueryManager_loop_array_rest n vs [v] (by simp) (arrayQueryText n (v :: vs)).length hlt
    simpa [packValues, joinWith, packOffsets] using h
  simp only [QueryManager.parse, hfirst, if_true]

/-- C29: for every name `n` and values `v1, …, vk` (`k ≥ 1`), `QueryManager::parse` of the
text `N[]=V1&…&N[]=Vk` (with `N = Encode(n)`, `Vi = Encode(vi)`) on an empty manager
returns `true` and leaves exactly one field; its name is `n`, its size is `k`,
`splitValues` gives `v1, …, vk`, and `getValueAt(i)` gives the value at each position `i`;
the name may even be empty. -/
theorem QueryManager_parse_array (n v : Str) (vs : List Str) :
    (QueryManager.parse ⟨[]⟩ (arrayQueryText n (v :: vs))).1 = true ∧
      (QueryManager.parse ⟨[]⟩ (arrayQueryText n (v :: vs))).2.fields_.map QueryField.name_ = [n] ∧
      (QueryManager.parse ⟨[]⟩ (arrayQueryText n (v :: vs))).2.fields_.map QueryField.size =
        [(v :: vs).length] ∧
      (QueryManager.parse ⟨[]⟩ (arrayQueryText n (v :: vs))).2.fields_.map QueryField.splitValues =
        [(true, v :: vs)] ∧
      ∀ i, i < (v :: vs).length →
        (QueryManager.parse ⟨[]⟩ (arrayQueryText n (v :: vs))).2.fields_.map
          (fun f => f.getValueAt i) = [some ((v :: vs).getD i [])] := by
  rw [QueryManager_parse_on_arrayText]
  refine ⟨rfl, rfl, ?_, ?_, ?_⟩
  · simp only [List.map_cons, List.map_nil, QueryField.size, length_packOffsets]
  · simp only [List.map_cons, List.map_nil, splitValues_arrayField]
  · intro i hi
    simp only [List.map_cons, List.map_nil, getValueAt_arrayField n (v :: vs) i hi]

set_option maxRecDepth 1000000 in
/-- C29 at concrete inputs: "a[]=1&a[]=2" gives one field `a` with the values "1", "2",
and "a%20b[]=x%26y&a%20b[]=&a%20b[]=z" one field `a b` with the values "x&y", "", "z". -/
theorem QueryManager_parse_array_witness :
    ((QueryManager.parse ⟨[]⟩ (str "a[]=1&a[]=2")).1 = true ∧
      (QueryManager.parse ⟨[]⟩ (str "a[]=1&a[]=2")).2.fields_.map QueryField.name_ = [str "a"] ∧
      (QueryManager.parse ⟨[]⟩ (str "a[]=1&a[]=2")).2.fields_.map QueryField.splitValues =
        [(true, [str "1", str "2"])]) ∧
    ((QueryManager.parse ⟨[]⟩ (str "a%20b[]=x%26y&a%20b[]=&a%20b[]=z")).2.fields_.map
        QueryField.splitValues = [(true, [str "x&y", [], str "z"])]) :=
  ⟨⟨(QueryManager_parse_array (str "a") (str "1") [str "2"]).1,
      (QueryManager_parse_array (str "a") (str "1") [str "2"]).2.1,
      (QueryManager_parse_array (str "a") (str "1") [str "2"]).2.2.2.1⟩,
    (QueryManager_parse_array (str "a b") (str "x&y") [[], str "z"]).2.2.2.1⟩

/-- C30: for every manager and every input, if `QueryManager::parse` returns `false` then
the manager afterwards is the manager before the call: the copy of the field sequence
taken at the start is swapped back in. -/
theorem QueryManager_parse_false_restores (q : QueryManager) (s : Str)
    (h : (q.parse s).1 = false) : (q.parse s).2 = q := by
  cases hr : (QueryManager.parse.loop (s.length + 1) s q.fields_ []).1
  · simp only [QueryManager.parse, hr, Bool.false_eq_true, if_false]
  · simp [QueryManager.parse, hr] at h

set_option maxRecDepth 1000000 in
/-- C30 at a concrete input: on "a=1&b[]=2&c=%zz" the loop has overwritten the value of
`a` and created `b` when the third pair fails to decode, and the manager afterwards holds
the field `a=0` as before. -/
theorem QueryManager_parse_false_restores_witness :
    QueryManager.parse.loop 16 (str "a=1&b[]=2&c=%zz") [⟨str "a", str "0", [0]⟩] [] =
        (false, [⟨str "a", str "1", [0]⟩, ⟨str "b", str "2", [0]⟩]) ∧
      (QueryManager.parse ⟨[⟨str "a", str "0", [0]⟩]⟩ (str "a=1&b[]=2&c=%zz")).2 =
        ⟨[⟨str "a", str "0", [0]⟩]⟩ :=
  ⟨by decide,
    QueryManager_parse_false_restores ⟨[⟨str "a", str "0", [0]⟩]⟩ (str "a=1&b[]=2&c=%zz")
      (by decide)⟩

/-! ### Mutations of a packed field -/

theorem packValues_cons (v : Str) (vs : List Str) (h : vs ≠ []) :
    packValues (v :: vs) = v ++ ch ',' :: packValues vs :=
  joinWith_cons _ v vs h

theorem packOffsets_shift_add : ∀ (vs : List Str) (o d : Nat),
    (packOffsets o vs).map (fun i => i + d) = packOffsets (o + d) vs := by
  intro vs
  induction vs with
  | nil => intro _ _; rfl
  | cons v vs ih =>
    intro o d
    simp only [packOffsets, List.map_cons, ih]
    rw [show o + d + v.length + 1 = o + v.length + 1 + d by omega]

theorem packOffsets_shift_sub : ∀ (vs : List Str) (o d : Nat),
    (packOffsets (o + d) vs).map (fun i => i - d) = packOffsets o vs := by
  intro vs
  induction vs with
  | nil => intro _ _; rfl
  | cons v vs ih =>
    intro o d
    simp only [packOffsets, List.map_cons]
    rw [show o + d + v.length + 1 = o + v.length + 1 + d by omega, ih]
    simp

theorem getD_at_length (I : List Nat) (x : Nat) (J : List Nat) :
    (I ++ x :: J).getD I.length 0 = x := by
  rw [List.getD_eq_getElem?_getD, List.getElem?_append_right (le_refl _)]
  simp

theorem getD_at_length_succ (I : List Nat) (x y : Nat) (J : List Nat) :
    (I ++ x :: y :: J).getD (I.length + 1) 0 = y := by
  rw [List.getD_eq_getElem?_getD, List.getElem?_append_right (Nat.le_succ _)]
  simp

theorem take_at_length_succ (I : List Nat) (x : Nat) (J : List Nat) :
    (I ++ x :: J).take (I.length + 1) = I ++ [x] := by
  rw [List.take_append_eq_append_take]
  simp

theorem drop_at_length_succ (I : List Nat) (x : Nat) (J : List Nat) :
    (I ++ x :: J).drop (I.length + 1) = J := by
  rw [List.drop_append_eq_append_drop]
  simp

/-- The call `setValueAt` at the last position. -/
theorem setValueAt_last (n P v w : Str) (I : List Nat) :
    QueryField.setValueAt ⟨n, P ++ v, I ++ [P.length]⟩ I.length (StringRef.other w) =
      (true, ⟨n, P ++ w, I ++ [P.length]⟩) := by
  have hpos : ¬ I.length ≥ (I ++ [P.length]).length := by simp
  have hpos2 : ¬ I.length ≥ I.length + 1 := by omega
  have hlast : (I ++ [P.length]).length = I.length + 1 := by simp
  have hfar : ¬ P.length > (P ++ v).length := by simp
  have hsec : (P ++ v).length - P.length = v.length := by simp
  have hd : List.drop (P.length + v.length) (P ++ v) = [] := List.drop_eq_nil_of_le (by simp)
  simp only [QueryField.setValueAt, QueryField.readRef, hpos, hpos2, if_false, hlast, if_true,
    getD_at_length, ne_eq,
    not_true_eq_false, hfar, hsec, hd, List.take_left, List.append_nil, take_at_length_succ,
    drop_at_length_succ, List.map_nil]
  split_ifs <;> rfl

/-- The call `setValueAt` at a position that is not the last one. -/
theorem setValueAt_inner (n P v w S : Str) (I J : List Nat) :
    QueryField.setValueAt ⟨n, (P ++ v) ++ ch ',' :: S,
        I ++ P.length :: (P.length + v.length + 1) :: J⟩ I.length (StringRef.other w) =
      (true, ⟨n, (P ++ w) ++ ch ',' :: S,
        I ++ P.length :: (if v.length = w.length then (P.length + v.length + 1) :: J
          else if w.length > v.length then
            ((P.length + v.length + 1) :: J).map (fun i => i + (w.length - v.length))
          else ((P.length + v.length + 1) :: J).map (fun i => i - (v.length - w.length)))⟩) := by
  have hpos : ¬ I.length ≥ (I ++ P.length :: (P.length + v.length + 1) :: J).length := by
    simp
  have hlast : ¬ (I ++ P.length :: (P.length + v.length + 1) :: J).length = I.length + 1 := by
    simp
  have hfar : ¬ P.length > ((P ++ v) ++ ch ',' :: S).length := by
    simp only [List.length_append, List.length_cons]; omega
  have hsec : P.length + v.length + 1 - P.length - 1 = v.length := by omega
  have hd : List.drop (P.length + v.length) ((P ++ v) ++ ch ',' :: S) = ch ',' :: S :=
    List.drop_left' (by simp)
  have htk : List.take P.length ((P ++ v) ++ ch ',' :: S) = P := by
    rw [List.append_assoc]; exact List.take_left _ _
  simp only [QueryField.setValueAt, QueryField.readRef, hpos, if_false, hlast, getD_at_length,
    getD_at_length_succ,
    ne_eq, not_false_eq_true, if_true, hfar, hsec, hd, htk, take_at_length_succ,
    drop_at_length_succ]
  split_ifs <;> simp

/-- The call `setValueAt(p, w)` on a field whose packed values and offsets continue a
prefix: the value at the position is replaced and the later offsets are shifted. -/
theorem setValueAt_packed (n : Str) (w : Str) : ∀ (A : List Str) (v : Str) (B : List Str)
    (pre : Str) (idx : List Nat),
    QueryField.setValueAt ⟨n, pre ++ packValues (A ++ v :: B),
        idx ++ packOffsets pre.length (A ++ v :: B)⟩ (idx.length + A.length) (StringRef.other w) =
      (true, ⟨n, pre ++ packValues (A ++ w :: B), idx ++ packOffsets pre.length (A ++ w :: B)⟩) := by
  intro A
  induction A with
  | nil =>
    intro v B pre idx
    cases B with
    | nil => exact setValueAt_last n pre v w idx
    | cons b B =>
      have hv : pre ++ packValues ([] ++ v :: b :: B) = (pre ++ v) ++ ch ',' :: packValues (b :: B) := by
        rw [List.nil_append, packValues_cons v (b :: B) (by simp)]; simp
      have hw : pre ++ packValues ([] ++ w :: b :: B) = (pre ++ w) ++ ch ',' :: packValues (b :: B) := by
        rw [List.nil_append, packValues_cons w (b :: B) (by simp)]; simp
      have hi : ∀ x : Str, idx ++ packOffsets pre.length ([] ++ x :: b :: B) =
          idx ++ pre.length :: (pre.length + x.length + 1) ::
            packOffsets (pre.length + x.length + 1 + b.length + 1) B := fun x => rfl
      rw [hv, hw, hi v, hi w]
      show QueryField.setValueAt _ idx.length (StringRef.other w) = _
      rw [setValueAt_inner]
      by_cases h1 : v.length = w.length
      · simp only [h1, if_true]
      · by_cases h2 : w.length > v.length
        · simp only [h1, if_false, h2, if_true, List.map_cons, packOffsets_shift_add]
          rw [show pre.length + v.length + 1 + (w.length - v.length) = pre.length + w.length + 1 by
            omega, show pre.length + v.length + 1 + b.length + 1 + (w.length - v.length) =
              pre.length + w.length + 1 + b.length + 1 by omega]
        · simp only [h1, if_false, h2, List.map_cons]
          rw [show pre.length + v.length + 1 + b.length + 1 =
              pre.length + w.length + 1 + b.length + 1 + (v.length - w.length) by omega,
            packOffsets_shift_sub,
            show pre.length + v.length + 1 - (v.length - w.length) = pre.length + w.length + 1 by
              omega]
  | cons a A ih =>
    intro v B pre idx
    have key := ih v B (pre ++ (a ++ [ch ','])) (idx ++ [pre.length])
    simp only [List.length_append, List.length_singleton, List.append_assoc,
      List.singleton_append] at key
    have e1 : ∀ x : Str, pre ++ packValues ((a :: A) ++ x :: B) =
        pre ++ (a ++ ch ',' :: packValues (A ++ x :: B)) := by
      intro x
      rw [List.cons_append, packValues_cons a (A ++ x :: B) (by simp)]
    have e2 : ∀ x : Str, idx ++ packOffsets pre.length ((a :: A) ++ x :: B) =
        idx ++ pre.length :: packOffsets (pre.length + (a.length + 1)) (A ++ x :: B) := by
      intro x
      show idx ++ packOffsets pre.length (a :: (A ++ x :: B)) = _
      simp only [packOffsets, Nat.add_assoc]
    rw [e1 v, e2 v, e1 w, e2 w,
      show idx.length + (a :: A).length = idx.length + 1 + A.length by simp; omega, key]

theorem packed_push (a : Str) (X : List Str) (hX : X ≠ []) (pre : Str) (idx : List Nat) :
    pre ++ packValues (a :: X) = (pre ++ (a ++ [ch ','])) ++ packValues X ∧
      idx ++ packOffsets pre.length (a :: X) =
        (idx ++ [pre.length]) ++ packOffsets (pre ++ (a ++ [ch ','])).length X := by
  constructor
  · rw [packValues_cons a X hX]; simp
  · simp only [packOffsets, List.length_append, List.length_singleton, List.append_assoc,
      List.singleton_append, Nat.add_assoc]

/-- The call `removeValueAt` at the last position of an array field. -/
theorem removeValueAt_last (n P v : Str) (I : List Nat) (i0 : Nat) :
    QueryField.removeValueAt ⟨n, P ++ v, (i0 :: I) ++ [P.length]⟩ (i0 :: I).length =
      (true, ⟨n, P, i0 :: I⟩) := by
  have hpos : ¬ (i0 :: I).length ≥ ((i0 :: I) ++ [P.length]).length := by simp
  have hpos2 : ¬ (i0 :: I).length ≥ (i0 :: I).length + 1 := by omega
  have hlast : ((i0 :: I) ++ [P.length]).length = (i0 :: I).length + 1 := by simp
  have harr : QueryField.isArray ⟨n, P ++ v, (i0 :: I) ++ [P.length]⟩ = true := by
    simp [QueryField.isArray, QueryField.size]
  have hfar : ¬ P.length > (P ++ v).length := by simp
  have hsec : (P ++ v).length - P.length = v.length := by simp
  have hd : List.drop (P.length + v.length) (P ++ v) = [] := List.drop_eq_nil_of_le (by simp)
  have hdi : List.drop ((i0 :: I).length + 1) ((i0 :: I) ++ [P.length]) = [] :=
    List.drop_eq_nil_of_le (by simp)
  simp only [QueryField.removeValueAt, harr, hpos, hpos2, if_false, hlast, if_true,
    getD_at_length, Bool.not_true, Bool.false_eq_true, hfar, hsec, hd, List.take_left,
    List.append_nil, hdi, List.map_nil]

/-- The call `removeValueAt` at a position that is not the last one. -/
theorem removeValueAt_inner (n P v S : Str) (I J : List Nat) :
    QueryField.removeValueAt ⟨n, (P ++ v) ++ ch ',' :: S,
        I ++ P.length :: (P.length + v.length + 1) :: J⟩ I.length =
      (true, ⟨n, P ++ S, I ++ P.length :: J.map (fun i => i - (v.length + 1))⟩) := by
  have hpos : ¬ I.length ≥ (I ++ P.length :: (P.length + v.length + 1) :: J).length := by
    simp
  have hlast : ¬ (I ++ P.length :: (P.length + v.length + 1) :: J).length = I.length + 1 := by
    simp
  have harr : QueryField.isArray ⟨n, (P ++ v) ++ ch ',' :: S,
      I ++ P.length :: (P.length + v.length + 1) :: J⟩ = true := by
    simp [QueryField.isArray, QueryField.size]; omega
  have hfar : ¬ P.length > ((P ++ v) ++ ch ',' :: S).length := by
    simp only [List.length_append, List.length_cons]; omega
  have hsec : P.length + v.length + 1 - P.length = v.length + 1 := by omega
  have hd : List.drop (P.length + (v.length + 1)) ((P ++ v) ++ ch ',' :: S) = S := by
    rw [show (P ++ v) ++ ch ',' :: S = (P ++ v ++ [ch ',']) ++ S by simp]
    exact List.drop_left' (by simp)
  have htk : List.take P.length ((P ++ v) ++ ch ',' :: S) = P := by
    rw [List.append_assoc]; exact List.take_left _ _
  simp only [QueryField.removeValueAt, harr, hpos, if_false, hlast, getD_at_length,
    getD_at_length_succ, Bool.not_true, Bool.false_eq_true, hfar, hsec, hd, htk, List.take_left,
    drop_at_length_succ, List.map_cons, Nat.add_sub_cancel]
  simp

/-- The call `removeValueAt(p)` for a position before the last one, on a field whose packed
values and offsets continue a prefix: the value and the comma behind it go. -/
theorem removeValueAt_packed_inner (n : Str) : ∀ (A : List Str) (v b : Str) (B : List Str)
    (pre : Str) (idx : List Nat),
    QueryField.removeValueAt ⟨n, pre ++ packValues (A ++ v :: b :: B),
        idx ++ packOffsets pre.length (A ++ v :: b :: B)⟩ (idx.length + A.length) =
      (true, ⟨n, pre ++ packValues (A ++ b :: B), idx ++ packOffsets pre.length (A ++ b :: B)⟩) := by
  intro A
  induction A with
  | nil =>
    intro v b B pre idx
    have hv : pre ++ packValues ([] ++ v :: b :: B) = (pre ++ v) ++ ch ',' :: packValues (b :: B) := by
      rw [List.nil_append, packValues_cons v (b :: B) (by simp)]; simp
    have hi : idx ++ packOffsets pre.length ([] ++ v :: b :: B) =
        idx ++ pre.length :: (pre.length + v.length + 1) ::
          packOffsets (pre.length + v.length + 1 + b.length + 1) B := rfl
    rw [hv, hi]
    show QueryField.removeValueAt _ idx.length = _
    rw [removeValueAt_inner,
      show pre.length + v.length + 1 + b.length + 1 = pre.length + b.length + 1 + (v.length + 1) by
        omega, packOffsets_shift_sub]
    rfl
  | cons a A ih =>
    intro v b B pre idx
    obtain ⟨e1, e2⟩ := packed_push a (A ++ v :: b :: B) (by simp) pre idx
    obtain ⟨e3, e4⟩ := packed_push a (A ++ b :: B) (by simp) pre idx
    have key := ih v b B (pre ++ (a ++ [ch ','])) (idx ++ [pre.length])
    rw [List.cons_append, e1, e2, List.cons_append, e3, e4,
      show idx.length + (a :: A).length = (idx ++ [pre.length]).length + A.length by simp; omega,
      key]

/-- The call `removeValueAt(p)` for the last position of an array field: the value goes,
the comma before it stays at the end of the value before it. -/
theorem removeValueAt_packed_last (n : Str) : ∀ (A : List Str) (a v : Str)
    (pre : Str) (idx : List Nat),
    QueryField.removeValueAt ⟨n, pre ++ packValues (A ++ [a, v]),
        idx ++ packOffsets pre.length (A ++ [a, v])⟩ (idx.length + A.length + 1) =
      (true, ⟨n, pre ++ packValues (A ++ [a ++ [ch ',']]),
        idx ++ packOffsets pre.length (A ++ [a ++ [ch ',']])⟩) := by
  intro A
  induction A with
  | nil =>
    intro a v pre idx
    have hv : pre ++ packValues ([] ++ [a, v]) = (pre ++ (a ++ [ch ','])) ++ v := by
      rw [List.nil_append, packValues_cons a [v] (by simp)]; simp [packValues, joinWith]
    have hi : idx ++ packOffsets pre.length ([] ++ [a, v]) =
        (idx ++ [pre.length]) ++ [(pre ++ (a ++ [ch ','])).length] := by
      simp [packOffsets]; omega
    have hl : idx.length + ([] : List Str).length + 1 = (idx ++ [pre.length]).length := by simp
    rw [hv, hi, hl]
    cases idx with
    | nil => exact removeValueAt_last n _ v [] pre.length
    | cons i0 I => exact removeValueAt_last n _ v (I ++ [pre.length]) i0
  | cons a0 A ih =>
    intro a v pre idx
    obtain ⟨e1, e2⟩ := packed_push a0 (A ++ [a, v]) (by simp) pre idx
    obtain ⟨e3, e4⟩ := packed_push a0 (A ++ [a ++ [ch ',']]) (by simp) pre idx
    have key := ih a v (pre ++ (a0 ++ [ch ','])) (idx ++ [pre.length])
    rw [List.cons_append, e1, e2, List.cons_append, e3, e4,
      show idx.length + (a0 :: A).length + 1 = (idx ++ [pre.length]).length + A.length + 1 by
        simp; omega, key]

/-! ### The packed representation invariant -/

theorem getD_append_add (A B : Str) (i : Nat) : (A ++ B).getD (A.length + i) 0 = B.getD i 0 := by
  rw [List.getD_eq_getElem?_getD, List.getD_eq_getElem?_getD,
    List.getElem?_append_right (Nat.le_add_right _ _)]
  simp

theorem getD_drop_add (s : Str) (m i : Nat) : (s.drop m).getD i 0 = s.getD (m + i) 0 := by
  rw [List.getD_eq_getElem?_getD, List.getD_eq_getElem?_getD, List.getElem?_drop]

theorem split_at_comma (val : Str) (m : Nat) (hm : m < val.length)
    (hc : val.getD m 0 = ch ',') : val = val.take m ++ ch ',' :: val.drop (m + 1) := by
  have h1 : val.drop m = val[m] :: val.drop (m + 1) := List.drop_eq_getElem_cons hm
  have h2 : val[m] = ch ',' := by
    rw [List.getD_eq_getElem?_getD, List.getElem?_eq_getElem hm] at hc
    simpa using hc
  conv_lhs => rw [← List.take_append_drop m val, h1, h2]

/-- Offsets that increase from `o` and sit behind commas of `val` are the offsets of the
comma-separated pieces of `val`. -/
theorem packed_of_chain : ∀ (rest : List Nat) (o : Nat) (val : Str),
    List.Chain (fun a b => a < b) o rest →
    (∀ k ∈ rest, k ≤ o + val.length ∧ val.getD (k - 1 - o) 0 = ch ',') →
    ∃ vs : List Str, vs ≠ [] ∧ val = packValues vs ∧ o :: rest = packOffsets o vs := by
  intro rest
  induction rest with
  | nil => intro o val _ _; exact ⟨[val], by simp, rfl, rfl⟩
  | cons k rest ih =>
    intro o val hc hk
    have hok : o < k := (List.chain_cons.1 hc).1
    have hc2 : List.Chain (fun a b => a < b) k rest := (List.chain_cons.1 hc).2
    obtain ⟨hkl, hkc⟩ := hk k (List.mem_cons_self _ _)
    have hm : k - 1 - o < val.length := by omega
    have hsplit := split_at_comma val (k - 1 - o) hm hkc
    have hrel : ∀ x ∈ rest, k < x := fun x hx => List.Chain.rel hc2 hx
    obtain ⟨vs, hne, hv, hi⟩ := ih k (val.drop (k - 1 - o + 1)) hc2 (by
      intro x hx
      obtain ⟨hxl, hxc⟩ := hk x (List.mem_cons_of_mem _ hx)
      have := hrel x hx
      refine ⟨by simp only [List.length_drop]; omega, ?_⟩
      rw [getD_drop_add, show k - 1 - o + 1 + (x - 1 - k) = x - 1 - o by omega]
      exact hxc)
    refine ⟨val.take (k - 1 - o) :: vs, by simp, ?_, ?_⟩
    · rw [packValues_cons _ vs hne, ← hv]; exact hsplit
    · have hlen : (val.take (k - 1 - o)).length = k - 1 - o := by
        rw [List.length_take]; omega
      simp only [packOffsets, hlen]
      rw [show o + (k - 1 - o) + 1 = k by omega, ← hi]

/-- The offsets of packed values increase from `o` and sit behind the commas. -/
theorem chain_of_packed : ∀ (vs : List Str) (o : Nat), vs ≠ [] →
    ∃ rest : List Nat, packOffsets o vs = o :: rest ∧ List.Chain (fun a b => a < b) o rest ∧
      ∀ k ∈ rest, k ≤ o + (packValues vs).length ∧ (packValues vs).getD (k - 1 - o) 0 = ch ',' := by
  intro vs
  induction vs with
  | nil => intro _ h; exact absurd rfl h
  | cons v vs ih =>
    intro o _
    cases vs with
    | nil => exact ⟨[], rfl, List.Chain.nil, by simp⟩
    | cons w r =>
      obtain ⟨rest, e, hc, hk⟩ := ih (o + v.length + 1) (by simp)
      refine ⟨(o + v.length + 1) :: rest, by simp only [packOffsets] at e ⊢; rw [e],
        List.Chain.cons (by omega) hc, ?_⟩
      rw [packValues_cons v (w :: r) (by simp)]
      intro k hkm
      rcases List.mem_cons.1 hkm with rfl | hkr
      · refine ⟨by simp only [List.length_append, List.length_cons]; omega, ?_⟩
        rw [show o + v.length + 1 - 1 - o = v.length by omega]
        exact getD_append_cons v (ch ',') _ _ rfl
      · obtain ⟨h1, h2⟩ := hk k hkr
        have hgt : o + v.length + 1 < k := List.Chain.rel hc hkr
        refine ⟨by simp only [List.length_append, List.length_cons]; omega, ?_⟩
        rw [show v ++ ch ',' :: packValues (w :: r) = (v ++ [ch ',']) ++ packValues (w :: r) by simp,
          show k - 1 - o = (v ++ [ch ',']).length + (k - 1 - (o + v.length + 1)) by
            simp only [List.length_append, List.length_singleton]; omega,
          getD_append_add]
        exact h2

theorem strictlyIncreasing_cons : ∀ (rest : List Nat) (o : Nat),
    strictlyIncreasing (o :: rest) = true ↔ List.Chain (fun a b => a < b) o rest := by
  intro rest
  induction rest with
  | nil => intro o; simp [strictlyIncreasing]
  | cons k rest ih =>
    intro o
    simp only [strictlyIncreasing, Bool.and_eq_true, decide_eq_true_eq, List.chain_cons, ih]

/-- A field satisfies the packed invariant exactly when its value string and offsets are
those of a non-empty list of values. -/
theorem packedInvariant_iff (f : QueryField) :
    packedInvariant f ↔
      ∃ vs : List Str, vs ≠ [] ∧ f.value_ = packValues vs ∧ f.indices_ = packOffsets 0 vs := by
  constructor
  · rintro ⟨_, hh, hc, hk⟩
    match hf : f.indices_, hh, hc, hk with
    | i0 :: rest, hh, hc, hk =>
      have h0 : i0 = 0 := by simpa using hh
      subst h0
      obtain ⟨vs, hne, hv, hi⟩ := packed_of_chain rest 0 f.value_
        ((strictlyIncreasing_cons rest 0).1 hc) (by
        intro k hkm
        obtain ⟨a, b⟩ := hk k hkm
        exact ⟨by omega, by simpa using b⟩)
      exact ⟨vs, hne, hv, hi⟩
  · rintro ⟨vs, hne, hv, hi⟩
    obtain ⟨rest, e, hc, hk⟩ := chain_of_packed vs 0 hne
    unfold packedInvariant
    rw [hi, e, hv]
    refine ⟨by simp, rfl, (strictlyIncreasing_cons rest 0).2 hc, ?_⟩
    intro k hkm
    obtain ⟨a, b⟩ := hk k hkm
    exact ⟨by omega, by simpa using b⟩

theorem exists_split_at (vs : List Str) (p : Nat) (h : p < vs.length) :
    ∃ A v B, vs = A ++ v :: B ∧ A.length = p :=
  ⟨vs.take p, vs[p], vs.drop (p + 1),
    by rw [← List.drop_eq_getElem_cons h, List.take_append_drop],
    by rw [List.length_take]; omega⟩

theorem take_one_packOffsets (vs : List Str) (h : vs ≠ []) : (packOffsets 0 vs).take 1 = [0] := by
  cases vs with
  | nil => exact absurd rfl h
  | cons v vs => rfl

/-- What `setValueAt(p, w)` leaves on a field that satisfies the packed invariant. -/
theorem setValueAt_of_packed (n : Str) (vs : List Str) (p : Nat) (w : Str) (h : p < vs.length) :
    ∃ A v B, vs = A ++ v :: B ∧ A.length = p ∧
      QueryField.setValueAt ⟨n, packValues vs, packOffsets 0 vs⟩ p (StringRef.other w) =
        (true, ⟨n, packValues (A ++ w :: B), packOffsets 0 (A ++ w :: B)⟩) := by
  obtain ⟨A, v, B, e, hl⟩ := exists_split_at vs p h
  refine ⟨A, v, B, e, hl, ?_⟩
  have key := setValueAt_packed n w A v B [] []
  simp only [List.nil_append, List.length_nil, Nat.zero_add] at key
  rw [e, ← hl, key]

theorem getD_append_cons_any {α : Type} (pre : List α) (x : α) (post : List α) (d : α) :
    (pre ++ x :: post).getD pre.length d = x := by
  induction pre with
  | nil => rfl
  | cons a pre ih => simpa using ih

theorem getD_replace (A : List Str) (v w : Str) (B : List Str) (i : Nat) (h : i ≠ A.length) :
    (A ++ w :: B).getD i [] = (A ++ v :: B).getD i [] := by
  rw [List.getD_eq_getElem?_getD, List.getD_eq_getElem?_getD]
  rcases Nat.lt_or_gt_of_ne h with hlt | hgt
  · rw [List.getElem?_append_left hlt, List.getElem?_append_left hlt]
  · rw [List.getElem?_append_right (by omega), List.getElem?_append_right (by omega)]
    obtain ⟨j, hj⟩ : ∃ j, i - A.length = j + 1 := ⟨i - A.length - 1, by omega⟩
    rw [hj]
    rfl

theorem getValueAt_beyond (f : QueryField) (i : Nat) (h : f.indices_.length ≤ i) :
    f.getValueAt i = none := by
  simp [QueryField.getValueAt, h]

/-- For every field that satisfies the packed invariant, every position `p` below its
size and every string `w` outside the field, `setValueAt(p, w)` returns `true`; afterwards
the name and the size are unchanged, `getValueAt(p)` returns `w`, and `getValueAt(i)`
returns what it returned before for every other `i`. -/
theorem setValueAt_frame_other (f : QueryField) (hf : packedInvariant f) (p : Nat)
    (hp : p < f.size) (w : Str) :
    (f.setValueAt p (StringRef.other w)).1 = true ∧
      (f.setValueAt p (StringRef.other w)).2.name_ = f.name_ ∧
      (f.setValueAt p (StringRef.other w)).2.size = f.size ∧
      (f.setValueAt p (StringRef.other w)).2.getValueAt p = some w ∧
      ∀ i, i ≠ p → (f.setValueAt p (StringRef.other w)).2.getValueAt i = f.getValueAt i := by
  obtain ⟨vs, hne, hv, hi⟩ := (packedInvariant_iff f).1 hf
  obtain ⟨n, val, idx⟩ := f
  simp only at hv hi
  subst hv hi
  have hp2 : p < vs.length := by simpa [QueryField.size, length_packOffsets] using hp
  obtain ⟨A, v, B, e, hl, hs⟩ := setValueAt_of_packed n vs p w hp2
  rw [hs]
  have hlen : (A ++ w :: B).length = vs.length := by rw [e]; simp
  refine ⟨rfl, rfl, ?_, ?_, ?_⟩
  · simp only [QueryField.size, length_packOffsets, hlen]
  · rw [getValueAt_arrayField n _ p (by omega), ← hl, getD_append_cons_any]
  · intro i hip
    by_cases hi : i < vs.length
    · rw [getValueAt_arrayField n _ i (by omega), getValueAt_arrayField n vs i hi, e,
        getD_replace A v w B i (by omega)]
    · rw [getValueAt_beyond _ i (by simp only [length_packOffsets]; omega),
        getValueAt_beyond _ i (by simp only [length_packOffsets]; omega)]

set_option maxRecDepth 1000000 in
/-- C32 fails on the code: on the field that holds "a", "bb" (packed "a,bb", offsets 0, 2)
the call `setValueAt(0, value())`, whose argument is the field's own value string, returns
`true` and leaves the packed string "a,bb,bb" with the offsets 0, 8: the length of the
argument is read again behind `replace`, when it is 7 and no longer 4, so the later offset
moves by 6 and not by 3.  Afterwards `getValueAt(0)` gives "a,bb,bb" and not "a,bb", and
the second offset lies behind the 7 characters of the string.  With a copy of the same
text as the argument the offsets are 0, 5 and the values read "a,bb" and "bb". -/
theorem QueryField_setValueAt_own_value :
    (⟨str "n", str "a,bb", [0, 2]⟩ : QueryField) =
        ⟨str "n", packValues [str "a", str "bb"], packOffsets 0 [str "a", str "bb"]⟩ ∧
      QueryField.readRef ⟨str "n", str "a,bb", [0, 2]⟩ StringRef.ownValue = str "a,bb" ∧
      QueryField.setValueAt ⟨str "n", str "a,bb", [0, 2]⟩ 0 StringRef.ownValue =
        (true, ⟨str "n", str "a,bb,bb", [0, 8]⟩) ∧
      QueryField.getValueAt ⟨str "n", str "a,bb,bb", [0, 8]⟩ 0 = some (str "a,bb,bb") ∧
      (str "a,bb,bb").length = 7 ∧
      QueryField.setValueAt ⟨str "n", str "a,bb", [0, 2]⟩ 0 (StringRef.other (str "a,bb")) =
        (true, ⟨str "n", str "a,bb,bb", [0, 5]⟩) ∧
      QueryField.getValueAt ⟨str "n", str "a,bb,bb", [0, 5]⟩ 0 = some (str "a,bb") ∧
      QueryField.getValueAt ⟨str "n", str "a,bb,bb", [0, 5]⟩ 1 = some (str "bb") := by
  decide

theorem packed_invariant (n : Str) (vs : List Str) (h : vs ≠ []) :
    packedInvariant ⟨n, packValues vs, packOffsets 0 vs⟩ :=
  (packedInvariant_iff _).2 ⟨vs, h, rfl, rfl⟩

/-- What `removeValueAt(p)` leaves on a field that holds the values `vs`: again a field
that holds a non-empty list of values. -/
theorem removeValueAt_of_packed (n : Str) (vs : List Str) (hne : vs ≠ []) (p : Nat) :
    ∃ ws : List Str, ws ≠ [] ∧
      (QueryField.removeValueAt ⟨n, packValues vs, packOffsets 0 vs⟩ p).2 =
        ⟨n, packValues ws, packOffsets 0 ws⟩ := by
  by_cases hp : p < vs.length
  · by_cases harr : 1 < vs.length
    · obtain ⟨A, v, B, e, hl⟩ := exists_split_at vs p hp
      cases B with
      | cons b B =>
        have key := removeValueAt_packed_inner n A v b B [] []
        simp only [List.nil_append, List.length_nil, Nat.zero_add] at key
        exact ⟨A ++ b :: B, by simp, by rw [e, ← hl, key]⟩
      | nil =>
        rcases List.eq_nil_or_concat A with hA | ⟨A1, a, hA⟩
        · subst hA; subst e; simp at harr
        · rw [List.concat_eq_append] at hA
          subst hA
          have key := removeValueAt_packed_last n A1 a v [] []
          simp only [List.nil_append, List.length_nil, Nat.zero_add] at key
          have e2 : vs = A1 ++ [a, v] := by rw [e]; simp
          have hl2 : p = A1.length + 1 := by rw [← hl]; simp
          exact ⟨A1 ++ [a ++ [ch ',']], by simp, by rw [e2, hl2, key]⟩
    · refine ⟨[[]], by simp, ?_⟩
      have hpos : ¬ p ≥ (packOffsets 0 vs).length := by rw [length_packOffsets]; omega
      have hna : QueryField.isArray ⟨n, packValues vs, packOffsets 0 vs⟩ = false := by
        simp [QueryField.isArray, QueryField.size, length_packOffsets]; omega
      simp only [QueryField.removeValueAt, hpos, if_false, hna, Bool.not_false, if_true,
        QueryField.clearValues, take_one_packOffsets vs hne]
      rfl
  · refine ⟨vs, hne, ?_⟩
    have hpos : p ≥ (packOffsets 0 vs).length := by rw [length_packOffsets]; omega
    simp only [QueryField.removeValueAt, hpos, if_true]

/-- With the field's own value string as the argument, `addValue` appends the string
with the comma that it has just received. -/
theorem addValue_ownValue (f : QueryField) :
    f.addValue StringRef.ownValue = f.addValue (StringRef.other (f.value_ ++ [ch ','])) :=
  rfl

/-- With the field's own value string as the argument, `setValue` leaves the string as it
is. -/
theorem setValue_ownValue (f : QueryField) :
    f.setValue StringRef.ownValue = f.setValue (StringRef.other f.value_) :=
  rfl

/-- A newly constructed field satisfies the packed invariant, and the mutating
operations preserve it in these cases: `addValue` and `setValue` for every argument, also
the field's own value string; `setValueAt` for every string outside the field, and for
every argument at a position behind the last one; `removeValueAt` and `clearValues`. -/
theorem packedInvariant_kept (name : Str) (f : QueryField) (hf : packedInvariant f)
    (r : StringRef) (v : Str) (p : Nat) :
    packedInvariant (QueryField.new name) ∧ packedInvariant (f.addValue r).2 ∧
      packedInvariant (f.setValue r).2 ∧
      packedInvariant (f.setValueAt p (StringRef.other v)).2 ∧
      (f.size ≤ p → packedInvariant (f.setValueAt p r).2) ∧
      packedInvariant (f.removeValueAt p).2 ∧ packedInvariant f.clearValues := by
  obtain ⟨vs, hne, hv, hi⟩ := (packedInvariant_iff f).1 hf
  obtain ⟨n, val, idx⟩ := f
  simp only at hv hi
  subst hv hi
  have hadd : ∀ r : StringRef,
      packedInvariant (QueryField.addValue ⟨n, packValues vs, packOffsets 0 vs⟩ r).2 := by
    intro r
    cases r with
    | other w =>
      rw [addValue_packed n vs w hne]
      exact packed_invariant n _ (by simp)
    | ownValue =>
      rw [addValue_ownValue, addValue_packed n vs _ hne]
      exact packed_invariant n _ (by simp)
  have hset : ∀ w : Str, packedInvariant
      (QueryField.setValue ⟨n, packValues vs, packOffsets 0 vs⟩ (StringRef.other w)).2 := by
    intro w
    simp only [QueryField.setValue, QueryField.readRef, take_one_packOffsets vs hne]
    exact packed_invariant n [w] (by simp)
  have hbeyond : ∀ r : StringRef, (packOffsets 0 vs).length ≤ p →
      QueryField.setValueAt ⟨n, packValues vs, packOffsets 0 vs⟩ p r =
        QueryField.addValue ⟨n, packValues vs, packOffsets 0 vs⟩ r := by
    intro r hpos
    have hpos2 : p ≥ (packOffsets 0 vs).length := hpos
    simp only [QueryField.setValueAt, hpos2, if_true]
  refine ⟨packed_invariant name [[]] (by simp), hadd r, ?_, ?_, ?_, ?_, ?_⟩
  · cases r with
    | other w => exact hset w
    | ownValue => rw [setValue_ownValue]; exact hset _
  · by_cases hp : p < vs.length
    · obtain ⟨A, x, B, _, _, hs⟩ := setValueAt_of_packed n vs p v hp
      rw [hs]
      exact packed_invariant n _ (by simp)
    · rw [hbeyond _ (by rw [length_packOffsets]; omega)]
      exact hadd _
  · intro hp
    rw [hbeyond r hp]
    exact hadd r
  · obtain ⟨ws, hw, e⟩ := removeValueAt_of_packed n vs hne p
    rw [e]
    exact packed_invariant n ws hw
  · simp only [QueryField.clearValues, take_one_packOffsets vs hne]
    exact packed_invariant n [[]] (by simp)

set_option maxRecDepth 1000000 in
/-- C35 fails on the code: the field that holds "a", "bb" (packed "a,bb", offsets 0, 2)
satisfies the packed invariant, and `setValueAt(0, value())`, whose argument is the field's
own value string, leaves the packed string "a,bb,bb" with the offsets 0, 8, which does not
satisfy it: the offset 8 lies behind the 7 characters of the string.  `addValue(value())`
and `setValue(value())` on the same field keep the invariant. -/
theorem QueryField_invariant_broken_by_own_value :
    packedInvariant ⟨str "n", str "a,bb", [0, 2]⟩ ∧
      (QueryField.setValueAt ⟨str "n", str "a,bb", [0, 2]⟩ 0 StringRef.ownValue).1 = true ∧
      (QueryField.setValueAt ⟨str "n", str "a,bb", [0, 2]⟩ 0 StringRef.ownValue).2 =
        ⟨str "n", str "a,bb,bb", [0, 8]⟩ ∧
      ¬ packedInvariant (QueryField.setValueAt ⟨str "n", str "a,bb", [0, 2]⟩ 0
        StringRef.ownValue).2 ∧
      ¬ (8 ≤ (str "a,bb,bb").length) ∧
      (QueryField.addValue ⟨str "n", str "a,bb", [0, 2]⟩ StringRef.ownValue).2 =
        ⟨str "n", str "a,bb,a,bb,", [0, 2, 5]⟩ ∧
      packedInvariant (QueryField.addValue ⟨str "n", str "a,bb", [0, 2]⟩ StringRef.ownValue).2 ∧
      (QueryField.setValue ⟨str "n", str "a,bb", [0, 2]⟩ StringRef.ownValue).2 =
        ⟨str "n", str "a,bb", [0]⟩ ∧
      packedInvariant (QueryField.setValue ⟨str "n", str "a,bb", [0, 2]⟩ StringRef.ownValue).2 := by
  decide

/-! ## Claims about query fields -/

set_option maxRecDepth 1000000 in
/-- C31 fails on the code: on the field that holds "world", "last" (packed "world,last",
offsets 0, 6) `removeValueAt(1)` returns `true` and leaves the packed string "world," with
the one offset 0, so the remaining value reads "world," and not "world": when the last
value is removed the comma before it stays.  Removing the first value of
"hello,world,third,last" and then the second of the rest gives "world,last", as in the
test. -/
theorem QueryField_removeValueAt_last_keeps_comma :
    QueryField.removeValueAt ⟨str "n", str "world,last", [0, 6]⟩ 1 =
        (true, ⟨str "n", str "world,", [0]⟩) ∧
      QueryField.getValueAt ⟨str "n", str "world,", [0]⟩ 0 = some (str "world,") ∧
      (⟨str "n", str "world,last", [0, 6]⟩ : QueryField) =
        ⟨str "n", packValues [str "world", str "last"], packOffsets 0 [str "world", str "last"]⟩ ∧
      QueryField.removeValueAt ⟨str "n", str "hello,world,third,last", [0, 6, 12, 18]⟩ 0 =
        (true, ⟨str "n", str "world,third,last", [0, 6, 12]⟩) ∧
      QueryField.removeValueAt ⟨str "n", str "world,third,last", [0, 6, 12]⟩ 1 =
        (true, ⟨str "n", str "world,last", [0, 6]⟩) := by
  decide

set_option maxRecDepth 1000000 in
/-- C33 fails on the code: for the array field `a` with the values "1", "2" the text is
"a[]=1&a[]=2", 11 characters, and `length()` is 10: the encoded name is counted once and
not once for each value.  `stringify` sizes the buffer by `length()`, so the last
character does not fit.  For the scalar field `a=1` the length 3 is right. -/
theorem QueryField_length_array_short :
    QueryField.length ⟨str "a", str "1,2", [0, 2]⟩ = 10 ∧
      arrayQueryText (str "a") [str "1", str "2"] = str "a[]=1&a[]=2" ∧
      (str "a[]=1&a[]=2").length = 11 ∧
      QueryField.stringifyAt ⟨str "a", str "1,2", [0, 2]⟩ [] 0 = (true, str "a[]=1&a[]=") ∧
      QueryField.length ⟨str "a", str "1", [0]⟩ = 3 ∧
      QueryField.stringifyAt ⟨str "a", str "1", [0]⟩ [] 0 = (true, str "a=1") := by
  decide

/-! ## Claims about Base64 -/

set_option maxRecDepth 1000000 in
/-- C34 fails on the code: the one-byte string that holds a zero byte is encoded as "AA=="
(padded) and "AA" (unpadded), and `Base64Decode` rejects both, because the test
`IsInBase64AlphabetIndicesMap` takes the index 0 of the character `A` for "not in the
alphabet"; the form that returns a string gives the empty string.  The string "f" goes
round. -/
theorem Base64Decode_rejects_A :
    Crypto.Base64Encode true [0] Crypto.Base64Alphabet = str "AA==" ∧
      Crypto.Base64Encode false [0] Crypto.Base64Alphabet = str "AA" ∧
      Crypto.IsInBase64AlphabetIndicesMap (ch 'A') Crypto.Base64AlphabetIndicesMap = false ∧
      (Crypto.Base64DecodeTo (str "AA==") [] Crypto.Base64AlphabetIndicesMap).1 = false ∧
      (Crypto.Base64DecodeTo (str "AA") [] Crypto.Base64AlphabetIndicesMap).1 = false ∧
      Crypto.Base64Decode (Crypto.Base64Encode true [0] Crypto.Base64Alphabet)
        Crypto.Base64AlphabetIndicesMap = [] ∧
      Crypto.Base64Decode (Crypto.Base64Encode false [0] Crypto.Base64Alphabet)
        Crypto.Base64AlphabetIndicesMap = [] ∧
      Crypto.Base64Decode (Crypto.Base64Encode true (str "f") Crypto.Base64Alphabet)
        Crypto.Base64AlphabetIndicesMap = str "f" := by
  decide

/-! ## The length of the compressed text of an IPv6 address -/

set_option maxRecDepth 1000000 in
/-- C36 fails on the code: for the address 1:2:3:4:5:6:7:8, which has no zero group, the
pair `sequence` is `(0, 0)` with the flag set, and `length<true>()` is 15, while the eight
groups take 14 characters: after eight rounds of the loop of `stringify<true>` the last
byte of the buffer is still unwritten, and the loop goes on to a ninth group, in which the
model writes a `:` there.  The same holds for 1:2:3:0:5:6:7:8, with a lone zero group in
the middle, and for 1:2:3:4:5:6:7:0, where the chosen run is the one group 7. -/
theorem IPv6_length_exceeds_text :
    IPv6Address.compressedSequence ⟨[0, 1, 0, 2, 0, 3, 0, 4, 0, 5, 0, 6, 0, 7, 0, 8]⟩ =
        (true, (0, 0)) ∧
      IPv6Address.lengthCompressed ⟨[0, 1, 0, 2, 0, 3, 0, 4, 0, 5, 0, 6, 0, 7, 0, 8]⟩ = 15 ∧
      IPv6Address.stringifyCompressed.loop ⟨[0, 1, 0, 2, 0, 3, 0, 4, 0, 5, 0, 6, 0, 7, 0, 8]⟩ (0, 0) 15 8
        (resize [] 15) 0 0 false = str ":2:3:4:5:6:7:8" ++ [0] ∧
      IPv6Address.stringifyCompressed.loop ⟨[0, 1, 0, 2, 0, 3, 0, 4, 0, 5, 0, 6, 0, 7, 0, 8]⟩ (0, 0) 15 9
        (resize [] 15) 0 0 false = str ":2:3:4:5:6:7:8:" ∧
      IPv6Address.stringifyCompressed ⟨[0, 1, 0, 2, 0, 3, 0, 4, 0, 5, 0, 6, 0, 7, 0, 8]⟩ =
        str ":2:3:4:5:6:7:8:" ∧
      IPv6Address.compressedSequence ⟨[0, 1, 0, 2, 0, 3, 0, 0, 0, 5, 0, 6, 0, 7, 0, 8]⟩ =
        (true, (0, 0)) ∧
      IPv6Address.lengthCompressed ⟨[0, 1, 0, 2, 0, 3, 0, 0, 0, 5, 0, 6, 0, 7, 0, 8]⟩ = 15 ∧
      IPv6Address.stringifyCompressed.loop ⟨[0, 1, 0, 2, 0, 3, 0, 0, 0, 5, 0, 6, 0, 7, 0, 8]⟩ (0, 0) 15 8
        (resize [] 15) 0 0 false = str ":2:3:0:5:6:7:8" ++ [0] ∧
      IPv6Address.compressedSequence ⟨[0, 1, 0, 2, 0, 3, 0, 4, 0, 5, 0, 6, 0, 7, 0, 0]⟩ =
        (true, (7, 7)) ∧
      IPv6Address.lengthCompressed ⟨[0, 1, 0, 2, 0, 3, 0, 4, 0, 5, 0, 6, 0, 7, 0, 0]⟩ = 15 ∧
      IPv6Address.stringifyCompressed.loop ⟨[0, 1, 0, 2, 0, 3, 0, 4, 0, 5, 0, 6, 0, 7, 0, 0]⟩ (7, 7) 15 8
        (resize [] 15) 0 0 false = str "1:2:3:4:5:6:7:" ++ [0] := by
  decide

/-! ## Round trips of user information and paths -/

set_option maxRecDepth 1000000 in
theorem encodedByte_all_no_delimiter : ∀ c : Byte,
    (encodedByte c).all (fun x => x != ch ':' && x != ch '/') = true := by
  decide

theorem Encode_no_delimiter (s : Str) : ∀ x ∈ Encode s, x ≠ ch ':' ∧ x ≠ ch '/' := by
  rw [Encode_eq]
  induction s with
  | nil => intro x hx; simp [encodedBytes] at hx
  | cons c s ih =>
    intro x hx
    simp only [encodedBytes, List.mem_append] at hx
    rcases hx with hx | hx
    · have h := List.all_eq_true.1 (encodedByte_all_no_delimiter c) x hx
      simpa using h
    · exact ih x hx

theorem length_Encode (s : Str) : (Encode s).length = CalculateEncodedLength s := by
  rw [Encode_eq, CalculateEncodedLength_eq_length]

/-- The buffer form of `Encode` writes the text `Encode(s)` over the bytes at the offset
and returns its length. -/
theorem EncodeAt_buffer (s pre mid post : Str) (o : Nat) (ho : pre.length = o)
    (hm : mid.length = (Encode s).length) :
    EncodeAt s (pre ++ (mid ++ post)) o = (pre ++ (Encode s ++ post), (Encode s).length) := by
  have h1 := EncodeAt_loop_buffer s pre mid post o 0 (by omega) (by rw [hm, Encode_eq])
  have h2 := EncodeAt_loop_count s (pre ++ (mid ++ post)) o 0
  rw [Nat.zero_add] at h2
  rw [Encode_eq]
  exact Prod.ext h1 h2

theorem exists_of_length_add (l : Str) (n m : Nat) (h : l.length = n + m) :
    ∃ x y, l = x ++ y ∧ x.length = n ∧ y.length = m :=
  ⟨l.take n, l.drop n, (List.take_append_drop n l).symm, by rw [List.length_take]; omega,
    by rw [List.length_drop]; omega⟩

/-- C40: for every user `u` and password `p`, `stringify<true>()` of the user information
that holds them is `Encode(u) ":" Encode(p)`, its length is `length<true>()`, and
`parse` of that text, on any user information, returns `true` and restores exactly `u`
and `p`. -/
theorem UserInformation_stringify_parse (u p : Str) (prior : UserInformation) :
    UserInformation.stringify ⟨u, p⟩ true = Encode u ++ ch ':' :: Encode p ∧
      (UserInformation.stringify ⟨u, p⟩ true).length = UserInformation.length ⟨u, p⟩ true ∧
      UserInformation.parse prior (UserInformation.stringify ⟨u, p⟩ true) = (true, ⟨u, p⟩) := by
  have hs : UserInformation.stringify ⟨u, p⟩ true = Encode u ++ ch ':' :: Encode p := by
    have hl : (resize [] (0 + UserInformation.length ⟨u, p⟩ true)).length =
        (Encode u).length + (1 + (Encode p).length) := by
      rw [length_resize, UserInformation.length, length_Encode, length_Encode]
      simp only [if_true]; omega
    obtain ⟨m1, r1, e1, h1, hr1⟩ := exists_of_length_add _ _ _ hl
    obtain ⟨c1, m2, e2, hc1, h2⟩ := exists_of_length_add r1 1 _ hr1
    match c1, hc1 with
    | [c], _ =>
      have hbuf : resize [] (0 + UserInformation.length ⟨u, p⟩ true) = [] ++ (m1 ++ (c :: m2)) := by
        rw [e1, e2]; rfl
      simp only [UserInformation.stringify, UserInformation.stringifyAt, if_true]
      rw [hbuf, EncodeAt_buffer u [] m1 (c :: m2) 0 rfl h1]
      simp only [List.nil_append, Nat.zero_add]
      rw [set_append_cons (Encode u) c (ch ':') m2 _ rfl]
      have h3 := EncodeAt_buffer p (Encode u ++ [ch ':']) m2 [] ((Encode u).length + 1)
        (by simp) h2
      simp only [List.append_nil, List.append_assoc, List.singleton_append] at h3
      rw [h3]
  refine ⟨hs, ?_, ?_⟩
  · rw [hs, UserInformation.length, List.length_append, List.length_cons, length_Encode,
      length_Encode]
    simp only [if_true]; omega
  · rw [hs]
    have hfind : findChar (ch ':') (Encode u ++ ch ':' :: Encode p) = (Encode u).length :=
      findChar_append _ _ _
        (findChar_absent _ _ (fun x hx => (Encode_no_delimiter u x hx).1))
    have hne : ¬ (Encode u ++ ch ':' :: Encode p).length = (Encode u).length := by
      simp only [List.length_append, List.length_cons]; omega
    have hdrop : (Encode u ++ ch ':' :: Encode p).drop ((Encode u).length + 1) = Encode p := by
      rw [show Encode u ++ ch ':' :: Encode p = (Encode u ++ [ch ':']) ++ Encode p by simp]
      exact List.drop_left' (by simp)
    simp only [UserInformation.parse, hfind, List.take_left, Decode_Encode_eq, Bool.not_true,
      Bool.false_eq_true, if_false, ne_eq, hne, not_false_eq_true, if_true, hdrop]

theorem pathText_length (L : List Str) :
    (pathText L).length = L.foldl (fun len path => len + CalculateEncodedLength path) 0 + L.length := by
  have hfold : ∀ (M : List Str) (n : Nat),
      M.foldl (fun len path => len + CalculateEncodedLength path) n =
        n + M.foldl (fun len path => len + CalculateEncodedLength path) 0 := by
    intro M
    induction M with
    | nil => intro n; rfl
    | cons m M ih =>
      intro n
      simp only [List.foldl_cons]
      rw [ih (n + _), ih (0 + _)]; omega
  induction L with
  | nil => rfl
  | cons seg L ih =>
    simp only [pathText, List.length_cons, List.length_append, List.foldl_cons, ih, length_Encode]
    rw [hfold L (0 + _)]; omega

theorem PathManager_length_eq (L : List Str) :
    PathManager.length ⟨L⟩ = max (pathText L).length 1 := by
  have hfold : ∀ (M : List Str) (n : Nat),
      M.foldl (fun len path => len + CalculateEncodedLength path) n =
        n + M.foldl (fun len path => len + CalculateEncodedLength path) 0 := by
    intro M
    induction M with
    | nil => intro n; rfl
    | cons m M ih =>
      intro n
      simp only [List.foldl_cons]
      rw [ih (n + _), ih (0 + _)]; omega
  rw [PathManager.length, PathManager.count, pathText_length, hfold L L.length, Nat.add_comm]

/-- The loop of `stringify` writes the text of the segments over the bytes at the
offset. -/
theorem PathManager_stringify_loop (L : List Str) : ∀ (pre mid post : Str) (o : Nat),
    pre.length = o → mid.length = (pathText L).length →
    PathManager.stringifyAt.loop L (pre ++ (mid ++ post)) o = pre ++ (pathText L ++ post) := by
  induction L with
  | nil =>
    intro pre mid post o _ hm
    have : mid = [] := List.length_eq_zero.mp hm
    subst this
    rfl
  | cons seg L ih =>
    intro pre mid post o ho hm
    simp only [pathText, List.length_cons, List.length_append] at hm
    obtain ⟨c1, r1, e1, hc1, hr1⟩ := exists_of_length_add mid 1 ((Encode seg).length + (pathText L).length)
      (by omega)
    obtain ⟨m1, m2, e2, hm1, hm2⟩ := exists_of_length_add r1 _ _ hr1
    match c1, hc1 with
    | [c], _ =>
      subst e2
      subst e1
      simp only [PathManager.stringifyAt.loop, pathText]
      have hset : (pre ++ ([c] ++ (m1 ++ m2) ++ post)).set o (ch '/') =
          (pre ++ [ch '/']) ++ (m1 ++ (m2 ++ post)) := by
        have := set_append_cons pre c (ch '/') (m1 ++ m2 ++ post) o ho
        simpa using this
      rw [hset, EncodeAt_buffer seg (pre ++ [ch '/']) m1 (m2 ++ post) (o + 1) (by simp [ho]) hm1]
      have h := ih (pre ++ [ch '/'] ++ Encode seg) m2 post (o + 1 + (Encode seg).length)
        (by simp [ho]; omega) hm2
      simp only [List.append_assoc] at h ⊢
      rw [h]
      simp

theorem findChar_cons_self (c : Byte) (s : Str) : findChar c (c :: s) = 0 := by
  simp [findChar]

theorem pathText_head (L : List Str) : pathText L = [] ∨ ∃ t, pathText L = ch '/' :: t := by
  cases L with
  | nil => exact Or.inl rfl
  | cons seg L => exact Or.inr ⟨_, rfl⟩

theorem Encode_ne_nil (s : Str) (hs : s ≠ []) : Encode s ≠ [] := by
  cases s with
  | nil => exact absurd rfl hs
  | cons c s =>
    intro h
    have hl : (Encode (c :: s)).length = 0 := by rw [h]; rfl
    rw [Encode_eq] at hl
    simp only [encodedBytes, List.length_append] at hl
    have h1 : (encodedByte c).length ≠ 0 := by
      simp only [encodedByte]; split <;> simp
    omega

/-- The non-empty pieces of the text of a list of non-empty segments, with or without its
first `/`, are the encoded segments. -/
theorem nonEmptyPieces_pathText (L : List Str) (hL : ∀ seg ∈ L, seg ≠ []) :
    nonEmptyPieces (ch '/') ((pathText L).drop 1) = L.map Encode ∧
      nonEmptyPieces (ch '/') (pathText L) = L.map Encode := by
  induction L with
  | nil => exact ⟨nonEmptyPieces_nil _, nonEmptyPieces_nil _⟩
  | cons seg L ih =>
    have ih1 := (ih (fun s hs => hL s (List.mem_cons_of_mem _ hs))).1
    have hseg : Encode seg ≠ [] := Encode_ne_nil seg (hL seg (List.mem_cons_self _ _))
    have hfind : findChar (ch '/') (Encode seg ++ pathText L) = (Encode seg).length := by
      have habs := findChar_absent (ch '/') (Encode seg)
        (fun x hx => (Encode_no_delimiter seg x hx).2)
      rcases pathText_head L with h | ⟨t, h⟩
      · rw [h, List.append_nil]; exact habs
      · rw [h]; exact findChar_append _ _ _ habs
    have hk : ¬ 0 = (Encode seg).length := by
      intro h0; exact hseg (List.length_eq_zero.mp h0.symm)
    have hdrop : (Encode seg ++ pathText L).drop ((Encode seg).length + 1) = (pathText L).drop 1 := by
      rw [← List.drop_drop, List.drop_left]
    have h1 : nonEmptyPieces (ch '/') ((pathText (seg :: L)).drop 1) = (seg :: L).map Encode := by
      show nonEmptyPieces (ch '/') (Encode seg ++ pathText L) = _
      rw [nonEmptyPieces_step, hfind, hdrop, ih1]
      simp only [ne_eq, hk, not_false_eq_true, if_true, List.take_left, List.map_cons,
        List.singleton_append]
    refine ⟨h1, ?_⟩
    rw [nonEmptyPieces_step]
    show (if 0 ≠ findChar (ch '/') (ch '/' :: (Encode seg ++ pathText L)) then _ else _) ++
      nonEmptyPieces (ch '/') ((ch '/' :: (Encode seg ++ pathText L)).drop
        (findChar (ch '/') (ch '/' :: (Encode seg ++ pathText L)) + 1)) = _
    rw [findChar_cons_self]
    simp only [ne_eq, not_true_eq_false, if_false, List.nil_append, Nat.zero_add]
    exact h1

/-- C39: for every list `L` of non-empty segments, `length()` of the path manager that
holds `L` is the length of `stringify()`; `stringify()` is `"/"` when `L` is empty and
otherwise the segments encoded, each behind a `/`; and `parse` of that text on an empty
path manager returns `true` and yields exactly `L`. -/
theorem PathManager_stringify_parse (L : List Str) (hL : ∀ seg ∈ L, seg ≠ []) :
    PathManager.length ⟨L⟩ = (PathManager.stringify ⟨L⟩).length ∧
      PathManager.stringify ⟨L⟩ = (if L = [] then str "/" else pathText L) ∧
      PathManager.parse ⟨[]⟩ (PathManager.stringify ⟨L⟩) = (true, ⟨L⟩) := by
  have hs : PathManager.stringify ⟨L⟩ = (if L = [] then str "/" else pathText L) := by
    cases L with
    | nil => rfl
    | cons seg M =>
      have hlen : PathManager.length ⟨seg :: M⟩ = (pathText (seg :: M)).length := by
        rw [PathManager_length_eq]
        simp only [pathText, List.length_cons]; omega
      have hpos : PathManager.length ⟨seg :: M⟩ + 0 > ([] : Str).length := by
        rw [hlen]; simp [pathText]
      simp only [PathManager.stringify, PathManager.stringifyAt, hpos, if_true,
        PathManager.empty, List.isEmpty_cons, Bool.false_eq_true, if_false, reduceCtorEq]
      have h := PathManager_stringify_loop (seg :: M) []
        (resize [] (PathManager.length ⟨seg :: M⟩ + 0)) [] 0 rfl
        (by rw [length_resize, hlen]; rfl)
      simpa using h
  have hpieces : nonEmptyPieces (ch '/') (PathManager.stringify ⟨L⟩) = L.map Encode := by
    rw [hs]
    cases L with
    | nil => decide
    | cons seg M =>
      simp only [reduceCtorEq, if_false]
      exact (nonEmptyPieces_pathText (seg :: M) hL).2
  refine ⟨?_, hs, ?_⟩
  · rw [hs, PathManager_length_eq]
    cases L with
    | nil => rfl
    | cons seg M =>
      simp only [reduceCtorEq, if_false, pathText, List.length_cons]; omega
  · obtain ⟨new, h1, _, h3, h4⟩ := PathManager_loop_spec ((PathManager.stringify ⟨L⟩).length + 1)
      (PathManager.stringify ⟨L⟩) [] 0 (Nat.lt_succ_self _)
    have htrue : (PathManager.parse.loop ((PathManager.stringify ⟨L⟩).length + 1)
        (PathManager.stringify ⟨L⟩) [] 0).1 = true := by
      rw [h3, hpieces]
      intro p hp
      obtain ⟨seg, _, rfl⟩ := List.mem_map.1 hp
      rw [Decode_Encode_eq]
    have hnew := h4 htrue
    rw [hpieces, List.map_map] at hnew
    have hid : L.map ((fun p => (Decode p []).2) ∘ Encode) = L := by
      have : ((fun p => (Decode p []).2) ∘ Encode) = id := by
        funext seg
        simp only [Function.comp, Decode_Encode_eq, id]
      rw [this, List.map_id]
    rw [hid] at hnew
    simp only [PathManager.parse, htrue, if_true, h1, hnew, List.nil_append]

/-- Witness for C39: the segments `a/b` and `c%`. -/
theorem PathManager_stringify_parse_witness :
    (∀ seg ∈ [str "a/b", str "c%"], seg ≠ []) ∧
      PathManager.length ⟨[str "a/b", str "c%"]⟩ =
        (PathManager.stringify ⟨[str "a/b", str "c%"]⟩).length ∧
      PathManager.stringify ⟨[str "a/b", str "c%"]⟩ =
        (if [str "a/b", str "c%"] = [] then str "/" else pathText [str "a/b", str "c%"]) ∧
      PathManager.parse ⟨[]⟩ (PathManager.stringify ⟨[str "a/b", str "c%"]⟩) =
        (true, ⟨[str "a/b", str "c%"]⟩) :=
  ⟨by decide, PathManager_stringify_parse [str "a/b", str "c%"] (by decide)⟩

/-- Witness for C40: the user `a:b` with the password `p@1`. -/
theorem UserInformation_stringify_parse_witness :
    UserInformation.stringify ⟨str "a:b", str "p@1"⟩ true =
        Encode (str "a:b") ++ ch ':' :: Encode (str "p@1") ∧
      (UserInformation.stringify ⟨str "a:b", str "p@1"⟩ true).length =
        UserInformation.length ⟨str "a:b", str "p@1"⟩ true ∧
      UserInformation.parse ⟨[], []⟩ (UserInformation.stringify ⟨str "a:b", str "p@1"⟩ true) =
        (true, ⟨str "a:b", str "p@1"⟩) :=
  UserInformation_stringify_parse (str "a:b") (str "p@1") ⟨[], []⟩

/-! ## Hosts that begin with a digit -/

/-- What `stringify(str)` leaves in `str` does not depend on what `str` held before. -/
theorem IPv4_stringifyTo_eq (a b c d : Byte) (buf : Str) :
    IPv4Address.stringifyTo ⟨a, b, c, d⟩ buf = (true, dottedQuad a b c d) := by
  obtain ⟨-, a1, a3⟩ := decimal_facts a
  obtain ⟨-, b1, b3⟩ := decimal_facts b
  obtain ⟨-, c1, c3⟩ := decimal_facts c
  obtain ⟨-, d1, d3⟩ := decimal_facts d
  have hl : (resize buf (IPv4Address.length ⟨a, b, c, d⟩)).length =
      (decimal a.val).length + (1 + ((decimal b.val).length + (1 + ((decimal c.val).length +
        (1 + (decimal d.val).length))))) := by
    rw [length_resize, IPv4_length_eq]; omega
  obtain ⟨ma, r1, e1, hma, hr1⟩ := exists_of_length_add _ _ _ hl
  obtain ⟨x1, r2, e2, hx1, hr2⟩ := exists_of_length_add r1 _ _ hr1
  obtain ⟨mb, r3, e3, hmb, hr3⟩ := exists_of_length_add r2 _ _ hr2
  obtain ⟨x2, r4, e4, hx2, hr4⟩ := exists_of_length_add r3 _ _ hr3
  obtain ⟨mc, r5, e5, hmc, hr5⟩ := exists_of_length_add r4 _ _ hr4
  obtain ⟨x3, md, e6, hx3, hmd⟩ := exists_of_length_add r5 _ _ hr5
  match x1, hx1, x2, hx2, x3, hx3 with
  | [y1], _, [y2], _, [y3], _ =>
    have hbuf : resize buf (IPv4Address.length ⟨a, b, c, d⟩) =
        ma ++ (y1 :: (mb ++ y2 :: (mc ++ y3 :: (md ++ [])))) := by
      rw [e1, e2, e3, e4, e5, e6]; simp
    simp only [IPv4Address.stringifyTo, hbuf, IPv4Address.bytes, List.foldl_cons, List.foldl_nil]
    rw [stringify_step_first a _ _ hma]
    rw [stringify_step_next b (decimal a.val) y1 _ _ _ rfl (by omega) hmb]
    have e2 : decimal a.val ++ ch '.' :: (decimal b.val ++ y2 :: (mc ++ y3 :: (md ++ []))) =
        (decimal a.val ++ ch '.' :: decimal b.val) ++ y2 :: (mc ++ y3 :: (md ++ [])) := by
      simp
    rw [e2, stringify_step_next c _ y2 _ _ _ (by simp; omega) (by omega) hmc]
    have e3 : (decimal a.val ++ ch '.' :: decimal b.val) ++ ch '.' :: (decimal c.val ++
        y3 :: (md ++ [])) =
        (decimal a.val ++ ch '.' :: (decimal b.val ++ ch '.' :: decimal c.val)) ++
        y3 :: (md ++ []) := by
      simp
    rw [e3, stringify_step_next d _ y3 _ _ _ (by simp; omega) (by omega) hmd]
    simp [dottedQuad]

set_option maxRecDepth 1000000 in
theorem isDecimalDigit_not_special : ∀ c : Byte, isDecimalDigit c = true →
    (ch '[' == c) = false ∧ c ≠ ch '.' := by
  decide

/-- A label that begins with a digit is rejected. -/
theorem validateLabel_digit_first (c : Byte) (t : Str) (hc : isDecimalDigit c = true) :
    Host.validateLabel_ (c :: t) = false := by
  simp only [Host.validateLabel_, List.getD_cons_zero, isDecimalDigit_range, hc, Bool.not_true,
    Bool.and_false, Bool.false_and]

/-- The label loop fails on every text that begins with a digit. -/
theorem Host_parse_labels_digit_first (fuel : Nat) (c : Byte) (t : Str)
    (hc : isDecimalDigit c = true) : Host.parse.labels fuel (c :: t) = false := by
  cases fuel with
  | zero => rfl
  | succ fuel =>
    have hne : c ≠ ch '.' := (isDecimalDigit_not_special c hc).2
    have hfind : findChar (ch '.') (c :: t) = findChar (ch '.') t + 1 := by
      simp [findChar, hne]
    simp only [Host.parse.labels, List.length_cons, Nat.add_one_ne_zero, if_false, hfind,
      List.take_succ_cons, validateLabel_digit_first c _ hc, Bool.not_false, if_true]

theorem IPv4_parse_length (prior : IPv4Address) (s : Str)
    (h : (IPv4Address.parse prior s).1 = true) : 7 ≤ s.length ∧ s.length ≤ 15 := by
  by_cases hb : 7 > s.length ∨ s.length > 15
  · simp [IPv4Address.parse, hb] at h
  · omega

theorem IPv4_parse_flag_prior (prior : IPv4Address) (s : Str) :
    (IPv4Address.parse prior s).1 = (IPv4Address.parse IPv4Address.zero s).1 := by
  simp only [IPv4Address.parse]
  split <;> rfl

/-- C38: for every input that begins with a decimal digit, `Host::parse` returns `true`
exactly when `IPv4Address::parse` returns `true` on it; in that case the host is of type
IPv4 and its value is the canonical dotted-decimal text of the parsed address; otherwise
the host is cleared, because the label loop rejects a first label that begins with a
digit. -/
theorem Host_parse_digit_first (h : Host) (prior : IPv4Address) (c : Byte) (t : Str)
    (hc : isDecimalDigit c = true) :
    ((Host.parse h (c :: t)).1 = true ↔ (IPv4Address.parse prior (c :: t)).1 = true) ∧
      ((IPv4Address.parse prior (c :: t)).1 = true →
        (Host.parse h (c :: t)).2 =
          ⟨dottedQuad (IPv4Address.parse IPv4Address.zero (c :: t)).2.b0
            (IPv4Address.parse IPv4Address.zero (c :: t)).2.b1
            (IPv4Address.parse IPv4Address.zero (c :: t)).2.b2
            (IPv4Address.parse IPv4Address.zero (c :: t)).2.b3, HostType.IPv4⟩) ∧
      ((IPv4Address.parse prior (c :: t)).1 = false →
        Host.parse h (c :: t) = (false, ⟨[], HostType.None⟩)) ∧
      Host.parse.labels ((c :: t).length + 1) (c :: t) = false := by
  have hbr : (ch '[' == c) = false := (isDecimalDigit_not_special c hc).1
  have hlab := Host_parse_labels_digit_first ((c :: t).length + 1) c t hc
  have hdig : (ch '0' ≤ c && c ≤ ch '9') = true := by rw [isDecimalDigit_range]; exact hc
  rw [IPv4_parse_flag_prior prior]
  cases hp : (IPv4Address.parse IPv4Address.zero (c :: t)).1 with
  | true =>
    have hlen := IPv4_parse_length _ _ hp
    have h0 : ¬ (0 = (c :: t).length ∨ 255 < (c :: t).length) := by omega
    have hparse : Host.parse h (c :: t) =
        (true, ⟨dottedQuad (IPv4Address.parse IPv4Address.zero (c :: t)).2.b0
            (IPv4Address.parse IPv4Address.zero (c :: t)).2.b1
            (IPv4Address.parse IPv4Address.zero (c :: t)).2.b2
            (IPv4Address.parse IPv4Address.zero (c :: t)).2.b3, HostType.IPv4⟩) := by
      have hst := IPv4_stringifyTo_eq (IPv4Address.parse IPv4Address.zero (c :: t)).2.b0
            (IPv4Address.parse IPv4Address.zero (c :: t)).2.b1
            (IPv4Address.parse IPv4Address.zero (c :: t)).2.b2
            (IPv4Address.parse IPv4Address.zero (c :: t)).2.b3 h.value_
      simp only [Host.parse, Bool.or_eq_true, decide_eq_true_eq, h0, if_false,
        List.getD_cons_zero, hbr, Bool.false_and, Bool.false_eq_true, hdig, hp, Bool.and_self,
        if_true, Host.assignIPv4, hst]
    rw [hparse]
    exact ⟨⟨fun _ => rfl, fun _ => rfl⟩, fun _ => rfl, fun hf => (by cases hf), hlab⟩
  | false =>
    have hparse : Host.parse h (c :: t) = (false, ⟨[], HostType.None⟩) := by
      simp only [Host.parse, List.getD_cons_zero, hbr, Bool.false_and, Bool.false_eq_true,
        if_false, hdig, hp, Bool.and_false, hlab, Bool.not_false, if_true, Host.clear]
      split <;> rfl
    rw [hparse]
    exact ⟨⟨fun hf => (by cases hf), fun hf => (by cases hf)⟩, fun hf => (by cases hf), fun _ => rfl, hlab⟩

/-- Witness for C38: the input `192.168.1.1`. -/
theorem Host_parse_digit_first_witness :
    ((Host.parse ⟨str "old", HostType.Name⟩ (ch '1' :: str "92.168.1.1")).1 = true ↔
        (IPv4Address.parse IPv4Address.zero (ch '1' :: str "92.168.1.1")).1 = true) ∧
      ((IPv4Address.parse IPv4Address.zero (ch '1' :: str "92.168.1.1")).1 = true →
        (Host.parse ⟨str "old", HostType.Name⟩ (ch '1' :: str "92.168.1.1")).2 =
          ⟨dottedQuad (IPv4Address.parse IPv4Address.zero (ch '1' :: str "92.168.1.1")).2.b0
            (IPv4Address.parse IPv4Address.zero (ch '1' :: str "92.168.1.1")).2.b1
            (IPv4Address.parse IPv4Address.zero (ch '1' :: str "92.168.1.1")).2.b2
            (IPv4Address.parse IPv4Address.zero (ch '1' :: str "92.168.1.1")).2.b3,
            HostType.IPv4⟩) ∧
      ((IPv4Address.parse IPv4Address.zero (ch '1' :: str "92.168.1.1")).1 = false →
        Host.parse ⟨str "old", HostType.Name⟩ (ch '1' :: str "92.168.1.1") =
          (false, ⟨[], HostType.None⟩)) ∧
      Host.parse.labels ((ch '1' :: str "92.168.1.1").length + 1)
        (ch '1' :: str "92.168.1.1") = false :=
  Host_parse_digit_first ⟨str "old", HostType.Name⟩ IPv4Address.zero (ch '1') (str "92.168.1.1")
    (by decide)

/-! ## Bracketed IPv6 literals in an authority -/

theorem findChar_le_length (c : Byte) (s : Str) : findChar c s ≤ s.length := by
  induction s with
  | nil => simp [findChar]
  | cons b s ih =>
    by_cases hb : b = c
    · simp [findChar, hb]
    · simp [findChar, hb, ih]

theorem findChar_split (c : Byte) (s : Str) (h : findChar c s < s.length) :
    s = s.take (findChar c s) ++ c :: s.drop (findChar c s + 1) := by
  induction s with
  | nil => simp at h
  | cons b s ih =>
    by_cases hb : b = c
    · simp [findChar, hb]
    · simp only [findChar, hb, if_false, List.length_cons, Nat.add_lt_add_iff_right] at h
      simp only [findChar, hb, if_false, List.take_succ_cons, List.drop_succ_cons,
        List.cons_append]
      rw [← ih h]

theorem findChar_take_ne (c : Byte) (s : Str) : ∀ x ∈ s.take (findChar c s), x ≠ c := by
  induction s with
  | nil => intro x hx; simp [findChar] at hx
  | cons b s ih =>
    by_cases hb : b = c
    · intro x hx; simp [findChar, hb] at hx
    · intro x hx
      simp only [findChar, hb, if_false, List.take_succ_cons, List.mem_cons] at hx
      rcases hx with rfl | hx
      · exact hb
      · exact ih x hx

theorem findChar_take_all (c : Byte) (s : Str) (h : ¬ findChar c s < s.length) :
    s.take (findChar c s) = s :=
  List.take_of_length_le (by omega)

theorem mem_characters (g : Str) (hl : g.length ≤ 4) (x : Byte) (hx : x ∈ g) :
    x = (IPv6Address.parse.characters g).getD 0 0 ∨ x = (IPv6Address.parse.characters g).getD 1 0 ∨
      x = (IPv6Address.parse.characters g).getD 2 0 ∨
      x = (IPv6Address.parse.characters g).getD 3 0 := by
  match g, hl, hx with
  | [a], _, hx => simp at hx; subst hx; exact Or.inr (Or.inr (Or.inr rfl))
  | [a, b], _, hx =>
    simp at hx
    rcases hx with rfl | rfl
    · exact Or.inr (Or.inr (Or.inl rfl))
    · exact Or.inr (Or.inr (Or.inr rfl))
  | [a, b, c], _, hx =>
    simp at hx
    rcases hx with rfl | rfl | rfl
    · exact Or.inr (Or.inl rfl)
    · exact Or.inr (Or.inr (Or.inl rfl))
    · exact Or.inr (Or.inr (Or.inr rfl))
  | [a, b, c, d], _, hx =>
    simp at hx
    rcases hx with rfl | rfl | rfl | rfl
    · exact Or.inl rfl
    · exact Or.inr (Or.inl rfl)
    · exact Or.inr (Or.inr (Or.inl rfl))
    · exact Or.inr (Or.inr (Or.inr rfl))
  | _ :: _ :: _ :: _ :: _ :: _, hl, _ => simp at hl

/-- When the main loop of `IPv6Address::parse` returns `true`, every character from
`previous` on is a hexadecimal digit or a colon. -/
theorem IPv6_loop_chars (s : Str) : ∀ (fuel previous : Nat) (a : IPv6Address) (gi : Nat)
    (dc : Bool) (pos : Nat),
    (IPv6Address.parse.loop s fuel previous a gi dc pos).1 = true →
    ∀ c ∈ s.drop previous, (hexDigitValue? c).isSome = true ∨ c = ch ':' := by
  intro fuel
  induction fuel with
  | zero =>
    intro previous a gi dc pos h
    simp [IPv6Address.parse.loop] at h
  | succ fuel ih =>
    intro previous a gi dc pos h c hc
    by_cases hlt : previous < s.length
    swap
    · rw [List.drop_eq_nil_of_le (by omega)] at hc
      simp at hc
    by_cases h8 : 8 = gi
    · simp [IPv6Address.parse.loop, hlt, h8] at h
    by_cases h4 : 4 < findChar (ch ':') (s.drop previous)
    · simp [IPv6Address.parse.loop, hlt, h8, h4] at h
    have hdl : (s.drop previous).length = s.length - previous := List.length_drop _ _
    by_cases h0 : 0 = findChar (ch ':') (s.drop previous)
    · have hsp := findChar_split (ch ':') (s.drop previous) (by omega)
      rw [← h0] at hsp
      simp only [List.take_zero, List.nil_append, List.drop_drop, Nat.zero_add] at hsp
      rw [hsp] at hc
      rcases List.mem_cons.1 hc with rfl | hc
      · exact Or.inr rfl
      · simp only [IPv6Address.parse.loop, hlt, not_true_eq_false, if_false, h8, ← h0,
          Nat.lt_irrefl, if_true, Nat.add_zero] at h
        split_ifs at h with hlast hzero hcol hbad
        · rw [List.drop_eq_nil_of_le (by omega)] at hc
          simp at hc
        · subst hcol
          have h1 : s.getD 1 0 = ch ':' := by
            by_contra hne
            exact hbad (fun e => hne e.symm)
          have hlen1 : 1 < s.length := by
            by_contra hle
            rw [List.getD_eq_default _ _ (by omega)] at h1
            revert h1; decide
          have hd1 : s.drop 1 = s.getD 1 0 :: s.drop 2 := by
            rw [List.getD_eq_getElem _ _ hlen1]
            exact List.drop_eq_getElem_cons hlen1
          rw [Nat.zero_add, hd1, h1] at hc
          rcases List.mem_cons.1 hc with rfl | hc
          · exact Or.inr rfl
          · exact ih _ _ _ _ _ h c hc
        · exact ih _ _ _ _ _ h c hc
    · simp only [IPv6Address.parse.loop, hlt, not_true_eq_false, if_false, h8, h4, h0] at h
      have hk4 : ((s.drop previous).take (findChar (ch ':') (s.drop previous))).length ≤ 4 := by
        rw [List.length_take]; omega
      split at h
      · rename_i b1 b2 e1 e2
        obtain ⟨g0, g1⟩ := HexToByte_isSome _ _ _ e1
        obtain ⟨g2, g3⟩ := HexToByte_isSome _ _ _ e2
        have hgroup : ∀ x ∈ (s.drop previous).take (findChar (ch ':') (s.drop previous)),
            (hexDigitValue? x).isSome = true := by
          intro x hx
          rcases mem_characters _ hk4 x hx with rfl | rfl | rfl | rfl
          · exact g0
          · exact g1
          · exact g2
          · exact g3
        by_cases hend : findChar (ch ':') (s.drop previous) < (s.drop previous).length
        · have hsp := findChar_split (ch ':') (s.drop previous) hend
          rw [hsp] at hc
          rcases List.mem_append.1 hc with hc | hc
          · exact Or.inl (hgroup c hc)
          · rcases List.mem_cons.1 hc with rfl | hc
            · exact Or.inr rfl
            · rw [List.drop_drop] at hc
              exact ih _ _ _ _ _ h c hc
        · rw [← findChar_take_all (ch ':') (s.drop previous) hend] at hc
          exact Or.inl (hgroup c hc)
      · simp at h

/-- A text that `IPv6Address::parse` accepts holds a colon. -/
theorem IPv6_parse_has_colon (prior : IPv6Address) (L : Str)
    (h : (IPv6Address.parse prior L).1 = true) : findChar (ch ':') L < L.length := by
  by_contra hno
  have hle := findChar_le_length (ch ':') L
  have hk : findChar (ch ':') L = L.length := by omega
  by_cases hb : 2 > L.length ∨ L.length > 39
  · simp [IPv6Address.parse, hb] at h
  have hlt : 0 < L.length := by omega
  have h0 : ¬ 0 = L.length := by omega
  simp only [IPv6Address.parse, Bool.or_eq_true, decide_eq_true_eq, hb, if_false,
    IPv6Address.parse.loop, hlt, not_true_eq_false, List.drop_zero, hk, Nat.zero_add, h0] at h
  split_ifs at h with h8
  · exact absurd h8 (by decide)
  · split at h
    · have he := fun a => IPv6_loop_end L (L.length - 1) (L.length + 1) (by omega) a 1 false
        SIZE_MAX
      rw [show L.length - 1 + 1 = L.length by omega] at he
      rw [he] at h
      simp only [IPv6Address.parse.finish] at h
      split_ifs at h
      all_goals simp at h
    · simp at h

/-- The characters of a text that `IPv6Address::parse` accepts are hexadecimal digits and
colons. -/
theorem IPv6_parse_chars (prior : IPv6Address) (L : Str)
    (h : (IPv6Address.parse prior L).1 = true) :
    ∀ c ∈ L, (hexDigitValue? c).isSome = true ∨ c = ch ':' := by
  by_cases hb : 2 > L.length ∨ L.length > 39
  · simp [IPv6Address.parse, hb] at h
  simp only [IPv6Address.parse, Bool.or_eq_true, decide_eq_true_eq, hb, if_false] at h
  have := IPv6_loop_chars L _ _ _ _ _ _ h
  simpa using this

theorem IPv6_parse_length (prior : IPv6Address) (L : Str)
    (h : (IPv6Address.parse prior L).1 = true) : L.length ≤ 39 := by
  by_cases hb : 2 > L.length ∨ L.length > 39
  · simp [IPv6Address.parse, hb] at h
  · omega

set_option maxRecDepth 1000000 in
theorem hexDigit_not_special : ∀ c : Byte, (hexDigitValue? c).isSome = true →
    c ≠ ch '@' ∧ c ≠ ch ']' := by
  decide

theorem findChar_append_lt (c : Byte) (xs rest : Str) (h : findChar c xs < xs.length) :
    findChar c (xs ++ rest) = findChar c xs := by
  induction xs with
  | nil => simp at h
  | cons b xs ih =>
    by_cases hb : b = c
    · simp [findChar, hb]
    · simp only [findChar, hb, if_false, List.length_cons, Nat.add_lt_add_iff_right] at h
      simp only [List.cons_append, findChar, hb, if_false]
      exact congrArg (fun n => n + 1) (ih h)

theorem getD_last_mem (l : Str) (h : l ≠ []) : l.getD (l.length - 1) 0 ∈ l := by
  have hl : l.length - 1 < l.length := by
    cases l with
    | nil => exact absurd rfl h
    | cons a t => simp
  rw [List.getD_eq_getElem _ _ hl]
  exact List.getElem_mem _

/-- The label loop fails on every text that begins with `[`. -/
theorem Host_parse_labels_bracket_first (fuel : Nat) (t : Str) :
    Host.parse.labels fuel (ch '[' :: t) = false := by
  cases fuel with
  | zero => rfl
  | succ fuel =>
    have hfind : findChar (ch '.') (ch '[' :: t) = findChar (ch '.') t + 1 := by
      have hne : ch '[' ≠ ch '.' := by decide
      simp [findChar, hne]
    have hv : ∀ r : Str, Host.validateLabel_ (ch '[' :: r) = false := by
      intro r
      have hbad : ((ch '0' ≤ ch '[' && ch '[' ≤ ch '9') || (ch 'a' ≤ ch '[' && ch '[' ≤ ch 'z') ||
          (ch 'A' ≤ ch '[' && ch '[' ≤ ch 'Z') || ch '-' == ch '[') = false := by decide
      simp only [Host.validateLabel_, List.all_cons, hbad, Bool.false_and, Bool.and_false]
    simp only [Host.parse.labels, List.length_cons, Nat.add_one_ne_zero, if_false, hfind,
      List.take_succ_cons, hv, Bool.not_false, if_true]

/-- A text that begins with `[`, is at most 255 characters long and holds no `]` is not a
host. -/
theorem Host_parse_open_bracket (h : Host) (g : Str) (hlen : g.length < 255)
    (hg : ∀ c ∈ g, c ≠ ch ']') : (Host.parse h (ch '[' :: g)).1 = false := by
  have h0 : ¬ (0 = (ch '[' :: g).length ∨ 255 < (ch '[' :: g).length) := by
    simp only [List.length_cons]; omega
  have hlast : ((ch '[' :: g).getD ((ch '[' :: g).length - 1) 0 == ch ']') = false := by
    have hm := getD_last_mem (ch '[' :: g) (by simp)
    rcases List.mem_cons.1 hm with e | hm
    · rw [e]; decide
    · exact beq_false_of_ne (hg _ hm)
  have hdig : (ch '0' ≤ ch '[' && ch '[' ≤ ch '9') = false := by decide
  have hlab := Host_parse_labels_bracket_first ((ch '[' :: g).length + 1) g
  simp only [Host.parse, Bool.or_eq_true, decide_eq_true_eq, h0, if_false, hlast,
    Bool.and_false, Bool.false_eq_true, List.getD_cons_zero, hdig, Bool.false_and, hlab,
    Bool.not_false, if_true]

/-- When the text between the optional `@` and the first colon behind it is not a host,
`Authority::parse` returns `false` and leaves the authority cleared. -/
theorem Authority_parse_host_rejected (a : Authority) (s : Str)
    (hhost : ∀ h : Host, (Host.parse h
      ((if s.length ≠ findChar (ch '@') s then s.drop (findChar (ch '@') s + 1) else s).take
        (findChar (ch ':')
          (if s.length ≠ findChar (ch '@') s then s.drop (findChar (ch '@') s + 1) else s)))).1 =
        false) :
    Authority.parse a s = (false, ⟨⟨[], []⟩, ⟨[], HostType.None⟩, 0⟩) := by
  simp only [Authority.parse, Authority_clear_eq, hhost, Bool.not_false, if_true]
  split_ifs <;> rfl

/-- C37: `Authority::parse` returns `false` and leaves the authority cleared for every
input whose host part is a bracketed literal `[L]` with `L` accepted by
`IPv6Address::parse`: with or without user information in front (a text without `@`,
followed by `@`) and with any text without `@` behind the `]`, such as a colon and a port.
The text handed to `Host::parse` ends before the first colon of `L`. -/
theorem Authority_parse_rejects_bracketed (a : Authority) (prior : IPv6Address)
    (pre L post : Str)
    (hpre : pre = [] ∨ ∃ u, pre = u ++ [ch '@'] ∧ ch '@' ∉ u)
    (hL : (IPv6Address.parse prior L).1 = true) (hpost : ch '@' ∉ post) :
    Authority.parse a (pre ++ ch '[' :: (L ++ ch ']' :: post)) =
      (false, ⟨⟨[], []⟩, ⟨[], HostType.None⟩, 0⟩) := by
  have hchars := IPv6_parse_chars prior L hL
  have hcolon := IPv6_parse_has_colon prior L hL
  have hlen := IPv6_parse_length prior L hL
  have hat : ∀ x ∈ ch '[' :: (L ++ ch ']' :: post), x ≠ ch '@' := by
    intro x hx
    rcases List.mem_cons.1 hx with rfl | hx
    · decide
    · rcases List.mem_append.1 hx with hx | hx
      · rcases hchars x hx with hh | rfl
        · exact (hexDigit_not_special x hh).1
        · decide
      · rcases List.mem_cons.1 hx with rfl | hx
        · decide
        · intro e; exact hpost (e ▸ hx)
  have hfindH : findChar (ch ':') (ch '[' :: (L ++ ch ']' :: post)) = findChar (ch ':') L + 1 := by
    have hne : ch '[' ≠ ch ':' := by decide
    simp only [findChar, hne, if_false, findChar_append_lt _ _ _ hcolon]
  have hhostH : ∀ h : Host, (Host.parse h ((ch '[' :: (L ++ ch ']' :: post)).take
      (findChar (ch ':') (ch '[' :: (L ++ ch ']' :: post))))).1 = false := by
    intro h
    rw [hfindH, List.take_succ_cons, List.take_append_of_le_length (by omega)]
    apply Host_parse_open_bracket
    · rw [List.length_take]; omega
    · intro c hc
      have hcL : c ∈ L := List.mem_of_mem_take hc
      rcases hchars c hcL with hh | rfl
      · exact (hexDigit_not_special c hh).2
      · exact absurd rfl (findChar_take_ne (ch ':') L _ hc)
  apply Authority_parse_host_rejected
  rcases hpre with rfl | ⟨u, rfl, hu⟩
  · have hfind : findChar (ch '@') ([] ++ ch '[' :: (L ++ ch ']' :: post)) =
        ([] ++ ch '[' :: (L ++ ch ']' :: post)).length := findChar_absent _ _ hat
    simp only [hfind, ne_eq, not_true_eq_false, if_false]
    exact hhostH
  · have e : u ++ [ch '@'] ++ ch '[' :: (L ++ ch ']' :: post) =
        u ++ ch '@' :: (ch '[' :: (L ++ ch ']' :: post)) := by simp
    have hfind : findChar (ch '@') (u ++ ch '@' :: (ch '[' :: (L ++ ch ']' :: post))) = u.length :=
      findChar_append _ _ _ (findChar_absent _ _ (fun x hx e => hu (e ▸ hx)))
    have hne : (u ++ ch '@' :: (ch '[' :: (L ++ ch ']' :: post))).length ≠ u.length := by
      simp only [List.length_append, List.length_cons]; omega
    have hdrop : (u ++ ch '@' :: (ch '[' :: (L ++ ch ']' :: post))).drop (u.length + 1) =
        ch '[' :: (L ++ ch ']' :: post) := by
      rw [show u ++ ch '@' :: (ch '[' :: (L ++ ch ']' :: post)) =
        (u ++ [ch '@']) ++ (ch '[' :: (L ++ ch ']' :: post)) by simp]
      exact List.drop_left' (by simp)
    rw [e]
    simp only [hfind, hne, ne_eq, not_false_eq_true, if_true, hdrop]
    exact hhostH

set_option maxRecDepth 1000000 in
/-- Witness for C37: the input `user@[::1]:80`. -/
theorem Authority_parse_rejects_bracketed_witness :
    (str "user@" = [] ∨ ∃ u, str "user@" = u ++ [ch '@'] ∧ ch '@' ∉ u) ∧
      (IPv6Address.parse IPv6Address.zero (str "::1")).1 = true ∧ ch '@' ∉ str ":80" ∧
      Authority.parse ⟨⟨str "u", str "p"⟩, ⟨str "h", HostType.Name⟩, 80⟩
          (str "user@" ++ ch '[' :: (str "::1" ++ ch ']' :: str ":80")) =
        (false, ⟨⟨[], []⟩, ⟨[], HostType.None⟩, 0⟩) :=
  ⟨Or.inr ⟨str "user", by decide, by decide⟩, by decide, by decide,
    Authority_parse_rejects_bracketed ⟨⟨str "u", str "p"⟩, ⟨str "h", HostType.Name⟩, 80⟩
      IPv6Address.zero (str "user@") (str "::1") (str ":80")
      (Or.inr ⟨str "user", by decide, by decide⟩) (by decide) (by decide)⟩

end Cronz
